import Mathlib

/-!
# Verification development for the user import service

A shallow embedding of `app/service/user` (options, identifier decoding,
stream decoding, validation and the worker pool of `Service.Import`)
together with the properties established about it.

Conventions.
* Go `int` values are `Int`; a `uint64` is a `Nat` (bounded where it matters).
* A Go byte string is the list of its code points (`List Nat`); the input
  is taken to be valid UTF-8, so that a code point stands for its bytes.
* A Go `error` is an `Option Err`, `none` standing for `nil`; a Go pair
  `(value, error)` is an `Except Err value`.
* The standard library (`encoding/json`, `strconv`, `strings`) and the
  validation rule `validation.Required` are not part of the repository; the
  parts the service uses are modelled here from their documented behaviour,
  each under a heading that says so.
* `Service.Import` runs goroutines; it is given as a transition system whose
  runs are the interleavings of their atomic moves.
-/

namespace UserImport

/-! ## param.go / service.go: options -/

/-- Go constant `maxAllowedWorkers`. -/
def maxAllowedWorkers : Int := 10

/-- Go constant `defaultQueueSize`. -/
def defaultQueueSize : Int := 200

/-- Go struct `ImportOptions`. -/
structure ImportOptions where
  MaxWorkers : Int
  QueueSize : Int
deriving DecidableEq, Repr

/-- Go function `normalizeOptions` (service.go). -/
def normalizeOptions (opts : ImportOptions) : ImportOptions :=
  let res := opts
  let res :=
    if res.MaxWorkers ≤ 0 ∨ res.MaxWorkers > maxAllowedWorkers then
      { res with MaxWorkers := maxAllowedWorkers }
    else res
  let res :=
    if res.QueueSize ≤ 0 then { res with QueueSize := defaultQueueSize } else res
  res

/-! ## encoding/json: the byte scanner (library model)

The Go standard library scanner (`encoding/json/scanner.go`) is a state
machine fed one byte at a time.  It is modelled state for state, since the
decoder used by `streamUsers` finds the end of each record with it. -/

/-- Go constants `scanContinue` .. `scanError`. -/
inductive ScanCode where
  | scanContinue | scanBeginLiteral | scanBeginObject | scanObjectKey
  | scanObjectValue | scanEndObject | scanBeginArray | scanArrayValue
  | scanEndArray | scanSkipSpace | scanEnd | scanError
deriving DecidableEq, Repr

/-- Go constants `parseObjectKey`, `parseObjectValue`, `parseArrayValue`. -/
inductive ParseState where
  | parseObjectKey | parseObjectValue | parseArrayValue
deriving DecidableEq, Repr

/-- The step functions of the scanner, one constructor per Go function. -/
inductive StepFn where
  | stateBeginValueOrEmpty | stateBeginValue | stateBeginStringOrEmpty
  | stateBeginString | stateEndValue | stateEndTop
  | stateInString | stateInStringEsc | stateInStringEscU | stateInStringEscU1
  | stateInStringEscU12 | stateInStringEscU123
  | stateNeg | state1 | state0 | stateDot | stateDot0 | stateE | stateESign | stateE0
  | stateT | stateTr | stateTru | stateF | stateFa | stateFal | stateFals
  | stateN | stateNu | stateNul | stateError
deriving DecidableEq, Repr

/-- Go struct `scanner`; `parseState` keeps the top of the stack at the head. -/
structure Scanner where
  step : StepFn
  endTop : Bool
  parseState : List ParseState
deriving DecidableEq, Repr

/-- Go constant `maxNestingDepth`. -/
def maxNestingDepth : Nat := 10000

/-- Go `scanner.reset`. -/
def Scanner.reset : Scanner :=
  { step := StepFn.stateBeginValue, endTop := false, parseState := [] }

/-- Go `isSpace`: space, tab, CR, LF. -/
def isSpace (c : Nat) : Bool := c == 32 || c == 9 || c == 13 || c == 10

/-- Decimal digit test, `'0' <= c && c <= '9'`. -/
def isDigit (c : Nat) : Bool := 48 ≤ c && c ≤ 57

/-- Digit `'1' <= c && c <= '9'`. -/
def isDigit19 (c : Nat) : Bool := 49 ≤ c && c ≤ 57

/-- Hexadecimal digit test used for unicode escapes. -/
def isHex (c : Nat) : Bool :=
  (48 ≤ c && c ≤ 57) || (97 ≤ c && c ≤ 102) || (65 ≤ c && c ≤ 70)

/-- Go `scanner.error`: enter the error state. -/
def Scanner.error (s : Scanner) : Scanner × ScanCode :=
  ({ s with step := StepFn.stateError }, ScanCode.scanError)

/-- Go `scanner.pushParseState`. -/
def Scanner.pushParseState (s : Scanner) (newParseState : ParseState)
    (successState : ScanCode) : Scanner × ScanCode :=
  let s1 := { s with parseState := newParseState :: s.parseState }
  if s1.parseState.length ≤ maxNestingDepth then (s1, successState) else s1.error

/-- Go `scanner.popParseState`. -/
def Scanner.popParseState (s : Scanner) : Scanner :=
  let rest := s.parseState.tail
  if rest.length = 0 then
    { s with parseState := rest, step := StepFn.stateEndTop, endTop := true }
  else
    { s with parseState := rest, step := StepFn.stateEndValue }

/-- Go `stateEndTop`: the scan code is always `scanEnd`; a non-space byte
also records an error for the next call. -/
def stateEndTop (s : Scanner) (c : Nat) : Scanner × ScanCode :=
  if !isSpace c then ((s.error).1, ScanCode.scanEnd) else (s, ScanCode.scanEnd)

/-- Go `stateEndValue`. -/
def stateEndValue (s : Scanner) (c : Nat) : Scanner × ScanCode :=
  match s.parseState with
  | [] => stateEndTop { s with step := StepFn.stateEndTop, endTop := true } c
  | ps :: rest =>
    if isSpace c then ({ s with step := StepFn.stateEndValue }, ScanCode.scanSkipSpace)
    else match ps with
      | ParseState.parseObjectKey =>
        if c = 58 then -- colon
          ({ s with parseState := ParseState.parseObjectValue :: rest,
                    step := StepFn.stateBeginValue }, ScanCode.scanObjectKey)
        else s.error
      | ParseState.parseObjectValue =>
        if c = 44 then -- comma
          ({ s with parseState := ParseState.parseObjectKey :: rest,
                    step := StepFn.stateBeginString }, ScanCode.scanObjectValue)
        else if c = 125 then -- closing brace
          (s.popParseState, ScanCode.scanEndObject)
        else s.error
      | ParseState.parseArrayValue =>
        if c = 44 then ({ s with step := StepFn.stateBeginValue }, ScanCode.scanArrayValue)
        else if c = 93 then -- closing bracket
          (s.popParseState, ScanCode.scanEndArray)
        else s.error

/-- Helper for the many states that accept one byte and move on. -/
def Scanner.goto (s : Scanner) (st : StepFn) (code : ScanCode) : Scanner × ScanCode :=
  ({ s with step := st }, code)

/-- Go `stateBeginValue`. -/
def stateBeginValue (s : Scanner) (c : Nat) : Scanner × ScanCode :=
  if isSpace c then (s, ScanCode.scanSkipSpace)
  else if c = 123 then -- opening brace
    ({ s with step := StepFn.stateBeginStringOrEmpty }).pushParseState
      ParseState.parseObjectKey ScanCode.scanBeginObject
  else if c = 91 then -- opening bracket
    ({ s with step := StepFn.stateBeginValueOrEmpty }).pushParseState
      ParseState.parseArrayValue ScanCode.scanBeginArray
  else if c = 34 then s.goto StepFn.stateInString ScanCode.scanBeginLiteral -- quote
  else if c = 45 then s.goto StepFn.stateNeg ScanCode.scanBeginLiteral -- minus
  else if c = 48 then s.goto StepFn.state0 ScanCode.scanBeginLiteral -- zero
  else if c = 116 then s.goto StepFn.stateT ScanCode.scanBeginLiteral -- t
  else if c = 102 then s.goto StepFn.stateF ScanCode.scanBeginLiteral -- f
  else if c = 110 then s.goto StepFn.stateN ScanCode.scanBeginLiteral -- n
  else if isDigit19 c then s.goto StepFn.state1 ScanCode.scanBeginLiteral
  else s.error

/-- Go `stateBeginValueOrEmpty`. -/
def stateBeginValueOrEmpty (s : Scanner) (c : Nat) : Scanner × ScanCode :=
  if isSpace c then (s, ScanCode.scanSkipSpace)
  else if c = 93 then stateEndValue s c
  else stateBeginValue s c

/-- Go `stateBeginString`. -/
def stateBeginString (s : Scanner) (c : Nat) : Scanner × ScanCode :=
  if isSpace c then (s, ScanCode.scanSkipSpace)
  else if c = 34 then s.goto StepFn.stateInString ScanCode.scanBeginLiteral
  else s.error

/-- Go `stateBeginStringOrEmpty`. -/
def stateBeginStringOrEmpty (s : Scanner) (c : Nat) : Scanner × ScanCode :=
  if isSpace c then (s, ScanCode.scanSkipSpace)
  else if c = 125 then
    stateEndValue { s with parseState := ParseState.parseObjectValue :: s.parseState.tail } c
  else stateBeginString s c

/-- Go `stateInString`. -/
def stateInString (s : Scanner) (c : Nat) : Scanner × ScanCode :=
  if c = 34 then s.goto StepFn.stateEndValue ScanCode.scanContinue
  else if c = 92 then s.goto StepFn.stateInStringEsc ScanCode.scanContinue -- backslash
  else if c < 32 then s.error
  else (s, ScanCode.scanContinue)

/-- Go `stateInStringEsc`: the byte after a backslash. -/
def stateInStringEsc (s : Scanner) (c : Nat) : Scanner × ScanCode :=
  if c = 98 ∨ c = 102 ∨ c = 110 ∨ c = 114 ∨ c = 116 ∨ c = 92 ∨ c = 47 ∨ c = 34 then
    s.goto StepFn.stateInString ScanCode.scanContinue
  else if c = 117 then s.goto StepFn.stateInStringEscU ScanCode.scanContinue
  else s.error

/-- Go `stateInStringEscU` .. `stateInStringEscU123`: one hexadecimal digit. -/
def stateHex (s : Scanner) (next : StepFn) (c : Nat) : Scanner × ScanCode :=
  if isHex c then s.goto next ScanCode.scanContinue else s.error

/-- Go `state0`: after a leading zero. -/
def state0 (s : Scanner) (c : Nat) : Scanner × ScanCode :=
  if c = 46 then s.goto StepFn.stateDot ScanCode.scanContinue -- dot
  else if c = 101 ∨ c = 69 then s.goto StepFn.stateE ScanCode.scanContinue -- e, E
  else stateEndValue s c

/-- Go `state1`: inside the integer digits. -/
def state1 (s : Scanner) (c : Nat) : Scanner × ScanCode :=
  if isDigit c then s.goto StepFn.state1 ScanCode.scanContinue else state0 s c

/-- Go `stateNeg`: after the minus sign. -/
def stateNeg (s : Scanner) (c : Nat) : Scanner × ScanCode :=
  if c = 48 then s.goto StepFn.state0 ScanCode.scanContinue
  else if isDigit19 c then s.goto StepFn.state1 ScanCode.scanContinue
  else s.error

/-- Go `stateDot`. -/
def stateDot (s : Scanner) (c : Nat) : Scanner × ScanCode :=
  if isDigit c then s.goto StepFn.stateDot0 ScanCode.scanContinue else s.error

/-- Go `stateDot0`. -/
def stateDot0 (s : Scanner) (c : Nat) : Scanner × ScanCode :=
  if isDigit c then (s, ScanCode.scanContinue)
  else if c = 101 ∨ c = 69 then s.goto StepFn.stateE ScanCode.scanContinue
  else stateEndValue s c

/-- Go `stateESign`. -/
def stateESign (s : Scanner) (c : Nat) : Scanner × ScanCode :=
  if isDigit c then s.goto StepFn.stateE0 ScanCode.scanContinue else s.error

/-- Go `stateE`. -/
def stateE (s : Scanner) (c : Nat) : Scanner × ScanCode :=
  if c = 43 ∨ c = 45 then s.goto StepFn.stateESign ScanCode.scanContinue
  else stateESign s c

/-- Go `stateE0`. -/
def stateE0 (s : Scanner) (c : Nat) : Scanner × ScanCode :=
  if isDigit c then (s, ScanCode.scanContinue) else stateEndValue s c

/-- Go `stateT`, `stateTr`, ... : one expected letter of `true`, `false`, `null`. -/
def stateLetter (s : Scanner) (expected : Nat) (next : StepFn) (c : Nat) :
    Scanner × ScanCode :=
  if c = expected then s.goto next ScanCode.scanContinue else s.error

/-- Dispatch on `s.step`: the Go call `s.step(s, c)`. -/
def Scanner.stepByte (s : Scanner) (c : Nat) : Scanner × ScanCode :=
  match s.step with
  | StepFn.stateBeginValueOrEmpty => stateBeginValueOrEmpty s c
  | StepFn.stateBeginValue => stateBeginValue s c
  | StepFn.stateBeginStringOrEmpty => stateBeginStringOrEmpty s c
  | StepFn.stateBeginString => stateBeginString s c
  | StepFn.stateEndValue => stateEndValue s c
  | StepFn.stateEndTop => stateEndTop s c
  | StepFn.stateInString => stateInString s c
  | StepFn.stateInStringEsc => stateInStringEsc s c
  | StepFn.stateInStringEscU => stateHex s StepFn.stateInStringEscU1 c
  | StepFn.stateInStringEscU1 => stateHex s StepFn.stateInStringEscU12 c
  | StepFn.stateInStringEscU12 => stateHex s StepFn.stateInStringEscU123 c
  | StepFn.stateInStringEscU123 => stateHex s StepFn.stateInString c
  | StepFn.stateNeg => stateNeg s c
  | StepFn.state1 => state1 s c
  | StepFn.state0 => state0 s c
  | StepFn.stateDot => stateDot s c
  | StepFn.stateDot0 => stateDot0 s c
  | StepFn.stateE => stateE s c
  | StepFn.stateESign => stateESign s c
  | StepFn.stateE0 => stateE0 s c
  | StepFn.stateT => stateLetter s 114 StepFn.stateTr c
  | StepFn.stateTr => stateLetter s 117 StepFn.stateTru c
  | StepFn.stateTru => stateLetter s 101 StepFn.stateEndValue c
  | StepFn.stateF => stateLetter s 97 StepFn.stateFa c
  | StepFn.stateFa => stateLetter s 108 StepFn.stateFal c
  | StepFn.stateFal => stateLetter s 115 StepFn.stateFals c
  | StepFn.stateFals => stateLetter s 101 StepFn.stateEndValue c
  | StepFn.stateN => stateLetter s 117 StepFn.stateNu c
  | StepFn.stateNu => stateLetter s 108 StepFn.stateNul c
  | StepFn.stateNul => stateLetter s 108 StepFn.stateEndValue c
  | StepFn.stateError => (s, ScanCode.scanError)

/-! ## Errors -/

/-- Go `error` values that can flow through the import, by origin. -/
inductive Err where
  /-- Constant `io.EOF`. -/
  | eof
  /-- Constant `io.ErrUnexpectedEOF`. -/
  | unexpectedEOF
  /-- A `*json.SyntaxError`. -/
  | badJSON
  /-- A `*json.UnmarshalTypeError`. -/
  | typeMismatch
  /-- Value `errors.New("id is required")`. -/
  | idRequired
  /-- Value `fmt.Errorf("id must be numeric: %w", err)`. -/
  | idNotNumeric
  /-- The non-nil `ctx.Err()` of a cancelled context. -/
  | canceled
  /-- An error returned by `Validator.ValidateImportUser`. -/
  | invalid (code : Nat)
  /-- An error returned by `Repository.UpsertUser`. -/
  | repo (code : Nat)
  /-- Value `fmt.Errorf("%w; %v", combined, err)`. -/
  | joined (combined err : Err)
deriving DecidableEq, Repr

/-- Go `errors.Is(err, io.EOF)`: none of the wrapping errors above wraps `io.EOF`
except through the first operand of `joined`. -/
def Err.isEOF : Err → Bool
  | Err.eof => true
  | Err.joined a _ => a.isEOF
  | _ => false

/-- Equality of Go results `(value, error)` is decidable. -/
instance instDecidableEqExcept {ε α : Type} [DecidableEq ε] [DecidableEq α] :
    DecidableEq (Except ε α)
  | Except.ok a, Except.ok b =>
    if h : a = b then isTrue (by rw [h]) else isFalse (fun h1 => h (Except.ok.inj h1))
  | Except.error a, Except.error b =>
    if h : a = b then isTrue (by rw [h]) else isFalse (fun h1 => h (Except.error.inj h1))
  | Except.ok _, Except.error _ => isFalse (fun h => by cases h)
  | Except.error _, Except.ok _ => isFalse (fun h => by cases h)

/-! ## encoding/json: values and unquoting (library model) -/

/-- A parsed JSON value; numbers keep their literal text. -/
inductive JVal where
  | null
  | bool (b : Bool)
  | num (lit : List Nat)
  | str (s : List Nat)
  | arr (elems : List JVal)
  /-- Each member: key, raw text of the value, parsed value. -/
  | obj (members : List (List Nat × List Nat × JVal))
deriving Repr

/-- Value of one hexadecimal digit. -/
def hexVal (c : Nat) : Nat :=
  if 48 ≤ c ∧ c ≤ 57 then c - 48
  else if 97 ≤ c ∧ c ≤ 102 then c - 97 + 10
  else if 65 ≤ c ∧ c ≤ 70 then c - 65 + 10
  else 0

/-- Go `getu4`: decode a backslash-u escape at the head of `s`, if there is one. -/
def getu4 (s : List Nat) : Option Nat :=
  match s with
  | 92 :: 117 :: a :: b :: c :: d :: _ =>
    if isHex a && isHex b && isHex c && isHex d then
      some (hexVal a * 4096 + hexVal b * 256 + hexVal c * 16 + hexVal d)
    else none
  | _ => none

/-- Go constant `unicode.ReplacementChar`. -/
def replacementChar : Nat := 0xFFFD

/-- Go `utf16.IsSurrogate`. -/
def isSurrogate (r : Nat) : Bool := 0xD800 ≤ r && r < 0xE000

/-- Go `utf16.DecodeRune`, with `none` for an absent second half. -/
def decodeSurrogates (r1 : Nat) (r2 : Option Nat) : Nat :=
  match r2 with
  | some r2 =>
    if 0xD800 ≤ r1 ∧ r1 < 0xDC00 ∧ 0xDC00 ≤ r2 ∧ r2 < 0xE000 then
      (r1 - 0xD800) * 1024 + (r2 - 0xDC00) + 0x10000
    else replacementChar
  | none => replacementChar

/-- Go `unquote`, run on the text after the opening quote: the decoded string
and the text after the closing quote.  `fuel` bounds the number of steps and
the length of the text is always enough. -/
def unquoteFrom : Nat → List Nat → List Nat → Option (List Nat × List Nat)
  | 0, _, _ => none
  | fuel + 1, acc, s =>
    match s with
    | [] => none
    | 34 :: rest => some (acc.reverse, rest)
    | 92 :: 117 :: rest =>
      match getu4 (92 :: 117 :: rest) with
      | none => none
      | some rr =>
        let rest4 := rest.drop 4
        if isSurrogate rr then
          let dec := decodeSurrogates rr (getu4 rest4)
          if dec ≠ replacementChar then unquoteFrom fuel (dec :: acc) (rest4.drop 6)
          else unquoteFrom fuel (replacementChar :: acc) rest4
        else unquoteFrom fuel (rr :: acc) rest4
    | 92 :: e :: rest =>
      if e = 34 ∨ e = 92 ∨ e = 47 then unquoteFrom fuel (e :: acc) rest
      else if e = 98 then unquoteFrom fuel (8 :: acc) rest
      else if e = 102 then unquoteFrom fuel (12 :: acc) rest
      else if e = 110 then unquoteFrom fuel (10 :: acc) rest
      else if e = 114 then unquoteFrom fuel (13 :: acc) rest
      else if e = 116 then unquoteFrom fuel (9 :: acc) rest
      else none
    | c :: rest =>
      if c = 92 ∨ c < 32 then none else unquoteFrom fuel (c :: acc) rest

/-- Drop leading JSON white space. -/
def skipSpace (s : List Nat) : List Nat := s.dropWhile isSpace

/-- Bytes that can occur inside a number literal. -/
def isNumberByte (c : Nat) : Bool :=
  isDigit c || c == 45 || c == 43 || c == 46 || c == 101 || c == 69

/-- Does `s` start with the bytes `lit`? Returns the remainder. -/
def stripLit (lit s : List Nat) : Option (List Nat) :=
  if lit.isPrefixOf s then some (s.drop lit.length) else none

mutual
/-- Read one JSON value from text the scanner has accepted (the second pass
of `decodeState`, which walks the same bytes again). -/
def parseValue : Nat → List Nat → Option (JVal × List Nat)
  | 0, _ => none
  | fuel + 1, s =>
    match skipSpace s with
    | [] => none
    | 123 :: rest =>
      match skipSpace rest with
      | 125 :: rest1 => some (JVal.obj [], rest1)
      | _ => parseMembers fuel rest []
    | 91 :: rest =>
      match skipSpace rest with
      | 93 :: rest1 => some (JVal.arr [], rest1)
      | _ => parseElems fuel rest []
    | 34 :: rest =>
      match unquoteFrom (rest.length + 1) [] rest with
      | some (str, rest1) => some (JVal.str str, rest1)
      | none => none
    | 116 :: rest => (stripLit [114, 117, 101] rest).map fun r => (JVal.bool true, r)
    | 102 :: rest => (stripLit [97, 108, 115, 101] rest).map fun r => (JVal.bool false, r)
    | 110 :: rest => (stripLit [117, 108, 108] rest).map fun r => (JVal.null, r)
    | c :: rest =>
      if isNumberByte c then
        some (JVal.num (c :: rest.takeWhile isNumberByte), rest.dropWhile isNumberByte)
      else none
/-- The elements of an array, after the opening bracket or a comma. -/
def parseElems : Nat → List Nat → List JVal → Option (JVal × List Nat)
  | 0, _, _ => none
  | fuel + 1, s, acc =>
    match parseValue fuel s with
    | none => none
    | some (v, rest) =>
      match skipSpace rest with
      | 44 :: rest1 => parseElems fuel rest1 (v :: acc)
      | 93 :: rest1 => some (JVal.arr (v :: acc).reverse, rest1)
      | _ => none
/-- The members of an object, after the opening brace or a comma. -/
def parseMembers : Nat → List Nat → List (List Nat × List Nat × JVal) →
    Option (JVal × List Nat)
  | 0, _, _ => none
  | fuel + 1, s, acc =>
    match skipSpace s with
    | 34 :: rest =>
      match unquoteFrom (rest.length + 1) [] rest with
      | none => none
      | some (key, rest1) =>
        match skipSpace rest1 with
        | 58 :: rest2 =>
          match parseValue fuel rest2 with
          | none => none
          | some (v, rest3) =>
            let start := skipSpace rest2
            let raw := start.take (start.length - rest3.length)
            match skipSpace rest3 with
            | 44 :: rest4 => parseMembers fuel rest4 ((key, raw, v) :: acc)
            | 125 :: rest4 => some (JVal.obj ((key, raw, v) :: acc).reverse, rest4)
            | _ => none
        | _ => none
    | _ => none
end

/-- Text of a string as code points (for examples). -/
def bytes (s : String) : List Nat := s.toList.map Char.toNat

/-- Go `checkValid`, the loop over the bytes: the scanner after the last
byte, or `none` once a step reports `scanError`. -/
def checkValidLoop (s : Scanner) : List Nat → Option Scanner
  | [] => some s
  | c :: cs =>
    let r := s.stepByte c
    if r.2 = ScanCode.scanError then none else checkValidLoop r.1 cs

/-- Go `scanner.eof`; the scanner holds an error exactly in `stateError`. -/
def Scanner.eof (s : Scanner) : ScanCode :=
  if s.step = StepFn.stateError then ScanCode.scanError
  else if s.endTop then ScanCode.scanEnd
  else if (s.stepByte 32).1.endTop then ScanCode.scanEnd
  else ScanCode.scanError

/-- Go `checkValid`: is `data` exactly one JSON value, white space around it allowed? -/
def checkValid (data : List Nat) : Bool :=
  match checkValidLoop Scanner.reset data with
  | none => false
  | some s => s.eof != ScanCode.scanError

/-- Go `strconv.ParseUint(s, 10, 64)`, the digit loop: `none` for a syntax or
range error. -/
def parseUintLoop (n : Nat) : List Nat → Option Nat
  | [] => some n
  | c :: cs =>
    if isDigit c then
      let d := c - 48
      if n ≥ (2 ^ 64 - 1) / 10 + 1 then none
      else if n * 10 + d > 2 ^ 64 - 1 then none
      else parseUintLoop (n * 10 + d) cs
    else none

/-- Go `strconv.ParseUint(s, 10, 64)`. -/
def parseUint (s : List Nat) : Option Nat :=
  if s = [] then none else parseUintLoop 0 s

/-- Go `unicode.IsSpace`. -/
def isUnicodeSpace (c : Nat) : Bool :=
  (9 ≤ c && c ≤ 13) || c == 32 || c == 0x85 || c == 0xA0 || c == 0x1680
    || (0x2000 ≤ c && c ≤ 0x200A) || c == 0x2028 || c == 0x2029 || c == 0x202F
    || c == 0x205F || c == 0x3000

/-- Go `strings.TrimSpace`. -/
def trimSpace (s : List Nat) : List Nat :=
  ((s.dropWhile isUnicodeSpace).reverse.dropWhile isUnicodeSpace).reverse

/-- Go `json.Unmarshal(data, &raw)` for `var raw string`: the new value of `raw`. -/
def unmarshalString (data : List Nat) : Except Err (List Nat) :=
  if checkValid data then
    match parseValue (data.length + 1) data with
    | some (JVal.str str, _) => Except.ok str
    | some (JVal.null, _) => Except.ok []
    | some _ => Except.error Err.typeMismatch
    | none => Except.error Err.badJSON
  else Except.error Err.badJSON

/-- Go `json.Unmarshal(data, &num)` for `var num uint64`: the new value of `num`. -/
def unmarshalUint64 (data : List Nat) : Except Err Nat :=
  if checkValid data then
    match parseValue (data.length + 1) data with
    | some (JVal.num lit, _) =>
      match parseUint lit with
      | some n => Except.ok n
      | none => Except.error Err.typeMismatch
    | some (JVal.null, _) => Except.ok 0
    | some _ => Except.error Err.typeMismatch
    | none => Except.error Err.badJSON
  else Except.error Err.badJSON

/-! ## entity.go -/

/-- Go method `NumericID.UnmarshalJSON`: the value stored in `*n`, or the error. -/
def NumericID.UnmarshalJSON (data : List Nat) : Except Err Nat :=
  if data.length = 0 then Except.error Err.idRequired
  else if data.head? = some 34 then
    match unmarshalString data with
    | Except.error e => Except.error e
    | Except.ok raw =>
      let raw := trimSpace raw
      if raw = [] then Except.error Err.idRequired
      else match parseUint raw with
        | none => Except.error Err.idNotNumeric
        | some val => Except.ok val
  else
    match unmarshalUint64 data with
    | Except.error e => Except.error e
    | Except.ok num => Except.ok num

/-- Go struct `ImportAddress`. -/
structure ImportAddress where
  Street : List Nat
  City : List Nat
  State : List Nat
  ZipCode : List Nat
  Country : List Nat
deriving DecidableEq, Repr

/-- Go struct `ImportUser`; `ID` is the `NumericID` (a `uint64`). -/
structure ImportUser where
  ID : Nat
  Name : List Nat
  Email : List Nat
  PhoneNumber : List Nat
  Addresses : List ImportAddress
deriving DecidableEq, Repr

/-- Go struct `Address`, without the fields the import never sets
(`ID`, `CreatedAt`, `UpdatedAt` stay at their zero values). -/
structure Address where
  Street : List Nat
  City : List Nat
  State : List Nat
  ZipCode : List Nat
  Country : List Nat
deriving DecidableEq, Repr

/-- Go struct `User`, without the timestamps the import never sets. -/
structure User where
  ID : Nat
  Name : List Nat
  Email : List Nat
  PhoneNumber : List Nat
  Addresses : List Address
deriving DecidableEq, Repr

/-- Go method `NumericID.ToID`. -/
def NumericID.ToID (n : Nat) : Nat := n

/-- Go method `ImportUser.ToUser`. -/
def ImportUser.ToUser (u : ImportUser) : User :=
  let addresses := u.Addresses.map fun addr =>
    ({ Street := addr.Street, City := addr.City, State := addr.State,
       ZipCode := addr.ZipCode, Country := addr.Country } : Address)
  { ID := NumericID.ToID u.ID, Name := u.Name, Email := u.Email,
    PhoneNumber := u.PhoneNumber, Addresses := addresses }

/-- The zero value `var u ImportUser`. -/
def ImportUser.zero : ImportUser :=
  { ID := 0, Name := [], Email := [], PhoneNumber := [], Addresses := [] }

/-- The zero value of `ImportAddress`. -/
def ImportAddress.zero : ImportAddress :=
  { Street := [], City := [], State := [], ZipCode := [], Country := [] }

/-! ## encoding/json: storing a value into the record structs (library model)

Keys select a field by exact name and otherwise by case folding; a value of
the wrong JSON kind records an `UnmarshalTypeError` and decoding goes on
(the first one is returned at the end); `null` leaves a string or struct
untouched and empties a slice; an error of `UnmarshalJSON` stops at once. -/

/-- Go `foldRune` restricted to what can match an ASCII field name: lower case
letters fold to upper case, the long s and the Kelvin sign to S and K. -/
def foldByte (c : Nat) : Nat :=
  if 97 ≤ c ∧ c ≤ 122 then c - 32
  else if c = 0x17F then 83
  else if c = 0x212A then 75
  else c

/-- Does the JSON key select the struct field tagged `name`? -/
def keyMatches (name : String) (key : List Nat) : Bool :=
  key.map foldByte == (bytes name).map foldByte

/-- Accumulator of `decodeState`: the first saved `UnmarshalTypeError`. -/
def saveError (saved : Option Err) (e : Err) : Option Err :=
  match saved with
  | some old => some old
  | none => some e

/-- Store a JSON value into a Go `string` field holding `cur`. -/
def storeString (cur : List Nat) (saved : Option Err) (v : JVal) : List Nat × Option Err :=
  match v with
  | JVal.str str => (str, saved)
  | JVal.null => (cur, saved)
  | _ => (cur, saveError saved Err.typeMismatch)

/-- Store the members of an object into an `ImportAddress`. -/
def storeAddressMembers (a : ImportAddress) (saved : Option Err) :
    List (List Nat × List Nat × JVal) → ImportAddress × Option Err
  | [] => (a, saved)
  | (key, _, v) :: rest =>
    if keyMatches "street" key then
      let r := storeString a.Street saved v
      storeAddressMembers { a with Street := r.1 } r.2 rest
    else if keyMatches "city" key then
      let r := storeString a.City saved v
      storeAddressMembers { a with City := r.1 } r.2 rest
    else if keyMatches "state" key then
      let r := storeString a.State saved v
      storeAddressMembers { a with State := r.1 } r.2 rest
    else if keyMatches "zip_code" key then
      let r := storeString a.ZipCode saved v
      storeAddressMembers { a with ZipCode := r.1 } r.2 rest
    else if keyMatches "country" key then
      let r := storeString a.Country saved v
      storeAddressMembers { a with Country := r.1 } r.2 rest
    else storeAddressMembers a saved rest

/-- Store one array element into the slice element `cur` it is decoded
into (Go `d.value(v.Index(i))`): an object merges into the element's
fields, `null` leaves it as it is. -/
def storeAddress (cur : ImportAddress) (saved : Option Err) (v : JVal) :
    ImportAddress × Option Err :=
  match v with
  | JVal.obj members => storeAddressMembers cur saved members
  | JVal.null => (cur, saved)
  | _ => (cur, saveError saved Err.typeMismatch)

/-- Store the elements of an array, element `i` into what the backing array
of the slice holds at index `i` (`old`, zero values beyond it). -/
def storeAddressList (old : List ImportAddress) (saved : Option Err) :
    List JVal → List ImportAddress × Option Err
  | [] => ([], saved)
  | v :: rest =>
    let r := storeAddress (old.headD ImportAddress.zero) saved v
    let rs := storeAddressList old.tail r.2 rest
    (r.1 :: rs.1, rs.2)

/-- Store a JSON value into the field `Addresses` (Go `d.array` on a slice).
The slice holds `cur`; `spare` is what its backing array holds between
length and capacity.  A non-empty array is decoded element by element into
the backing array and the slice is cut to the number of elements; an empty
array makes a new empty slice and `null` the nil slice. -/
def storeAddresses (cur spare : List ImportAddress) (saved : Option Err) (v : JVal) :
    (List ImportAddress × List ImportAddress) × Option Err :=
  match v with
  | JVal.arr [] => (([], []), saved)
  | JVal.arr elems =>
    let r := storeAddressList (cur ++ spare) saved elems
    ((r.1, (cur ++ spare).drop elems.length), r.2)
  | JVal.null => (([], []), saved)
  | _ => ((cur, spare), saveError saved Err.typeMismatch)

/-- Store the members of an object into an `ImportUser`, in order; the
error of `NumericID.UnmarshalJSON` aborts, type errors are saved.  The list
`spare` is the part of the backing array of `u.Addresses` beyond its
length. -/
def storeUserMembers (u : ImportUser) (spare : List ImportAddress) (saved : Option Err) :
    List (List Nat × List Nat × JVal) → Except Err (ImportUser × Option Err)
  | [] => Except.ok (u, saved)
  | (key, raw, v) :: rest =>
    if keyMatches "id" key then
      match NumericID.UnmarshalJSON raw with
      | Except.error e => Except.error e
      | Except.ok n => storeUserMembers { u with ID := n } spare saved rest
    else if keyMatches "name" key then
      let r := storeString u.Name saved v
      storeUserMembers { u with Name := r.1 } spare r.2 rest
    else if keyMatches "email" key then
      let r := storeString u.Email saved v
      storeUserMembers { u with Email := r.1 } spare r.2 rest
    else if keyMatches "phone_number" key then
      let r := storeString u.PhoneNumber saved v
      storeUserMembers { u with PhoneNumber := r.1 } spare r.2 rest
    else if keyMatches "addresses" key then
      let r := storeAddresses u.Addresses spare saved v
      storeUserMembers { u with Addresses := r.1.1 } r.1.2 r.2 rest
    else storeUserMembers u spare saved rest

/-- Store a parsed JSON value into `var u ImportUser` (Go `d.value`). -/
def storeUser (v : JVal) : Except Err ImportUser :=
  match v with
  | JVal.obj members =>
    match storeUserMembers ImportUser.zero [] none members with
    | Except.error e => Except.error e
    | Except.ok (u, none) => Except.ok u
    | Except.ok (_, some e) => Except.error e
  | JVal.null => Except.ok ImportUser.zero
  | _ => Except.error Err.typeMismatch

/-- Go `d.unmarshal(&u)` on the bytes of one value found by `readValue`. -/
def unmarshalImportUser (data : List Nat) : Except Err ImportUser :=
  match parseValue (data.length + 1) data with
  | some (v, _) => storeUser v
  | none => Except.error Err.badJSON

/-! ## encoding/json: the streaming decoder (library model) -/

/-- Go constants `tokenTopValue` .. `tokenObjectComma`. -/
inductive TokenState where
  | tokenTopValue | tokenArrayStart | tokenArrayValue | tokenArrayComma
  | tokenObjectStart | tokenObjectKey | tokenObjectColon | tokenObjectValue
  | tokenObjectComma
deriving DecidableEq, Repr

/-- Go struct `json.Decoder` reading from a stream whose unread bytes are
`input` (the reader delivers them all and then reports `io.EOF`). -/
structure Decoder where
  input : List Nat
  err : Option Err
  tokenState : TokenState
  tokenStack : List TokenState
deriving DecidableEq, Repr

/-- Go `json.NewDecoder`. -/
def NewDecoder (input : List Nat) : Decoder :=
  { input := input, err := none, tokenState := TokenState.tokenTopValue, tokenStack := [] }

/-- Go `nonSpace`. -/
def nonSpace (b : List Nat) : Bool := b.any fun c => !isSpace c

/-- Go `Decoder.readValue`, the scan over the unread bytes: the number of
bytes of the next value.  `n` counts the bytes stepped over, `all` is the
whole unread input (for the end-of-input report). -/
def readValueLoop (all : List Nat) (s : Scanner) (n : Nat) : List Nat → Except Err Nat
  | [] =>
    if (s.stepByte 32).2 = ScanCode.scanEnd then Except.ok n
    else if nonSpace all then Except.error Err.unexpectedEOF
    else Except.error Err.eof
  | c :: cs =>
    let r := s.stepByte c
    match r.2 with
    | ScanCode.scanEnd => Except.ok n
    | ScanCode.scanEndObject =>
      if (stateEndValue r.1 32).2 = ScanCode.scanEnd then Except.ok (n + 1)
      else readValueLoop all r.1 (n + 1) cs
    | ScanCode.scanEndArray =>
      if (stateEndValue r.1 32).2 = ScanCode.scanEnd then Except.ok (n + 1)
      else readValueLoop all r.1 (n + 1) cs
    | ScanCode.scanError => Except.error Err.badJSON
    | _ => readValueLoop all r.1 (n + 1) cs

/-- Go `Decoder.readValue`. -/
def readValue (input : List Nat) : Except Err Nat :=
  readValueLoop input Scanner.reset 0 input

/-- Go `Decoder.peek`: skip white space; the next byte, or `io.EOF`. -/
def Decoder.peek (dec : Decoder) : Except Err (Nat × Decoder) :=
  match skipSpace dec.input with
  | [] => Except.error Err.eof
  | c :: rest => Except.ok (c, { dec with input := c :: rest })

/-- Go `Decoder.More`. -/
def Decoder.More (dec : Decoder) : Bool × Decoder :=
  match dec.peek with
  | Except.error _ => (false, dec)
  | Except.ok (c, dec1) => (c != 93 && c != 125, dec1)

/-- Go `Decoder.tokenValueAllowed`. -/
def Decoder.tokenValueAllowed (dec : Decoder) : Bool :=
  match dec.tokenState with
  | TokenState.tokenTopValue | TokenState.tokenArrayStart
  | TokenState.tokenArrayValue | TokenState.tokenObjectValue => true
  | _ => false

/-- Go `Decoder.tokenValueEnd`. -/
def Decoder.tokenValueEnd (dec : Decoder) : Decoder :=
  match dec.tokenState with
  | TokenState.tokenArrayStart | TokenState.tokenArrayValue =>
    { dec with tokenState := TokenState.tokenArrayComma }
  | TokenState.tokenObjectValue => { dec with tokenState := TokenState.tokenObjectComma }
  | _ => dec

/-- Go `Decoder.tokenPrepareForDecode`. -/
def Decoder.tokenPrepareForDecode (dec : Decoder) : Except Err Decoder :=
  match dec.tokenState with
  | TokenState.tokenArrayComma =>
    match dec.peek with
    | Except.error e => Except.error e
    | Except.ok (c, dec1) =>
      if c ≠ 44 then Except.error Err.badJSON
      else Except.ok { dec1 with input := dec1.input.tail,
                                 tokenState := TokenState.tokenArrayValue }
  | TokenState.tokenObjectColon =>
    match dec.peek with
    | Except.error e => Except.error e
    | Except.ok (c, dec1) =>
      if c ≠ 58 then Except.error Err.badJSON
      else Except.ok { dec1 with input := dec1.input.tail,
                                 tokenState := TokenState.tokenObjectValue }
  | _ => Except.ok dec

/-- Go `Decoder.Decode`, up to the point where the bytes of the next value
are cut out of the stream: those bytes and the decoder after them. -/
def Decoder.nextValue (dec : Decoder) : Except Err (List Nat) × Decoder :=
  match dec.err with
  | some e => (Except.error e, dec)
  | none =>
    match dec.tokenPrepareForDecode with
    | Except.error e => (Except.error e, dec)
    | Except.ok dec1 =>
      if !dec1.tokenValueAllowed then (Except.error Err.badJSON, dec1)
      else
        match readValue dec1.input with
        | Except.error e => (Except.error e, { dec1 with err := some e })
        | Except.ok n =>
          (Except.ok (dec1.input.take n),
            ({ dec1 with input := dec1.input.drop n }).tokenValueEnd)

/-- Go `dec.Decode(&u)` for `var u ImportUser`. -/
def Decoder.Decode (dec : Decoder) : Except Err ImportUser × Decoder :=
  match dec.nextValue with
  | (Except.error e, dec1) => (Except.error e, dec1)
  | (Except.ok data, dec1) => (unmarshalImportUser data, dec1)

/-- Go `Decoder.Token`; the token itself is dropped, as `streamUsers` drops
it.  Reading a value token is `Decode` into an `any`, which cannot fail once
the bytes are cut out.  `fuel` bounds the `continue` after a comma or colon. -/
def Decoder.TokenLoop : Nat → Decoder → Except Err Decoder
  | 0, _ => Except.error Err.badJSON
  | fuel + 1, dec =>
    match dec.peek with
    | Except.error e => Except.error e
    | Except.ok (c, dec1) =>
      let adv : Decoder := { dec1 with input := dec1.input.tail }
      let value : Except Err Decoder :=
        if !dec1.tokenValueAllowed then Except.error Err.badJSON
        else match dec1.nextValue with
          | (Except.error e, _) => Except.error e
          | (Except.ok _, dec2) => Except.ok dec2
      if c = 91 then
        if !dec1.tokenValueAllowed then Except.error Err.badJSON
        else Except.ok { adv with tokenStack := dec1.tokenState :: dec1.tokenStack,
                                  tokenState := TokenState.tokenArrayStart }
      else if c = 93 then
        if dec1.tokenState ≠ TokenState.tokenArrayStart
            ∧ dec1.tokenState ≠ TokenState.tokenArrayComma then Except.error Err.badJSON
        else Except.ok ({ adv with tokenState := dec1.tokenStack.headD TokenState.tokenTopValue,
                                   tokenStack := dec1.tokenStack.tail }).tokenValueEnd
      else if c = 123 then
        if !dec1.tokenValueAllowed then Except.error Err.badJSON
        else Except.ok { adv with tokenStack := dec1.tokenState :: dec1.tokenStack,
                                  tokenState := TokenState.tokenObjectStart }
      else if c = 125 then
        if dec1.tokenState ≠ TokenState.tokenObjectStart
            ∧ dec1.tokenState ≠ TokenState.tokenObjectComma then Except.error Err.badJSON
        else Except.ok ({ adv with tokenState := dec1.tokenStack.headD TokenState.tokenTopValue,
                                   tokenStack := dec1.tokenStack.tail }).tokenValueEnd
      else if c = 58 then
        if dec1.tokenState ≠ TokenState.tokenObjectColon then Except.error Err.badJSON
        else Decoder.TokenLoop fuel { adv with tokenState := TokenState.tokenObjectValue }
      else if c = 44 then
        if dec1.tokenState = TokenState.tokenArrayComma then
          Decoder.TokenLoop fuel { adv with tokenState := TokenState.tokenArrayValue }
        else if dec1.tokenState = TokenState.tokenObjectComma then
          Decoder.TokenLoop fuel { adv with tokenState := TokenState.tokenObjectKey }
        else Except.error Err.badJSON
      else if c = 34 ∧ (dec1.tokenState = TokenState.tokenObjectStart
            ∨ dec1.tokenState = TokenState.tokenObjectKey) then
        match ({ dec1 with tokenState := TokenState.tokenTopValue }).nextValue with
        | (Except.error e, _) => Except.error e
        | (Except.ok _, dec2) => Except.ok { dec2 with tokenState := TokenState.tokenObjectColon }
      else value

/-- Go `Decoder.Token`. -/
def Decoder.Token (dec : Decoder) : Except Err Decoder := Decoder.TokenLoop 3 dec

/-! ## stream.go -/

/-- Go function `peekFirstNonSpace` on a `bufio.Reader` holding `br`: the
first significant byte and the reader with the white space before it
consumed, or the error of `Peek` at the end of the stream. -/
def peekFirstNonSpace : List Nat → Except Err (Nat × List Nat)
  | [] => Except.error Err.eof
  | b :: rest =>
    if b = 32 ∨ b = 10 ∨ b = 13 ∨ b = 9 then peekFirstNonSpace rest
    else Except.ok (b, b :: rest)

/-- Control state of `streamUsers`: inside one of its two loops, or returned. -/
inductive Stream where
  /-- At the head of the array loop (`array = true`) or of the
  concatenated-values loop, with `total` records sent so far. -/
  | running (dec : Decoder) (array : Bool) (total : Int)
  /-- After `return total, err`. -/
  | returned (total : Int) (err : Option Err)
deriving DecidableEq, Repr

/-- Go function `streamUsers`, the part before the loops.  (The call
`dec.UseNumber()` only affects decoding into `any` and plays no part.) -/
def streamBegin (reader : List Nat) : Stream :=
  match peekFirstNonSpace reader with
  | Except.error err =>
    if err.isEOF then Stream.returned 0 none else Stream.returned 0 (some err)
  | Except.ok (first, br) =>
    let dec := NewDecoder br
    let total := 0
    if first = 91 then
      match dec.Token with
      | Except.error err => Stream.returned 0 (some err)
      | Except.ok dec1 => Stream.running dec1 true total
    else Stream.running dec false total

/-- Go function `streamUsers`, one iteration of the current loop, where
`ctxErr` is what `ctx.Err()` returns during it: the record sent on `out`
(if the iteration sends one) and the control state after it. -/
def streamIter (ctxErr : Option Err) (dec : Decoder) (array : Bool) (total : Int) :
    Option ImportUser × Stream :=
  if array then
    let m := dec.More
    if m.1 then
      if ctxErr ≠ none then (none, Stream.returned total ctxErr)
      else match m.2.Decode with
        | (Except.error err, _) => (none, Stream.returned total (some err))
        | (Except.ok u, dec1) => (some u, Stream.running dec1 true (total + 1))
    else
      match m.2.Token with
      | Except.error err => (none, Stream.returned total (some err))
      | Except.ok _ => (none, Stream.returned total none)
  else
    if ctxErr ≠ none then (none, Stream.returned total ctxErr)
    else match dec.Decode with
      | (Except.error err, _) =>
        if err.isEOF then (none, Stream.returned total none)
        else (none, Stream.returned total (some err))
      | (Except.ok u, dec1) => (some u, Stream.running dec1 false (total + 1))

/-- Result of a call of `streamUsers`: the records sent on `out`, in order,
and the returned pair. -/
structure StreamResult where
  sent : List ImportUser
  total : Int
  err : Option Err
deriving DecidableEq, Repr

/-- Go function `streamUsers`, the loops run to the end with a consumer that
always takes what is sent.  `ctx k` is what `ctx.Err()` returns once `k`
records have been sent.  `none` only if `fuel` iterations do not reach the
return. -/
def streamLoop (ctx : Nat → Option Err) : Nat → Stream → List ImportUser → Option StreamResult
  | _, Stream.returned total err, sent =>
    some { sent := sent.reverse, total := total, err := err }
  | 0, Stream.running _ _ _, _ => none
  | fuel + 1, Stream.running dec array total, sent =>
    match streamIter (ctx sent.length) dec array total with
    | (some u, st) => streamLoop ctx fuel st (u :: sent)
    | (none, st) => streamLoop ctx fuel st sent

/-- Go function `streamUsers` on a reader holding the bytes `reader`. -/
def streamUsers (ctx : Nat → Option Err) (reader : List Nat) : Option StreamResult :=
  streamLoop ctx (reader.length + 1) (streamBegin reader) []

/-- A context that is never cancelled. -/
def background : Nat → Option Err := fun _ => none

/-! ## validator.go -/

/-- The loop over `u.Addresses` in `ValidateImportUser`: the index of the
first address whose `Street` is empty. -/
def firstEmptyStreet (i : Nat) : List ImportAddress → Option Nat
  | [] => none
  | addr :: rest => if addr.Street = [] then some i else firstEmptyStreet (i + 1) rest

/-- Go method `validatorImpl.ValidateImportUser`; the rule
`validation.Required` rejects a zero `ID` and an empty `Name`.  The error
`invalid 0` is the "invalid user payload" error, `invalid (i + 1)` the
"address line is required at index i" error. -/
def ValidateImportUser (u : ImportUser) : Option Err :=
  if u.ID = 0 ∨ u.Name = [] then some (Err.invalid 0)
  else match firstEmptyStreet 0 u.Addresses with
    | some i => some (Err.invalid (i + 1))
    | none => none

/-! ## service.go: the collaborators and the service -/

/-- The Go interfaces `Validator` and `Repository`, as far as `Import` calls
them.  Both may keep state (`ω`) and may answer differently at each call;
`UpsertUser` is also told whether the context it receives is cancelled. -/
structure Collab (ω : Type) where
  ValidateImportUser : ω → ImportUser → ω × Option Err
  UpsertUser : ω → Bool → User → ω × Option Err

/-- Go struct `Service` (fields `maxWorkers`, `queueSize`); the two
collaborators are passed separately as a `Collab`. -/
structure Service where
  maxWorkers : Int
  queueSize : Int
deriving DecidableEq, Repr

/-- Go function `NewService`. -/
def NewService (opts : ImportOptions) : Service :=
  let normalized := normalizeOptions opts
  { maxWorkers := normalized.MaxWorkers, queueSize := normalized.QueueSize }

/-- Go struct `ImportSummary`, without the wall-clock `Duration`. -/
structure ImportSummary where
  Total : Int
  Successful : Int
  Failed : Int
deriving DecidableEq, Repr

/-! ## service.go: `Service.Import` as a transition system

`Import` starts `maxWorkers` goroutines and runs `streamUsers` next to them.
A state of the call is a `Pool`; an `Event` is one atomic move of one
goroutine (or of the caller cancelling the context); a run of `Import` is a
list of events, in the order the scheduler picked them. -/

/-- Where one worker goroutine stands in its loop. -/
inductive Worker where
  /-- Waiting on `for raw := range jobs`. -/
  | idle
  /-- Has received `raw`; about to test `ctx.Err()` and validate. -/
  | got (raw : ImportUser)
  /-- Validation passed; about to call `UpsertUser`. -/
  | validated (raw : ImportUser)
  /-- Returned (`wg.Done()`). -/
  | exited
deriving DecidableEq, Repr

/-- Where the goroutine of `Import` itself stands. -/
inductive Producer where
  /-- Inside `streamUsers`, at the head of a loop. -/
  | running (dec : Decoder) (array : Bool) (total : Int)
  /-- Inside `streamUsers`, at `out <- u` (after `total++`); `next` is the
  loop state to continue with. -/
  | sending (u : ImportUser) (next : Stream)
  /-- After `streamUsers` returned and `close(jobs)`, waiting in `wg.Wait()`. -/
  | returned (total : Int) (readErr : Option Err)
deriving DecidableEq, Repr

/-- One call a worker made to a collaborator, or a record it dropped
(history only; the Go code keeps no such log). -/
inductive Call where
  | rejected (raw : ImportUser) (err : Err)
  | accepted (raw : ImportUser)
  | upsertFailed (raw : ImportUser) (err : Err)
  | upserted (raw : ImportUser)
  | abandoned (raw : ImportUser)
deriving DecidableEq, Repr

/-- State of one call of `Import`. -/
structure Pool (ω : Type) where
  /-- The goroutine running `streamUsers`. -/
  prod : Producer
  /-- Buffer of the channel `jobs`, oldest first; its capacity is `queueSize`. -/
  jobs : List ImportUser
  /-- The worker goroutines. -/
  workers : List Worker
  /-- Buffer of the channel `errCh`, oldest first; its capacity is `maxWorkers*2`. -/
  errCh : List Err
  /-- The counter `success`. -/
  success : Int
  /-- Whether `ctx.Err()` is non-nil. -/
  cancelled : Bool
  /-- State of the collaborators. -/
  world : ω
  /-- History: the records sent on `jobs` so far, newest first. -/
  sent : List ImportUser
  /-- History: the calls made so far, newest first. -/
  calls : List Call

/-- One atomic move in a run of `Import`. -/
inductive Event where
  /-- The caller cancels the context. -/
  | cancel
  /-- The goroutine in `streamUsers` runs one loop iteration, up to its
  `out <- u` or up to its return (followed by `close(jobs)`). -/
  | produce
  /-- The pending `out <- u` completes. -/
  | send
  /-- Worker `i` receives from `jobs`, or leaves its loop if `jobs` is
  closed and drained. -/
  | take (i : Nat)
  /-- Worker `i` tests `ctx.Err()` and calls `ValidateImportUser`. -/
  | validate (i : Nat)
  /-- Worker `i` calls `UpsertUser`. -/
  | upsert (i : Nat)
deriving DecidableEq, Repr

/-- The statement `select { case errCh <- err: default: }` on a channel of
capacity `cap`. -/
def trySend (cap : Nat) (errCh : List Err) (err : Err) : List Err :=
  if errCh.length < cap then errCh ++ [err] else errCh

/-- Result of `ctx.Err()`. -/
def ctxErr (cancelled : Bool) : Option Err :=
  if cancelled then some Err.canceled else none

/-- The producer after `streamUsers` reached the given control state. -/
def Producer.ofStream : Stream → Producer
  | Stream.running dec array total => Producer.running dec array total
  | Stream.returned total err => Producer.returned total err

/-- Capacity of `errCh`: `make(chan error, s.maxWorkers*2)`. -/
def Service.errCap (svc : Service) : Nat := (svc.maxWorkers * 2).toNat

/-- Capacity of `jobs`: `make(chan ImportUser, s.queueSize)`. -/
def Service.jobsCap (svc : Service) : Nat := svc.queueSize.toNat

/-- The effect of one event on the state of `Import`, `none` if the
goroutine concerned cannot make that move in this state. -/
def step {ω : Type} (svc : Service) (c : Collab ω) (p : Pool ω) : Event → Option (Pool ω)
  | Event.cancel => some { p with cancelled := true }
  | Event.produce =>
    match p.prod with
    | Producer.running dec array total =>
      match streamIter (ctxErr p.cancelled) dec array total with
      | (some u, next) => some { p with prod := Producer.sending u next }
      | (none, next) => some { p with prod := Producer.ofStream next }
    | _ => none
  | Event.send =>
    match p.prod with
    | Producer.sending u next =>
      if p.jobs.length < svc.jobsCap then
        some { p with jobs := p.jobs ++ [u], prod := Producer.ofStream next,
                      sent := u :: p.sent }
      else none
    | _ => none
  | Event.take i =>
    match p.workers[i]? with
    | some Worker.idle =>
      match p.jobs with
      | raw :: rest =>
        some { p with jobs := rest, workers := p.workers.set i (Worker.got raw) }
      | [] =>
        match p.prod with
        | Producer.returned _ _ => some { p with workers := p.workers.set i Worker.exited }
        | _ => none
    | _ => none
  | Event.validate i =>
    match p.workers[i]? with
    | some (Worker.got raw) =>
      if p.cancelled then
        some { p with workers := p.workers.set i Worker.exited,
                      calls := Call.abandoned raw :: p.calls }
      else
        let r := c.ValidateImportUser p.world raw
        match r.2 with
        | some err =>
          some { p with world := r.1, errCh := trySend svc.errCap p.errCh err,
                        workers := p.workers.set i Worker.idle,
                        calls := Call.rejected raw err :: p.calls }
        | none =>
          some { p with world := r.1, workers := p.workers.set i (Worker.validated raw),
                        calls := Call.accepted raw :: p.calls }
    | _ => none
  | Event.upsert i =>
    match p.workers[i]? with
    | some (Worker.validated raw) =>
      let r := c.UpsertUser p.world p.cancelled raw.ToUser
      match r.2 with
      | some err =>
        some { p with world := r.1, errCh := trySend svc.errCap p.errCh err,
                      workers := p.workers.set i Worker.idle,
                      calls := Call.upsertFailed raw err :: p.calls }
      | none =>
        some { p with world := r.1, success := p.success + 1,
                      workers := p.workers.set i Worker.idle,
                      calls := Call.upserted raw :: p.calls }
    | _ => none

/-- A run: the events of a schedule applied in order. -/
def runEvents {ω : Type} (svc : Service) (c : Collab ω) :
    List Event → Pool ω → Option (Pool ω)
  | [], p => some p
  | e :: es, p =>
    match step svc c p e with
    | some p1 => runEvents svc c es p1
    | none => none

/-- State of `Import` once the workers are started and `streamUsers` has
reached its loops (or returned before them).  The context starts out live;
a caller whose context is cancelled already is the run that begins with
`Event.cancel`. -/
def Service.start {ω : Type} (svc : Service) (world : ω) (reader : List Nat) : Pool ω :=
  { prod := Producer.ofStream (streamBegin reader), jobs := [],
    workers := List.replicate svc.maxWorkers.toNat Worker.idle,
    errCh := [], success := 0, cancelled := false, world := world, sent := [], calls := [] }

/-- The loop `for err := range errCh` that builds `combined`. -/
def combineLoop (combined : Option Err) : List Err → Option Err
  | [] => combined
  | err :: rest =>
    match combined with
    | none => combineLoop (some err) rest
    | some c => combineLoop (some (Err.joined c err)) rest

/-- Have all workers returned (`wg.Wait()` is over)? -/
def allExited (workers : List Worker) : Bool := workers.all fun w => w == Worker.exited

/-- What `Import` returns from a state in which `streamUsers` has returned
and `wg.Wait()` is over; `none` in any other state. -/
def Pool.result {ω : Type} (p : Pool ω) : Option (ImportSummary × Option Err) :=
  match p.prod with
  | Producer.returned total readErr =>
    if allExited p.workers then
      let summary : ImportSummary :=
        { Total := total, Successful := p.success, Failed := total - p.success }
      let combined := combineLoop none p.errCh
      if readErr ≠ none then some (summary, readErr) else some (summary, combined)
    else none
  | _ => none

/-- Go method `Service.Import` under a given schedule: the returned pair,
or `none` if the schedule is not a complete run. -/
def Service.Import {ω : Type} (svc : Service) (c : Collab ω) (world : ω)
    (reader : List Nat) (schedule : List Event) : Option (ImportSummary × Option Err) :=
  match runEvents svc c schedule (svc.start world reader) with
  | some p => p.result
  | none => none

/-! ## Framings and record texts -/

/-- The scan of `readValue` over the bytes `p` alone: `none` if the scan
would need a byte after `p` (or the end-of-input report) to decide. -/
def scanOnly (s : Scanner) (n : Nat) : List Nat → Option (Except Err Nat)
  | [] => none
  | c :: cs =>
    let r := s.stepByte c
    match r.2 with
    | ScanCode.scanEnd => some (Except.ok n)
    | ScanCode.scanEndObject =>
      if (stateEndValue r.1 32).2 = ScanCode.scanEnd then some (Except.ok (n + 1))
      else scanOnly r.1 (n + 1) cs
    | ScanCode.scanEndArray =>
      if (stateEndValue r.1 32).2 = ScanCode.scanEnd then some (Except.ok (n + 1))
      else scanOnly r.1 (n + 1) cs
    | ScanCode.scanError => some (Except.error Err.badJSON)
    | _ => scanOnly r.1 (n + 1) cs

/-- The text `r` is one JSON object, from its opening brace to its closing
brace: the scanner started on it reports the end of the value at the last
byte of `r`, and not before. -/
def isObjectText (r : List Nat) : Bool :=
  r.head? == some 123 && scanOnly Scanner.reset 0 r == some (Except.ok r.length)

/-- Concatenated framing of the record texts `rs`. -/
def concatFraming : List (List Nat) → List Nat
  | [] => []
  | r :: rs => r ++ concatFraming rs

/-- Array framing after the opening bracket: the records, a comma before
each one but the first, and the closing bracket. -/
def arrayBody (first : Bool) : List (List Nat) → List Nat
  | [] => [93]
  | r :: rs => (if first then r else 44 :: r) ++ arrayBody false rs

/-- Array framing of the record texts `rs`. -/
def arrayFraming (rs : List (List Nat)) : List Nat := 91 :: arrayBody true rs

/-- What the loops of `streamUsers` do with a run of record texts, record by
record; `atEnd` is what happens once they are all consumed. -/
def recordsRun (ctx : Nat → Option Err) :
    List (List Nat) → List ImportUser → Int →
    (List ImportUser → Int → Option StreamResult) → Option StreamResult
  | [], sent, total, atEnd => atEnd sent total
  | r :: rs, sent, total, atEnd =>
    if ctx sent.length ≠ none then
      some { sent := sent.reverse, total := total, err := ctx sent.length }
    else match unmarshalImportUser r with
      | Except.error e => some { sent := sent.reverse, total := total, err := some e }
      | Except.ok u => recordsRun ctx rs (u :: sent) (total + 1) atEnd

/-- Saved errors that are not `io.EOF`. -/
def SavedOk (saved : Option Err) : Prop := ∀ x, saved = some x → x.isEOF = false

/-- Decoder inside the array loop: before the first element or after one. -/
def arrDec (first : Bool) (input : List Nat) : Decoder :=
  { input := input, err := none,
    tokenState := if first then TokenState.tokenArrayStart else TokenState.tokenArrayComma,
    tokenStack := [TokenState.tokenTopValue] }

/-! ## Bookkeeping for the invariants of `Import` -/

/-- Number of records a worker holds (received and not yet dealt with). -/
def Worker.holds : Worker → Nat
  | Worker.got _ => 1
  | Worker.validated _ => 1
  | _ => 0

/-- Number of validated records a worker holds (1 or 0). -/
def Worker.holdsValidated : Worker → Nat
  | Worker.validated _ => 1
  | _ => 0

/-- Records held by the workers. -/
def holding (ws : List Worker) : Nat := (ws.map Worker.holds).sum

/-- Validated records held by the workers. -/
def holdingValidated (ws : List Worker) : Nat := (ws.map Worker.holdsValidated).sum

/-- Number of records `ValidateImportUser` rejected. -/
def nRejected : List Call → Nat
  | [] => 0
  | Call.rejected _ _ :: cs => nRejected cs + 1
  | _ :: cs => nRejected cs

/-- Number of records `ValidateImportUser` accepted. -/
def nAccepted : List Call → Nat
  | [] => 0
  | Call.accepted _ :: cs => nAccepted cs + 1
  | _ :: cs => nAccepted cs

/-- Number of records for which `UpsertUser` returned an error. -/
def nUpsertFailed : List Call → Nat
  | [] => 0
  | Call.upsertFailed _ _ :: cs => nUpsertFailed cs + 1
  | _ :: cs => nUpsertFailed cs

/-- Number of records for which `UpsertUser` returned nil. -/
def nUpserted : List Call → Nat
  | [] => 0
  | Call.upserted _ :: cs => nUpserted cs + 1
  | _ :: cs => nUpserted cs

/-- Number of records dropped by a worker that saw the cancellation. -/
def nAbandoned : List Call → Nat
  | [] => 0
  | Call.abandoned _ :: cs => nAbandoned cs + 1
  | _ :: cs => nAbandoned cs

/-- The errors the workers tried to send on `errCh`, newest first. -/
def failures : List Call → List Err
  | [] => []
  | Call.rejected _ err :: cs => err :: failures cs
  | Call.upsertFailed _ err :: cs => err :: failures cs
  | _ :: cs => failures cs

/-- The variable `total` of `streamUsers` in a control state. -/
def Stream.total : Stream → Int
  | Stream.running _ _ total => total
  | Stream.returned total _ => total

/-- The variable `total` of `streamUsers` as the producer stands. -/
def Producer.total : Producer → Int
  | Producer.running _ _ total => total
  | Producer.sending _ next => next.total
  | Producer.returned total _ => total

/-- Records counted in `total` and not yet on `jobs` (1 or 0). -/
def Producer.pending : Producer → Nat
  | Producer.sending _ _ => 1
  | _ => 0

/-- Has `streamUsers` returned? -/
def Producer.isReturned : Producer → Bool
  | Producer.returned _ _ => true
  | _ => false

/-- The invariant of a run of `Import`. -/
structure PoolInv {ω : Type} (svc : Service) (p : Pool ω) : Prop where
  /-- The variable `total` counts the records sent plus the one being sent. -/
  total_eq : p.prod.total = (p.sent.length : Int) + (p.prod.pending : Int)
  /-- Every record sent is queued, held by a worker, or dealt with. -/
  sent_eq : p.sent.length = p.jobs.length + holding p.workers + nRejected p.calls
      + nUpsertFailed p.calls + nUpserted p.calls + nAbandoned p.calls
  /-- Every accepted record is held for the upsert or went through it. -/
  accepted_eq : nAccepted p.calls
      = nUpserted p.calls + nUpsertFailed p.calls + holdingValidated p.workers
  /-- The counter `success` counts the successful upserts. -/
  success_eq : p.success = (nUpserted p.calls : Int)
  /-- The error channel holds the first errors, up to its capacity. -/
  errCh_eq : p.errCh = (failures p.calls).reverse.take svc.errCap
  /-- Records are dropped only after a cancellation. -/
  abandoned_eq : p.cancelled = false → nAbandoned p.calls = 0
  /-- Without cancellation a worker leaves only a closed and drained queue. -/
  drained : p.cancelled = false → Worker.exited ∈ p.workers →
      p.jobs = [] ∧ p.prod.isReturned = true
  /-- The number of workers. -/
  workers_len : p.workers.length = svc.maxWorkers.toNat
  /-- The queue never exceeds its capacity. -/
  jobs_len : p.jobs.length ≤ svc.jobsCap

/-! ## Collaborators used in examples -/

/-- The validator of validator.go with a repository whose `UpsertUser`
fails (with `repo 1`) exactly for the identifiers in `bad`. -/
def sampleCollab (bad : List Nat) : Collab Unit :=
  { ValidateImportUser := fun w u => (w, ValidateImportUser u),
    UpsertUser := fun w _ user => (w, if user.ID ∈ bad then some (Err.repo 1) else none) }

/-- The schedule in which worker 0 deals with each record as soon as it is
sent: one record that goes through validation and upsert. -/
def oneRecord : List Event :=
  [Event.produce, Event.send, Event.take 0, Event.validate 0, Event.upsert 0]

/-- The same for a record that validation rejects. -/
def oneRejected : List Event :=
  [Event.produce, Event.send, Event.take 0, Event.validate 0]

/-- Final state of the run of three rejected records used as an example. -/
def threeRejectedPool : Pool Unit :=
  { prod := Producer.returned 3 none, jobs := [], workers := [Worker.exited],
    errCh := [Err.invalid 0, Err.invalid 0], success := 0, cancelled := false, world := (),
    sent := [ImportUser.zero, ImportUser.zero, ImportUser.zero],
    calls := [Call.rejected ImportUser.zero (Err.invalid 0),
              Call.rejected ImportUser.zero (Err.invalid 0),
              Call.rejected ImportUser.zero (Err.invalid 0)] }

/-- Final state of the run of two records, the second of which the
repository refuses, used as an example. -/
def oneFailedPool : Pool Unit :=
  { prod := Producer.returned 2 none, jobs := [], workers := [Worker.exited],
    errCh := [Err.repo 1], success := 1, cancelled := false, world := (),
    sent := [{ ImportUser.zero with ID := 2, Name := [98] },
             { ImportUser.zero with ID := 1, Name := [97] }],
    calls := [Call.upsertFailed { ImportUser.zero with ID := 2, Name := [98] } (Err.repo 1),
              Call.accepted { ImportUser.zero with ID := 2, Name := [98] },
              Call.upserted { ImportUser.zero with ID := 1, Name := [97] },
              Call.accepted { ImportUser.zero with ID := 1, Name := [97] }] }

/-- Text of a JSON object with the given text between its braces (for examples). -/
def objText (body : String) : List Nat := 123 :: (bytes body ++ [125])

/-- Two valid records, identifiers 1 and 2, in concatenated framing. -/
def twoRecords : List Nat :=
  objText "\"id\":1,\"name\":\"a\"" ++ objText "\"id\":2,\"name\":\"b\""

/-- Three records without a usable identifier, in concatenated framing. -/
def threeZeroRecords : List Nat :=
  objText "\"id\":0" ++ objText "\"id\":0" ++ objText "\"id\":0"

/-- Input made of space, tab, CR and LF only (possibly empty). -/
def allWhite (reader : List Nat) : Prop := ∀ b ∈ reader, b = 32 ∨ b = 9 ∨ b = 13 ∨ b = 10

/-- The schedule in which workers `k`, `k + 1`, ..., `k + m - 1` each make
one receive; on a closed and drained queue they all leave their loops. -/
def exitFrom (k m : Nat) : List Event := (List.range' k m).map Event.take

/-! ## JSON texts of numbers and strings (for the identifier properties) -/

/-- Decimal digits of `n`, most significant first, built from the right. -/
def decimalLoop : Nat → Nat → List Nat → List Nat
  | 0, _, acc => acc
  | fuel + 1, n, acc =>
    if n < 10 then (48 + n) :: acc
    else decimalLoop fuel (n / 10) ((48 + n % 10) :: acc)

/-- The JSON number `n`: its decimal digits as text. -/
def decimal (n : Nat) : List Nat := decimalLoop (n + 1) n []

/-- Lower-case hexadecimal digit. -/
def hexDigit (d : Nat) : Nat := if d < 10 then 48 + d else 87 + d

/-- How one code point is written inside a JSON string literal. -/
def quoteByte (c : Nat) : List Nat :=
  if c = 34 then [92, 34]
  else if c = 92 then [92, 92]
  else if c = 8 then [92, 98]
  else if c = 9 then [92, 116]
  else if c = 10 then [92, 110]
  else if c = 12 then [92, 102]
  else if c = 13 then [92, 114]
  else if c < 32 then [92, 117, 48, 48, hexDigit (c / 16), hexDigit (c % 16)]
  else [c]

/-- The characters of a string as written between the quotes. -/
def quoteBody : List Nat → List Nat
  | [] => []
  | c :: cs => quoteByte c ++ quoteBody cs

/-- The JSON string literal holding the string `s`. -/
def jsonQuote (s : List Nat) : List Nat := 34 :: (quoteBody s ++ [34])

/-- A code point that stands for itself inside a JSON string literal. -/
def isPlain (c : Nat) : Bool := 32 ≤ c && c != 34 && c != 92

/-- Scanner inside a top-level string literal. -/
def inString : Scanner :=
  { step := StepFn.stateInString, endTop := false, parseState := [] }

/-- Scanner inside the integer digits of a top-level number. -/
def inDigits : Scanner :=
  { step := StepFn.state1, endTop := false, parseState := [] }

/-- Number of unread bytes in a control state of `streamUsers`. -/
def Stream.inputLen : Stream → Nat
  | Stream.running dec _ _ => dec.input.length
  | Stream.returned _ _ => 0

/-- The control state `streamUsers` is in (or will be in once the pending
send completes) and the records sent by then, newest first. -/
def Producer.cur (prod : Producer) (sent : List ImportUser) : Stream × List ImportUser :=
  match prod with
  | Producer.running dec array total => (Stream.running dec array total, sent)
  | Producer.sending u next => (next, u :: sent)
  | Producer.returned total err => (Stream.returned total err, sent)

/-- The producer of the run is where an uncancelled `streamUsers` on
`reader` passes through. -/
def OnTrack {ω : Type} (reader : List Nat) (p : Pool ω) : Prop :=
  ∃ fuel, streamLoop background fuel (p.prod.cur p.sent).1 (p.prod.cur p.sent).2
    = streamUsers background reader

/-- The producer of the run follows the uncancelled `streamUsers` on
`reader`, or has returned early after a cancellation. -/
def Linked {ω : Type} (reader : List Nat) (p : Pool ω) : Prop :=
  OnTrack reader p
  ∨ (p.cancelled = true ∧ p.prod.isReturned = true
      ∧ ∃ r, streamUsers background reader = some r ∧ p.sent.reverse <+: r.sent)

/-- The record a call was about. -/
def Call.record : Call → ImportUser
  | Call.rejected raw _ => raw
  | Call.accepted raw => raw
  | Call.upsertFailed raw _ => raw
  | Call.upserted raw => raw
  | Call.abandoned raw => raw

/-- The record a worker holds, if any. -/
def Worker.record : Worker → Option ImportUser
  | Worker.got raw => some raw
  | Worker.validated raw => some raw
  | _ => none

/-- Whatever the workers see was sent by `streamUsers`. -/
structure FromSent {ω : Type} (p : Pool ω) : Prop where
  jobs_sent : ∀ u ∈ p.jobs, u ∈ p.sent
  held_sent : ∀ w ∈ p.workers, ∀ u, w.record = some u → u ∈ p.sent
  calls_sent : ∀ c ∈ p.calls, c.record ∈ p.sent

/-- A valid record, identifier 1 (for examples). -/
def recordOne : List Nat := objText "\"id\":1,\"name\":\"a\""

/-- A valid record, identifier 2 (for examples). -/
def recordTwo : List Nat := objText "\"id\":2,\"name\":\"b\""

/-- The record decoded from `recordOne`. -/
def userOne : ImportUser := { ImportUser.zero with ID := 1, Name := [97] }

/-- The record decoded from `recordTwo`. -/
def userTwo : ImportUser := { ImportUser.zero with ID := 2, Name := [98] }

/-- Malformed JSON (an object whose value is the bare letter x), followed by
a valid record. -/
def brokenTail : List Nat := 123 :: (bytes "\"id\":x" ++ [125]) ++ recordTwo

/-- The producer `a` of a run on the array framing and the producer `c` of a
run on the concatenated framing stand at the same point of the same records. -/
def SimProd (a c : Producer) : Prop :=
  (∃ first rest total, (∀ r ∈ rest, isObjectText r = true)
      ∧ a = Producer.running (arrDec first (arrayBody first rest)) true total
      ∧ c = Producer.running (NewDecoder (concatFraming rest)) false total)
  ∨ (∃ u rest total, (∀ r ∈ rest, isObjectText r = true)
      ∧ a = Producer.sending u (Stream.running (arrDec false (arrayBody false rest)) true total)
      ∧ c = Producer.sending u (Stream.running (NewDecoder (concatFraming rest)) false total))
  ∨ (∃ total ea ec, a = Producer.returned total ea ∧ c = Producer.returned total ec)

/-- Two states of `Import` that differ at most in the producer, the
producers standing at the same point of the same records. -/
def PoolSim {ω : Type} (pa pc : Pool ω) : Prop :=
  SimProd pa.prod pc.prod ∧ pc = { pa with prod := pc.prod }

/-- The summaries `Import` can return on the input `reader`. -/
def Returns {ω : Type} (svc : Service) (c : Collab ω) (world : ω) (reader : List Nat)
    (summary : ImportSummary) : Prop :=
  ∃ schedule err, svc.Import c world reader schedule = some (summary, err)

/-- Three valid records in concatenated framing (for examples). -/
def threeRecords : List Nat :=
  recordOne ++ recordTwo ++ objText "\"id\":3,\"name\":\"c\""

/-- A schedule with one worker and a queue of capacity 1: the worker has
received the first record, the second is queued, `streamUsers` is at the
send of the third; then the context is cancelled and the worker, testing
`ctx.Err()`, returns. -/
def blockingSchedule : List Event :=
  [Event.produce, Event.send, Event.take 0, Event.produce, Event.send, Event.produce,
    Event.cancel, Event.validate 0]

/-- The state reached by `blockingSchedule` on `threeRecords`: no worker is
left and `streamUsers` waits at `out <- u` on the full queue. -/
def blockedPool : Pool Unit :=
  { prod := Producer.sending { ImportUser.zero with ID := 3, Name := [99] }
      (Stream.running (NewDecoder []) false 3),
    jobs := [userTwo], workers := [Worker.exited], errCh := [], success := 0,
    cancelled := true, world := (), sent := [userTwo, userOne],
    calls := [Call.abandoned userOne] }

/-- A record that validation rejects, then malformed JSON (for examples). -/
def rejectedThenBroken : List Nat := objText "\"id\":0" ++ brokenTail

/-- Final state of the run on `rejectedThenBroken` in which the one record
is rejected and the decoding then fails. -/
def decodeErrorPool : Pool Unit :=
  { prod := Producer.returned 1 (some Err.badJSON), jobs := [], workers := [Worker.exited],
    errCh := [Err.invalid 0], success := 0, cancelled := false, world := (),
    sent := [ImportUser.zero], calls := [Call.rejected ImportUser.zero (Err.invalid 0)] }

/-- A schedule with one worker: the first record is sent and received, and
`streamUsers` is back at the head of its loop. -/
def headSchedule : List Event := [Event.produce, Event.send, Event.take 0]

/-- The state reached by `headSchedule` on `threeRecords`. -/
def headPool : Pool Unit :=
  { prod := Producer.running
      (NewDecoder (recordTwo ++ objText "\"id\":3,\"name\":\"c\"")) false 1,
    jobs := [], workers := [Worker.got userOne], errCh := [], success := 0,
    cancelled := false, world := (), sent := [userOne], calls := [] }

/-- A schedule with one worker: the first record is sent and received, the
second is decoded and `streamUsers` is at its `out <- u`. -/
def sendSchedule : List Event := [Event.produce, Event.send, Event.take 0, Event.produce]

/-- The state reached by `sendSchedule` on `threeRecords`. -/
def sendPool : Pool Unit :=
  { prod := Producer.sending userTwo
      (Stream.running (NewDecoder (objText "\"id\":3,\"name\":\"c\"")) false 2),
    jobs := [], workers := [Worker.got userOne], errCh := [], success := 0,
    cancelled := false, world := (), sent := [userOne], calls := [] }

/-- The state reached on `threeRecords` by `headSchedule`, a cancellation,
the next loop iteration of `streamUsers` and the worker's test of the
context. -/
def headCancelledPool : Pool Unit :=
  { prod := Producer.returned 1 (some Err.canceled), jobs := [], workers := [Worker.exited],
    errCh := [], success := 0, cancelled := true, world := (), sent := [userOne],
    calls := [Call.abandoned userOne] }

/-- The state reached on `threeRecords` by `sendSchedule`, a cancellation,
the completion of the pending send, the next loop iteration of
`streamUsers` and the worker's test of the context. -/
def sendCancelledPool : Pool Unit :=
  { prod := Producer.returned 2 (some Err.canceled), jobs := [userTwo],
    workers := [Worker.exited], errCh := [], success := 0, cancelled := true, world := (),
    sent := [userTwo, userOne], calls := [Call.abandoned userOne] }

/-- The number written by the decimal digits `s`, continuing from `acc`. -/
def digitsValue (acc : Nat) : List Nat → Nat
  | [] => acc
  | c :: cs => digitsValue (acc * 10 + (c - 48)) cs

/-- A text made of decimal digits only, at least one, writing the number `n`. -/
def isDecimalOf (s : List Nat) (n : Nat) : Prop :=
  s ≠ [] ∧ s.all isDigit = true ∧ digitsValue 0 s = n

/-- The JSON value `v` gives the identifier `n`: it is a string (when the
text of the value starts with a quote, `quoted`) whose content, white space
around it removed, is a decimal numeral of `n`, or it is a number whose
literal is a decimal numeral of `n`, or it is `null` and `n = 0`. -/
def denotesID (quoted : Bool) (v : JVal) (n : Nat) : Prop :=
  match v with
  | JVal.str s => quoted = true ∧ isDecimalOf (trimSpace s) n
  | JVal.num lit => quoted = false ∧ isDecimalOf lit n
  | JVal.null => quoted = false ∧ n = 0
  | _ => False

/-! ## Properties -/

/-- C7: `normalizeOptions` returns `MaxWorkers` in `[1, 10]` and `QueueSize`
at least 1; a `MaxWorkers` that is at most 0 or above 10 becomes 10 and one
in `[1, 10]` is kept; a `QueueSize` at most 0 becomes 200 and a positive one
is kept. -/
theorem normalizeOptions_spec (opts : ImportOptions) :
    1 ≤ (normalizeOptions opts).MaxWorkers ∧ (normalizeOptions opts).MaxWorkers ≤ 10
    ∧ 1 ≤ (normalizeOptions opts).QueueSize
    ∧ ((opts.MaxWorkers ≤ 0 ∨ opts.MaxWorkers > 10) → (normalizeOptions opts).MaxWorkers = 10)
    ∧ ((1 ≤ opts.MaxWorkers ∧ opts.MaxWorkers ≤ 10) →
        (normalizeOptions opts).MaxWorkers = opts.MaxWorkers)
    ∧ (opts.QueueSize ≤ 0 → (normalizeOptions opts).QueueSize = 200)
    ∧ (0 < opts.QueueSize → (normalizeOptions opts).QueueSize = opts.QueueSize) := by
  obtain ⟨mw, qs⟩ := opts
  simp only [normalizeOptions, maxAllowedWorkers, defaultQueueSize]
  by_cases h1 : mw ≤ 0 ∨ mw > 10 <;> by_cases h2 : qs ≤ 0 <;> simp [h1, h2] <;> omega

/-! ### The scan of one record text -/

theorem scanOnly_append (all q : List Nat) :
    ∀ (p : List Nat) (s : Scanner) (n : Nat) (res : Except Err Nat),
      scanOnly s n p = some res → readValueLoop all s n (p ++ q) = res := by
  intro p
  induction p with
  | nil => intro s n res h; simp [scanOnly] at h
  | cons c cs ih =>
    intro s n res h
    simp only [scanOnly] at h
    simp only [List.cons_append, readValueLoop]
    have happ : cs.append q = cs ++ q := rfl
    split at h <;> rename_i hc
    · simpa using h
    · split at h <;> rename_i h2
      · simp only [h2, if_true]; simpa using h
      · simp only [h2, if_false, happ]; exact ih _ _ _ h
    · split at h <;> rename_i h2
      · simp only [h2, if_true]; simpa using h
      · simp only [h2, if_false, happ]; exact ih _ _ _ h
    · simpa using h
    · simp only [happ]; exact ih _ _ _ h

theorem readValue_object (r rest : List Nat) (h : isObjectText r = true) :
    readValue (r ++ rest) = Except.ok r.length := by
  simp only [isObjectText, Bool.and_eq_true, beq_iff_eq] at h
  exact scanOnly_append _ rest r _ _ _ h.2

theorem unmarshalString_err_not_eof (data : List Nat) (e : Err)
    (h : unmarshalString data = Except.error e) : e.isEOF = false := by
  unfold unmarshalString at h
  split at h
  · split at h <;> first | (cases h; rfl) | cases h
  · cases h; rfl

theorem unmarshalUint64_err_not_eof (data : List Nat) (e : Err)
    (h : unmarshalUint64 data = Except.error e) : e.isEOF = false := by
  unfold unmarshalUint64 at h
  split at h
  · split at h
    · split at h <;> first | (cases h; rfl) | cases h
    all_goals first | (cases h; rfl) | cases h
  · cases h; rfl

theorem NumericID_err_not_eof (data : List Nat) (e : Err)
    (h : NumericID.UnmarshalJSON data = Except.error e) : e.isEOF = false := by
  unfold NumericID.UnmarshalJSON at h
  split at h
  · cases h; rfl
  · split at h
    · split at h
      · rename_i e1 he1
        cases h; exact unmarshalString_err_not_eof _ _ he1
      · simp only at h
        split at h
        · cases h; rfl
        · split at h <;> first | (cases h; rfl) | cases h
    · split at h
      · rename_i e1 he1
        cases h; exact unmarshalUint64_err_not_eof _ _ he1
      · cases h

theorem saveError_not_eof (saved : Option Err) (e : Err)
    (hs : ∀ x, saved = some x → x.isEOF = false) (he : e.isEOF = false) :
    ∀ x, saveError saved e = some x → x.isEOF = false := by
  intro x hx
  cases saved with
  | none => simp [saveError] at hx; subst hx; exact he
  | some old => simp [saveError] at hx; subst hx; exact hs _ rfl

theorem storeString_not_eof (cur : List Nat) (saved : Option Err) (v : JVal)
    (hs : ∀ x, saved = some x → x.isEOF = false) :
    ∀ x, (storeString cur saved v).2 = some x → x.isEOF = false := by
  unfold storeString
  split
  · exact hs
  · exact hs
  · exact saveError_not_eof _ _ hs rfl

theorem storeAddressMembers_not_eof (ms : List (List Nat × List Nat × JVal)) :
    ∀ (a : ImportAddress) (saved : Option Err), SavedOk saved →
      SavedOk (storeAddressMembers a saved ms).2 := by
  induction ms with
  | nil => intro a saved hs; simpa [storeAddressMembers] using hs
  | cons m rest ih =>
    intro a saved hs
    obtain ⟨key, raw, v⟩ := m
    simp only [storeAddressMembers]
    repeat (first
      | exact ih _ _ hs
      | exact ih _ _ (storeString_not_eof _ _ _ hs)
      | split)

theorem storeAddress_not_eof (cur : ImportAddress) (saved : Option Err) (v : JVal)
    (hs : SavedOk saved) : SavedOk (storeAddress cur saved v).2 := by
  unfold storeAddress
  split
  · exact storeAddressMembers_not_eof _ _ _ hs
  · exact hs
  · exact saveError_not_eof _ _ hs rfl

theorem storeAddressList_not_eof (vs : List JVal) :
    ∀ (old : List ImportAddress) (saved : Option Err), SavedOk saved →
      SavedOk (storeAddressList old saved vs).2 := by
  induction vs with
  | nil => intro old saved hs; simpa [storeAddressList] using hs
  | cons v rest ih =>
    intro old saved hs
    simp only [storeAddressList]
    exact ih _ _ (storeAddress_not_eof _ _ _ hs)

theorem storeAddresses_not_eof (cur spare : List ImportAddress) (saved : Option Err)
    (v : JVal) (hs : SavedOk saved) : SavedOk (storeAddresses cur spare saved v).2 := by
  unfold storeAddresses
  split
  · exact hs
  · exact storeAddressList_not_eof _ _ _ hs
  · exact hs
  · exact saveError_not_eof _ _ hs rfl

theorem storeUserMembers_not_eof (ms : List (List Nat × List Nat × JVal)) :
    ∀ (u : ImportUser) (spare : List ImportAddress) (saved : Option Err), SavedOk saved →
      (∀ e, storeUserMembers u spare saved ms = Except.error e → e.isEOF = false)
      ∧ (∀ u1 s1, storeUserMembers u spare saved ms = Except.ok (u1, s1) → SavedOk s1) := by
  induction ms with
  | nil =>
    intro u spare saved hs
    simp only [storeUserMembers]
    constructor
    · intro e h; cases h
    · intro u1 s1 h; cases h; exact hs
  | cons m rest ih =>
    intro u spare saved hs
    obtain ⟨key, raw, v⟩ := m
    simp only [storeUserMembers]
    split
    · split
      · rename_i e1 he1
        constructor
        · intro e h; cases h; exact NumericID_err_not_eof _ _ he1
        · intro u1 s1 h; cases h
      · exact ih _ _ _ hs
    · repeat (first
        | exact ih _ _ _ hs
        | exact ih _ _ _ (storeString_not_eof _ _ _ hs)
        | exact ih _ _ _ (storeAddresses_not_eof _ _ _ _ hs)
        | split)

theorem unmarshalImportUser_err_not_eof (data : List Nat) (e : Err)
    (h : unmarshalImportUser data = Except.error e) : e.isEOF = false := by
  unfold unmarshalImportUser at h
  split at h
  · rename_i v rest hp
    unfold storeUser at h
    have hnone : SavedOk none := by intro x hx; cases hx
    split at h
    · rename_i ms
      have hm := storeUserMembers_not_eof ms ImportUser.zero [] none hnone
      split at h
      · rename_i e1 he1; cases h; exact hm.1 _ he1
      · cases h
      · rename_i u1 e1 he1; cases h; exact hm.2 _ _ he1 _ rfl
    · cases h
    · cases h; rfl
  · cases h; rfl

theorem isObjectText_cons (r : List Nat) (h : isObjectText r = true) :
    ∃ r1, r = 123 :: r1 := by
  simp only [isObjectText, Bool.and_eq_true, beq_iff_eq] at h
  cases r with
  | nil => simp at h
  | cons c r1 => simp at h; exact ⟨r1, by rw [h.1]⟩

theorem Decode_concat (r rest : List Nat) (h : isObjectText r = true) :
    (NewDecoder (r ++ rest)).Decode = (unmarshalImportUser r, NewDecoder rest) := by
  simp [Decoder.Decode, Decoder.nextValue, NewDecoder, Decoder.tokenPrepareForDecode,
    Decoder.tokenValueAllowed, readValue_object r rest h, Decoder.tokenValueEnd]

theorem Decode_array (first : Bool) (r rest : List Nat) (h : isObjectText r = true) :
    (arrDec first ((if first then r else 44 :: r) ++ rest)).Decode
      = (unmarshalImportUser r, arrDec false rest) := by
  cases first
  · simp [Decoder.Decode, Decoder.nextValue, arrDec, Decoder.tokenPrepareForDecode,
      Decoder.tokenValueAllowed, readValue_object r rest h, Decoder.tokenValueEnd,
      Decoder.peek, skipSpace, isSpace]
  · simp [Decoder.Decode, Decoder.nextValue, arrDec, Decoder.tokenPrepareForDecode,
      Decoder.tokenValueAllowed, readValue_object r rest h, Decoder.tokenValueEnd]

theorem More_array (first : Bool) (r rest : List Nat) (h : isObjectText r = true) :
    (arrDec first ((if first then r else 44 :: r) ++ rest)).More
      = (true, arrDec first ((if first then r else 44 :: r) ++ rest)) := by
  obtain ⟨r1, rfl⟩ := isObjectText_cons r h
  cases first <;> simp [Decoder.More, arrDec, Decoder.peek, skipSpace, isSpace]

theorem More_array_end (first : Bool) :
    (arrDec first [93]).More = (false, arrDec first [93]) := by
  cases first <;> simp [Decoder.More, arrDec, Decoder.peek, skipSpace, isSpace]

theorem Token_array_end (first : Bool) :
    ∃ d, (arrDec first [93]).Token = Except.ok d := by
  cases first <;> simp [Decoder.Token, Decoder.TokenLoop, arrDec, Decoder.peek, skipSpace, isSpace]

theorem streamBegin_array (rs : List (List Nat)) (h : ∀ r ∈ rs, isObjectText r = true) :
    streamBegin (arrayFraming rs) = Stream.running (arrDec true (arrayBody true rs)) true 0 := by
  simp [streamBegin, arrayFraming, peekFirstNonSpace, NewDecoder, Decoder.Token,
    Decoder.TokenLoop, Decoder.peek, skipSpace, isSpace, Decoder.tokenValueAllowed, arrDec]

theorem streamBegin_object (r1 rest : List Nat) :
    streamBegin (123 :: r1 ++ rest) = Stream.running (NewDecoder (123 :: r1 ++ rest)) false 0 := by
  simp [streamBegin, peekFirstNonSpace]

theorem streamIter_concat (ce : Option Err) (r rest : List Nat) (total : Int)
    (h : isObjectText r = true) :
    streamIter ce (NewDecoder (r ++ rest)) false total =
      if ce ≠ none then (none, Stream.returned total ce)
      else match unmarshalImportUser r with
        | Except.error e => (none, Stream.returned total (some e))
        | Except.ok u => (some u, Stream.running (NewDecoder rest) false (total + 1)) := by
  simp only [streamIter, Bool.false_eq_true, if_false, Decode_concat r rest h]
  split
  · rfl
  · cases hu : unmarshalImportUser r with
    | error e => simp [unmarshalImportUser_err_not_eof r e hu]
    | ok u => rfl

theorem streamIter_array (ce : Option Err) (first : Bool) (r rest : List Nat) (total : Int)
    (h : isObjectText r = true) :
    streamIter ce (arrDec first ((if first then r else 44 :: r) ++ rest)) true total =
      if ce ≠ none then (none, Stream.returned total ce)
      else match unmarshalImportUser r with
        | Except.error e => (none, Stream.returned total (some e))
        | Except.ok u => (some u, Stream.running (arrDec false rest) true (total + 1)) := by
  simp only [streamIter, if_true, More_array first r rest h, Decode_array first r rest h]
  split
  · rfl
  · cases hu : unmarshalImportUser r with
    | error e => rfl
    | ok u => rfl

theorem streamIter_array_end (ce : Option Err) (first : Bool) (total : Int) :
    streamIter ce (arrDec first [93]) true total = (none, Stream.returned total none) := by
  obtain ⟨d, hd⟩ := Token_array_end first
  simp [streamIter, More_array_end, hd]

theorem streamLoop_concat (ctx : Nat → Option Err) (tail : List Nat) (fuel : Nat) :
    ∀ (rs : List (List Nat)), (∀ r ∈ rs, isObjectText r = true) →
    ∀ (sent : List ImportUser) (total : Int),
      streamLoop ctx (rs.length + fuel)
          (Stream.running (NewDecoder (concatFraming rs ++ tail)) false total) sent
        = recordsRun ctx rs sent total (fun sent1 total1 =>
            streamLoop ctx fuel (Stream.running (NewDecoder tail) false total1) sent1) := by
  intro rs
  induction rs with
  | nil => intro _ sent total; simp [concatFraming, recordsRun]
  | cons r rs ih =>
    intro h sent total
    have hr := h r (List.mem_cons_self _ _)
    have hrs : ∀ x ∈ rs, isObjectText x = true := fun x hx => h x (List.mem_cons_of_mem _ hx)
    have hf : (r :: rs).length + fuel = (rs.length + fuel) + 1 := by simp; omega
    rw [hf]
    simp only [concatFraming, List.append_assoc, streamLoop, recordsRun,
      streamIter_concat _ r _ total hr]
    by_cases hc : ctx sent.length = none
    · cases hu : unmarshalImportUser r with
      | error e => simp [hc, streamLoop]
      | ok u => simpa [hc] using ih hrs (u :: sent) (total + 1)
    · simp [hc, streamLoop]

theorem streamLoop_array (ctx : Nat → Option Err) (fuel : Nat) :
    ∀ (rs : List (List Nat)), (∀ r ∈ rs, isObjectText r = true) →
    ∀ (first : Bool) (sent : List ImportUser) (total : Int),
      streamLoop ctx (rs.length + 1 + fuel)
          (Stream.running (arrDec first (arrayBody first rs)) true total) sent
        = recordsRun ctx rs sent total (fun sent1 total1 =>
            some { sent := sent1.reverse, total := total1, err := none }) := by
  intro rs
  induction rs with
  | nil =>
    intro _ first sent total
    have hf : ([] : List (List Nat)).length + 1 + fuel = fuel + 1 := by simp; omega
    rw [hf]
    simp [arrayBody, recordsRun, streamLoop, streamIter_array_end]
  | cons r rs ih =>
    intro h first sent total
    have hr := h r (List.mem_cons_self _ _)
    have hrs : ∀ x ∈ rs, isObjectText x = true := fun x hx => h x (List.mem_cons_of_mem _ hx)
    have hf : (r :: rs).length + 1 + fuel = (rs.length + 1 + fuel) + 1 := by simp; omega
    rw [hf]
    simp only [arrayBody, streamLoop, recordsRun, streamIter_array _ first r _ total hr]
    by_cases hc : ctx sent.length = none
    · cases hu : unmarshalImportUser r with
      | error e => simp [hc, streamLoop]
      | ok u => simpa [hc] using ih hrs false (u :: sent) (total + 1)
    · simp [hc, streamLoop]

/-! ### Invariants of a run of `Import` -/

theorem sum_map_set (f : Worker → Nat) (w1 : Worker) :
    ∀ (ws : List Worker) (i : Nat) (w : Worker), ws[i]? = some w →
      ((ws.set i w1).map f).sum + f w = (ws.map f).sum + f w1 := by
  intro ws
  induction ws with
  | nil => intro i w h; simp at h
  | cons a rest ih =>
    intro i w h
    cases i with
    | zero =>
      simp at h
      subst h
      simp only [List.set, List.map_cons, List.sum_cons]
      omega
    | succ j =>
      simp at h
      have := ih j w h
      simp only [List.set, List.map_cons, List.sum_cons]
      omega

theorem holding_set (ws : List Worker) (i : Nat) (w w1 : Worker) (h : ws[i]? = some w) :
    holding (ws.set i w1) + w.holds = holding ws + w1.holds :=
  sum_map_set Worker.holds w1 ws i w h

theorem holdingValidated_set (ws : List Worker) (i : Nat) (w w1 : Worker)
    (h : ws[i]? = some w) :
    holdingValidated (ws.set i w1) + w.holdsValidated
      = holdingValidated ws + w1.holdsValidated :=
  sum_map_set Worker.holdsValidated w1 ws i w h

theorem streamIter_emit (ce : Option Err) (dec : Decoder) (array : Bool) (total : Int)
    (u : ImportUser) (st : Stream) (h : streamIter ce dec array total = (some u, st)) :
    ∃ dec1, st = Stream.running dec1 array (total + 1) := by
  cases array <;> simp only [streamIter, Bool.false_eq_true, if_false, if_true] at h <;>
  repeat (first
    | (simp only [Prod.mk.injEq] at h; obtain ⟨h1, h2⟩ := h
       first | (cases h1 <;> done) | exact ⟨_, h2.symm⟩)
    | split at h)

theorem streamIter_stop (ce : Option Err) (dec : Decoder) (array : Bool) (total : Int)
    (st : Stream) (h : streamIter ce dec array total = (none, st)) :
    ∃ e, st = Stream.returned total e := by
  cases array <;> simp only [streamIter, Bool.false_eq_true, if_false, if_true] at h <;>
  repeat (first
    | (simp only [Prod.mk.injEq] at h; obtain ⟨h1, h2⟩ := h
       first | (cases h1 <;> done) | exact ⟨_, h2.symm⟩)
    | split at h)

theorem streamBegin_total (reader : List Nat) : (streamBegin reader).total = 0 := by
  simp only [streamBegin]
  repeat (first | rfl | split)

theorem trySend_take (cap : Nat) (errCh : List Err) (err : Err) (l : List Err)
    (h : errCh = l.reverse.take cap) :
    trySend cap errCh err = (err :: l).reverse.take cap := by
  unfold trySend
  subst h
  simp only [List.reverse_cons, List.length_take, List.length_reverse]
  split
  · rename_i hlt
    have h1 : l.length < cap := by omega
    rw [List.take_of_length_le (by simp; omega), List.take_of_length_le (by simp; omega)]
  · rename_i hge
    have h1 : cap ≤ l.length := by omega
    rw [List.take_append_of_le_length (by simp; omega)]

theorem mem_set_exited (ws : List Worker) (i : Nat) (w1 : Worker)
    (h : Worker.exited ∈ ws.set i w1) (hw : w1 ≠ Worker.exited) : Worker.exited ∈ ws := by
  rcases List.mem_or_eq_of_mem_set h with h1 | h1
  · exact h1
  · exact absurd h1.symm hw

theorem PoolInv_start {ω : Type} (svc : Service) (world : ω) (reader : List Nat) :
    PoolInv svc (svc.start world reader) := by
  have ht := streamBegin_total reader
  constructor
  · simp only [Service.start]
    cases hs : streamBegin reader with
    | running d a t => rw [hs] at ht; simpa [Producer.ofStream, Producer.total, Producer.pending, Stream.total] using ht
    | returned t e => rw [hs] at ht; simpa [Producer.ofStream, Producer.total, Producer.pending, Stream.total] using ht
  · simp [Service.start, holding, nRejected, nUpsertFailed, nUpserted, nAbandoned, Worker.holds]
  · simp [Service.start, holdingValidated, nAccepted, nUpsertFailed, nUpserted, Worker.holdsValidated]
  · simp [Service.start, nUpserted]
  · simp [Service.start, failures]
  · intro _; simp [Service.start, nAbandoned]
  · intro _ h; simp [Service.start] at h
  · simp [Service.start]
  · simp [Service.start]

theorem PoolInv_cancel {ω : Type} (svc : Service) (p : Pool ω) (h : PoolInv svc p) :
    PoolInv svc { p with cancelled := true } := by
  constructor
  · exact h.total_eq
  · exact h.sent_eq
  · exact h.accepted_eq
  · exact h.success_eq
  · exact h.errCh_eq
  · intro hc; cases hc
  · intro hc; cases hc
  · exact h.workers_len
  · exact h.jobs_len

theorem PoolInv_produce {ω : Type} (svc : Service) (c : Collab ω) (p p1 : Pool ω)
    (h : PoolInv svc p) (hs : step svc c p Event.produce = some p1) : PoolInv svc p1 := by
  simp only [step] at hs
  split at hs
  · rename_i dec array total hp
    have ht := h.total_eq
    have hd := h.drained
    rw [hp] at ht hd
    simp only [Producer.total, Producer.pending, Producer.isReturned] at ht hd
    split at hs
    · rename_i u next hi
      obtain ⟨dec1, hn⟩ := streamIter_emit _ _ _ _ _ _ hi
      cases hs
      constructor
      · simp only [Producer.total, Producer.pending, hn, Stream.total]; omega
      · exact h.sent_eq
      · exact h.accepted_eq
      · exact h.success_eq
      · exact h.errCh_eq
      · exact h.abandoned_eq
      · intro hc hw; have := (hd hc hw).2; simp at this
      · exact h.workers_len
      · exact h.jobs_len
    · rename_i next hi
      obtain ⟨e, hn⟩ := streamIter_stop _ _ _ _ _ hi
      cases hs
      constructor
      · simp only [Producer.total, Producer.pending, hn, Producer.ofStream]; omega
      · exact h.sent_eq
      · exact h.accepted_eq
      · exact h.success_eq
      · exact h.errCh_eq
      · exact h.abandoned_eq
      · intro hc hw; have := (hd hc hw).2; simp at this
      · exact h.workers_len
      · exact h.jobs_len
  · cases hs

theorem ofStream_total (st : Stream) : (Producer.ofStream st).total = st.total := by
  cases st <;> rfl

theorem ofStream_pending (st : Stream) : (Producer.ofStream st).pending = 0 := by
  cases st <;> rfl

theorem PoolInv_send {ω : Type} (svc : Service) (c : Collab ω) (p p1 : Pool ω)
    (h : PoolInv svc p) (hs : step svc c p Event.send = some p1) : PoolInv svc p1 := by
  simp only [step] at hs
  split at hs
  · rename_i u next hp
    have ht := h.total_eq
    have hd := h.drained
    rw [hp] at ht hd
    simp only [Producer.total, Producer.pending, Producer.isReturned] at ht hd
    split at hs
    · rename_i hlen
      cases hs
      have hse := h.sent_eq
      constructor
      · simp only [ofStream_total, ofStream_pending, List.length_cons]; omega
      · simp only [List.length_cons, List.length_append, List.length_nil]; omega
      · exact h.accepted_eq
      · exact h.success_eq
      · exact h.errCh_eq
      · exact h.abandoned_eq
      · intro hc hw; have := (hd hc hw).2; simp at this
      · exact h.workers_len
      · simp only [List.length_cons, List.length_append, List.length_nil]; omega
    · cases hs
  · cases hs

theorem PoolInv_take {ω : Type} (svc : Service) (c : Collab ω) (p p1 : Pool ω) (i : Nat)
    (h : PoolInv svc p) (hs : step svc c p (Event.take i) = some p1) : PoolInv svc p1 := by
  simp only [step] at hs
  split at hs
  · rename_i hw
    have hh := holding_set p.workers i _ (Worker.exited) hw
    have hv := holdingValidated_set p.workers i _ (Worker.exited) hw
    split at hs
    · rename_i raw rest hj
      have hh := holding_set p.workers i _ (Worker.got raw) hw
      have hv := holdingValidated_set p.workers i _ (Worker.got raw) hw
      simp only [Worker.holds, Worker.holdsValidated] at hh hv
      have hse := h.sent_eq
      have hac := h.accepted_eq
      have hjl := h.jobs_len
      rw [hj] at hse hjl
      simp only [List.length_cons] at hse hjl
      cases hs
      constructor
      · exact h.total_eq
      · simp only; omega
      · simp only; omega
      · exact h.success_eq
      · exact h.errCh_eq
      · exact h.abandoned_eq
      · intro hc hx
        have hx1 := mem_set_exited _ _ _ hx (by simp)
        have := (h.drained hc hx1).1
        rw [hj] at this; cases this
      · simp only [List.length_set]; exact h.workers_len
      · simp only; omega
    · rename_i hj
      simp only [Worker.holds, Worker.holdsValidated] at hh hv
      have hse := h.sent_eq
      have hac := h.accepted_eq
      split at hs
      · rename_i t e hp
        cases hs
        constructor
        · exact h.total_eq
        · simp only; omega
        · simp only; omega
        · exact h.success_eq
        · exact h.errCh_eq
        · exact h.abandoned_eq
        · intro _ _; exact ⟨hj, by rw [hp]; rfl⟩
        · simp only [List.length_set]; exact h.workers_len
        · exact h.jobs_len
      · cases hs
  · cases hs

theorem PoolInv_validate {ω : Type} (svc : Service) (c : Collab ω) (p p1 : Pool ω) (i : Nat)
    (h : PoolInv svc p) (hs : step svc c p (Event.validate i) = some p1) : PoolInv svc p1 := by
  simp only [step] at hs
  split at hs
  · rename_i raw hw
    have hse := h.sent_eq
    have hac := h.accepted_eq
    split at hs
    · rename_i hc
      have hh := holding_set p.workers i _ (Worker.exited) hw
      have hv := holdingValidated_set p.workers i _ (Worker.exited) hw
      simp only [Worker.holds, Worker.holdsValidated] at hh hv
      cases hs
      constructor
      · exact h.total_eq
      · simp only [nRejected, nUpsertFailed, nUpserted, nAbandoned]; omega
      · simp only [nAccepted, nUpsertFailed, nUpserted]; omega
      · exact h.success_eq
      · exact h.errCh_eq
      · intro hx; simp only [hc] at hx; cases hx
      · intro hx; simp only [hc] at hx; cases hx
      · simp only [List.length_set]; exact h.workers_len
      · exact h.jobs_len
    · rename_i hc
      split at hs
      · rename_i err hr
        have hh := holding_set p.workers i _ (Worker.idle) hw
        have hv := holdingValidated_set p.workers i _ (Worker.idle) hw
        simp only [Worker.holds, Worker.holdsValidated] at hh hv
        cases hs
        constructor
        · exact h.total_eq
        · simp only [nRejected, nUpsertFailed, nUpserted, nAbandoned]; omega
        · simp only [nAccepted, nUpsertFailed, nUpserted]; omega
        · exact h.success_eq
        · exact trySend_take _ _ _ _ h.errCh_eq
        · exact h.abandoned_eq
        · intro hx hm
          exact h.drained hx (mem_set_exited _ _ _ hm (by simp))
        · simp only [List.length_set]; exact h.workers_len
        · exact h.jobs_len
      · rename_i hr
        have hh := holding_set p.workers i _ (Worker.validated raw) hw
        have hv := holdingValidated_set p.workers i _ (Worker.validated raw) hw
        simp only [Worker.holds, Worker.holdsValidated] at hh hv
        cases hs
        constructor
        · exact h.total_eq
        · simp only [nRejected, nUpsertFailed, nUpserted, nAbandoned]; omega
        · simp only [nAccepted, nUpsertFailed, nUpserted]; omega
        · exact h.success_eq
        · exact h.errCh_eq
        · exact h.abandoned_eq
        · intro hx hm
          exact h.drained hx (mem_set_exited _ _ _ hm (by simp))
        · simp only [List.length_set]; exact h.workers_len
        · exact h.jobs_len
  · cases hs

theorem PoolInv_upsert {ω : Type} (svc : Service) (c : Collab ω) (p p1 : Pool ω) (i : Nat)
    (h : PoolInv svc p) (hs : step svc c p (Event.upsert i) = some p1) : PoolInv svc p1 := by
  simp only [step] at hs
  split at hs
  · rename_i raw hw
    have hse := h.sent_eq
    have hac := h.accepted_eq
    have hh := holding_set p.workers i _ (Worker.idle) hw
    have hv := holdingValidated_set p.workers i _ (Worker.idle) hw
    simp only [Worker.holds, Worker.holdsValidated] at hh hv
    split at hs
    · rename_i err hr
      cases hs
      constructor
      · exact h.total_eq
      · simp only [nRejected, nUpsertFailed, nUpserted, nAbandoned]; omega
      · simp only [nAccepted, nUpsertFailed, nUpserted]; omega
      · exact h.success_eq
      · exact trySend_take _ _ _ _ h.errCh_eq
      · exact h.abandoned_eq
      · intro hx hm
        exact h.drained hx (mem_set_exited _ _ _ hm (by simp))
      · simp only [List.length_set]; exact h.workers_len
      · exact h.jobs_len
    · rename_i hr
      have hsu := h.success_eq
      cases hs
      constructor
      · exact h.total_eq
      · simp only [nRejected, nUpsertFailed, nUpserted, nAbandoned]; omega
      · simp only [nAccepted, nUpsertFailed, nUpserted]; omega
      · simp only [nUpserted]; omega
      · exact h.errCh_eq
      · exact h.abandoned_eq
      · intro hx hm
        exact h.drained hx (mem_set_exited _ _ _ hm (by simp))
      · simp only [List.length_set]; exact h.workers_len
      · exact h.jobs_len
  · cases hs

theorem PoolInv_step {ω : Type} (svc : Service) (c : Collab ω) (p p1 : Pool ω) (e : Event)
    (h : PoolInv svc p) (hs : step svc c p e = some p1) : PoolInv svc p1 := by
  cases e with
  | cancel => simp only [step] at hs; cases hs; exact PoolInv_cancel svc p h
  | produce => exact PoolInv_produce svc c p p1 h hs
  | send => exact PoolInv_send svc c p p1 h hs
  | take i => exact PoolInv_take svc c p p1 i h hs
  | validate i => exact PoolInv_validate svc c p p1 i h hs
  | upsert i => exact PoolInv_upsert svc c p p1 i h hs

theorem PoolInv_run {ω : Type} (svc : Service) (c : Collab ω) :
    ∀ (es : List Event) (p p1 : Pool ω), PoolInv svc p →
      runEvents svc c es p = some p1 → PoolInv svc p1 := by
  intro es
  induction es with
  | nil => intro p p1 h hs; simp only [runEvents] at hs; cases hs; exact h
  | cons e es ih =>
    intro p p1 h hs
    simp only [runEvents] at hs
    split at hs
    · rename_i p2 h2
      exact ih p2 p1 (PoolInv_step svc c p p2 e h h2) hs
    · cases hs

/-! ### What `Import` returns -/

theorem run_no_cancel {ω : Type} (svc : Service) (c : Collab ω) :
    ∀ (es : List Event) (p p1 : Pool ω), Event.cancel ∉ es →
      runEvents svc c es p = some p1 → p1.cancelled = p.cancelled := by
  intro es
  induction es with
  | nil => intro p p1 _ hs; simp only [runEvents] at hs; cases hs; rfl
  | cons e es ih =>
    intro p p1 hn hs
    simp only [runEvents] at hs
    split at hs
    · rename_i p2 h2
      have h3 := ih p2 p1 (fun hm => hn (List.mem_cons_of_mem _ hm)) hs
      rw [h3]
      cases e with
      | cancel => exact absurd (List.mem_cons_self _ _) hn
      | produce =>
        simp only [step] at h2
        repeat (first | (cases h2; rfl) | cases h2 | split at h2)
      | send =>
        simp only [step] at h2
        repeat (first | (cases h2; rfl) | cases h2 | split at h2)
      | take i =>
        simp only [step] at h2
        repeat (first | (cases h2; rfl) | cases h2 | split at h2)
      | validate i =>
        simp only [step] at h2
        repeat (first | (cases h2; rfl) | cases h2 | split at h2)
      | upsert i =>
        simp only [step] at h2
        repeat (first | (cases h2; rfl) | cases h2 | split at h2)
    · cases hs

theorem allExited_holding (ws : List Worker) (h : allExited ws = true) : holding ws = 0 := by
  induction ws with
  | nil => rfl
  | cons w rest ih =>
    simp only [allExited, List.all_cons, Bool.and_eq_true, beq_iff_eq] at h
    have := ih (by simpa [allExited] using h.2)
    simp only [holding, List.map_cons, List.sum_cons] at this ⊢
    rw [h.1, this]; rfl

theorem allExited_mem (ws : List Worker) (h : allExited ws = true) (hn : 0 < ws.length) :
    Worker.exited ∈ ws := by
  cases ws with
  | nil => simp at hn
  | cons w rest =>
    simp only [allExited, List.all_cons, Bool.and_eq_true, beq_iff_eq] at h
    rw [h.1]; exact List.mem_cons_self _ _

theorem result_some {ω : Type} (p : Pool ω) (summary : ImportSummary) (err : Option Err)
    (h : p.result = some (summary, err)) :
    ∃ total readErr, p.prod = Producer.returned total readErr ∧ allExited p.workers = true
      ∧ summary = { Total := total, Successful := p.success, Failed := total - p.success }
      ∧ err = if readErr ≠ none then readErr else combineLoop none p.errCh := by
  unfold Pool.result at h
  split at h
  · rename_i total readErr hp
    split at h
    · rename_i ha
      refine ⟨total, readErr, hp, ha, ?_, ?_⟩
      · split at h <;> (cases h; rfl)
      · split at h
        · rename_i hr; cases h; simp [hr]
        · rename_i hr; cases h; simp [hr]
    · cases h
  · cases h

theorem NewService_bounds (opts : ImportOptions) :
    1 ≤ (NewService opts).maxWorkers ∧ (NewService opts).maxWorkers ≤ 10
      ∧ 1 ≤ (NewService opts).queueSize := by
  obtain ⟨mw, qs⟩ := opts
  simp only [NewService, normalizeOptions, maxAllowedWorkers, defaultQueueSize]
  by_cases h1 : mw ≤ 0 ∨ mw > 10 <;> by_cases h2 : qs ≤ 0 <;> simp [h1, h2] <;> omega

theorem failures_length (calls : List Call) :
    (failures calls).length = nRejected calls + nUpsertFailed calls := by
  induction calls with
  | nil => rfl
  | cons c rest ih =>
    cases c <;> simp only [failures, nRejected, nUpsertFailed, List.length_cons] <;> omega

theorem allExited_holdingValidated (ws : List Worker) (h : allExited ws = true) :
    holdingValidated ws = 0 := by
  induction ws with
  | nil => rfl
  | cons w rest ih =>
    simp only [allExited, List.all_cons, Bool.and_eq_true, beq_iff_eq] at h
    have := ih (by simpa [allExited] using h.2)
    simp only [holdingValidated, List.map_cons, List.sum_cons] at this ⊢
    rw [h.1, this]; rfl

/-- The counts at the end of a run that was never cancelled. -/
theorem final_counts {ω : Type} (opts : ImportOptions) (c : Collab ω) (world : ω)
    (reader : List Nat) (schedule : List Event) (p : Pool ω) (total : Int)
    (readErr : Option Err)
    (hrun : runEvents (NewService opts) c schedule ((NewService opts).start world reader)
      = some p)
    (hnc : Event.cancel ∉ schedule)
    (hp : p.prod = Producer.returned total readErr) (ha : allExited p.workers = true) :
    total = (p.sent.length : Int)
    ∧ p.sent.length = nRejected p.calls + nUpsertFailed p.calls + nUpserted p.calls
    ∧ nAccepted p.calls = nUpserted p.calls + nUpsertFailed p.calls
    ∧ p.success = (nUpserted p.calls : Int)
    ∧ p.errCh = (failures p.calls).reverse.take (NewService opts).errCap := by
  have hinv := PoolInv_run _ c schedule _ p (PoolInv_start _ world reader) hrun
  have hc : p.cancelled = false := by
    rw [run_no_cancel _ c schedule _ p hnc hrun]; rfl
  have hb := NewService_bounds opts
  have hlen : 0 < p.workers.length := by rw [hinv.workers_len]; omega
  have hj := (hinv.drained hc (allExited_mem _ ha hlen)).1
  have ht := hinv.total_eq
  have hs := hinv.sent_eq
  have hacc := hinv.accepted_eq
  rw [hp] at ht
  simp only [Producer.total, Producer.pending] at ht
  rw [hj, allExited_holding _ ha, hinv.abandoned_eq hc] at hs
  rw [allExited_holdingValidated _ ha] at hacc
  simp only [List.length_nil] at hs
  refine ⟨by omega, by omega, by omega, hinv.success_eq, hinv.errCh_eq⟩

theorem failures_single (calls : List Call) (hr : nRejected calls = 0)
    (hu : nUpsertFailed calls = 1) :
    ∃ raw e, Call.upsertFailed raw e ∈ calls ∧ failures calls = [e] := by
  induction calls with
  | nil => simp [nUpsertFailed] at hu
  | cons c rest ih =>
    cases c with
    | rejected raw e => simp [nRejected] at hr
    | upsertFailed raw e =>
      simp only [nRejected, nUpsertFailed] at hr hu
      have h0 : (failures rest).length = 0 := by rw [failures_length]; omega
      refine ⟨raw, e, List.mem_cons_self _ _, ?_⟩
      simp only [failures, List.length_eq_zero.mp h0]
    | accepted raw =>
      simp only [nRejected, nUpsertFailed] at hr hu
      obtain ⟨raw1, e, hm, hf⟩ := ih hr hu
      exact ⟨raw1, e, List.mem_cons_of_mem _ hm, by simpa [failures] using hf⟩
    | upserted raw =>
      simp only [nRejected, nUpsertFailed] at hr hu
      obtain ⟨raw1, e, hm, hf⟩ := ih hr hu
      exact ⟨raw1, e, List.mem_cons_of_mem _ hm, by simpa [failures] using hf⟩
    | abandoned raw =>
      simp only [nRejected, nUpsertFailed] at hr hu
      obtain ⟨raw1, e, hm, hf⟩ := ih hr hu
      exact ⟨raw1, e, List.mem_cons_of_mem _ hm, by simpa [failures] using hf⟩

/-- C1: whatever the stream, the validator and the repository do, and however
the goroutines are scheduled, the summary that `Service.Import` returns has
`Total = Successful + Failed`. -/
theorem import_total_is_sum {ω : Type} (svc : Service) (c : Collab ω) (world : ω)
    (reader : List Nat) (schedule : List Event) (summary : ImportSummary)
    (err : Option Err)
    (h : svc.Import c world reader schedule = some (summary, err)) :
    summary.Total = summary.Successful + summary.Failed := by
  unfold Service.Import at h
  split at h
  · rename_i p hp
    obtain ⟨total, readErr, _, _, hs, _⟩ := result_some p summary err h
    rw [hs]; simp only; omega
  · cases h

theorem import_total_is_sum_witness :
    (NewService ⟨1, 1⟩).Import (sampleCollab [2]) ()
        twoRecords
        (oneRecord ++ oneRecord ++ [Event.produce, Event.take 0])
      = some (⟨2, 1, 1⟩, some (Err.repo 1))
    ∧ (2 : Int) = 1 + 1 :=
  ⟨by decide, import_total_is_sum (NewService ⟨1, 1⟩) (sampleCollab [2]) ()
    twoRecords
    (oneRecord ++ oneRecord ++ [Event.produce, Event.take 0]) ⟨2, 1, 1⟩ (some (Err.repo 1))
    (by decide)⟩

/-- C9: in a run of `Import` that is never cancelled, `Failed` is exactly the
number of records that validation rejected plus the number whose upsert
failed, `Successful` the number upserted, and every decoded record is one of
the three; this holds however many failures there are, while `errCh` keeps
only the first `2 * maxWorkers` of their errors. -/
theorem failed_counts_failures {ω : Type} (opts : ImportOptions) (c : Collab ω) (world : ω)
    (reader : List Nat) (schedule : List Event) (p : Pool ω) (summary : ImportSummary)
    (err : Option Err)
    (hrun : runEvents (NewService opts) c schedule ((NewService opts).start world reader)
      = some p)
    (hres : p.result = some (summary, err))
    (hnc : Event.cancel ∉ schedule) :
    summary.Failed = (nRejected p.calls + nUpsertFailed p.calls : Nat)
    ∧ summary.Successful = (nUpserted p.calls : Nat)
    ∧ summary.Total = (p.sent.length : Nat)
    ∧ p.sent.length = nRejected p.calls + nUpsertFailed p.calls + nUpserted p.calls
    ∧ nAccepted p.calls = nUpserted p.calls + nUpsertFailed p.calls
    ∧ p.errCh = (failures p.calls).reverse.take (2 * (NewService opts).maxWorkers.toNat)
    ∧ p.errCh.length
        = min (nRejected p.calls + nUpsertFailed p.calls)
            (2 * (NewService opts).maxWorkers.toNat) := by
  obtain ⟨total, readErr, hp, ha, hs, _⟩ := result_some p summary err hres
  obtain ⟨h1, h2, h3, h4, h5⟩ :=
    final_counts opts c world reader schedule p total readErr hrun hnc hp ha
  have hb := NewService_bounds opts
  have hcap : (NewService opts).errCap = 2 * (NewService opts).maxWorkers.toNat := by
    unfold Service.errCap; omega
  rw [hcap] at h5
  refine ⟨?_, ?_, ?_, h2, h3, h5, ?_⟩
  · rw [hs]; simp only; omega
  · rw [hs]; simp only; omega
  · rw [hs]; simp only; omega
  · rw [h5, List.length_take, List.length_reverse, failures_length]
    exact Nat.min_comm _ _

theorem failed_counts_failures_witness :
    (runEvents (NewService ⟨1, 1⟩) (sampleCollab [])
        (oneRejected ++ oneRejected ++ oneRejected ++ [Event.produce, Event.take 0])
        ((NewService ⟨1, 1⟩).start () threeZeroRecords)
      = some threeRejectedPool)
    ∧ threeRejectedPool.result
      = some (⟨3, 0, 3⟩, some (Err.joined (Err.invalid 0) (Err.invalid 0)))
    ∧ (⟨3, 0, 3⟩ : ImportSummary).Failed
      = (nRejected threeRejectedPool.calls + nUpsertFailed threeRejectedPool.calls : Nat)
    ∧ threeRejectedPool.errCh.length
      = min (nRejected threeRejectedPool.calls + nUpsertFailed threeRejectedPool.calls)
          (2 * (NewService ⟨1, 1⟩).maxWorkers.toNat) :=
  have h := failed_counts_failures ⟨1, 1⟩ (sampleCollab []) ()
      threeZeroRecords
      (oneRejected ++ oneRejected ++ oneRejected ++ [Event.produce, Event.take 0])
      threeRejectedPool ⟨3, 0, 3⟩ (some (Err.joined (Err.invalid 0) (Err.invalid 0)))
      (by rfl) (by decide) (by decide)
  ⟨by rfl, by decide, h.1, h.2.2.2.2.2.2⟩

/-- C2: when all `N` records of a fully decoded stream pass validation, the
repository fails for exactly one of them and the run is never cancelled,
`Import` returns `Total = N`, `Successful = N - 1`, `Failed = 1` and a
non-nil error, namely the error of that one upsert. -/
theorem one_upsert_failure {ω : Type} (opts : ImportOptions) (c : Collab ω) (world : ω)
    (reader : List Nat) (schedule : List Event) (p : Pool ω) (summary : ImportSummary)
    (err : Option Err) (N : Nat) (total : Int)
    (hrun : runEvents (NewService opts) c schedule ((NewService opts).start world reader)
      = some p)
    (hres : p.result = some (summary, err))
    (hnc : Event.cancel ∉ schedule)
    (hdec : p.prod = Producer.returned total none)
    (hN : p.sent.length = N)
    (hval : nRejected p.calls = 0)
    (hup : nUpsertFailed p.calls = 1) :
    1 ≤ N ∧ summary = { Total := N, Successful := (N : Int) - 1, Failed := 1 }
    ∧ err ≠ none
    ∧ ∃ raw e, Call.upsertFailed raw e ∈ p.calls ∧ err = some e := by
  obtain ⟨total1, readErr, hp, ha, hs, he⟩ := result_some p summary err hres
  obtain ⟨h1, h2, h3, h4, h5⟩ :=
    final_counts opts c world reader schedule p total1 readErr hrun hnc hp ha
  rw [hdec] at hp
  cases hp
  obtain ⟨raw, e, hm, hf⟩ := failures_single p.calls hval hup
  have hb := NewService_bounds opts
  have hcap : 1 ≤ (NewService opts).errCap := by unfold Service.errCap; omega
  have herr : err = some e := by
    rw [he, h5, hf]
    simp only [ne_eq, not_true_eq_false, if_false, List.reverse_singleton]
    rw [List.take_of_length_le (by simpa using hcap)]
    rfl
  refine ⟨by omega, ?_, by rw [herr]; simp, raw, e, hm, herr⟩
  rw [hs, h4, h1]
  have : ((nUpserted p.calls : Nat) : Int) = (N : Int) - 1 := by omega
  rw [this, hN]
  congr 1
  omega

theorem one_upsert_failure_witness :
    (runEvents (NewService ⟨1, 1⟩) (sampleCollab [2])
        (oneRecord ++ oneRecord ++ [Event.produce, Event.take 0])
        ((NewService ⟨1, 1⟩).start () twoRecords) = some oneFailedPool)
    ∧ oneFailedPool.result = some (⟨2, 1, 1⟩, some (Err.repo 1))
    ∧ (⟨2, 1, 1⟩ : ImportSummary)
        = { Total := (2 : Nat), Successful := ((2 : Nat) : Int) - 1, Failed := 1 }
    ∧ some (Err.repo 1) ≠ none :=
  have h := one_upsert_failure ⟨1, 1⟩ (sampleCollab [2]) () twoRecords
      (oneRecord ++ oneRecord ++ [Event.produce, Event.take 0]) oneFailedPool ⟨2, 1, 1⟩
      (some (Err.repo 1)) 2 2 (by rfl) (by decide) (by decide) (by rfl) (by decide)
      (by decide) (by decide)
  ⟨by rfl, by decide, h.2.1, h.2.2.1⟩

/-! ### Empty input -/

theorem peek_white (reader : List Nat) (h : allWhite reader) :
    peekFirstNonSpace reader = Except.error Err.eof := by
  induction reader with
  | nil => rfl
  | cons b rest ih =>
    have hb := h b (List.mem_cons_self _ _)
    have hr : allWhite rest := fun x hx => h x (List.mem_cons_of_mem _ hx)
    simp only [peekFirstNonSpace]
    rw [if_pos (by omega)]
    exact ih hr

theorem streamBegin_white (reader : List Nat) (h : allWhite reader) :
    streamBegin reader = Stream.returned 0 none := by
  simp [streamBegin, peek_white reader h, Err.isEOF]

theorem step_returned {ω : Type} (svc : Service) (c : Collab ω) (p p1 : Pool ω) (e : Event)
    (total : Int) (readErr : Option Err) (hp : p.prod = Producer.returned total readErr)
    (hs : step svc c p e = some p1) :
    p1.prod = Producer.returned total readErr ∧ p1.sent = p.sent := by
  cases e with
  | cancel => simp only [step] at hs; cases hs; exact ⟨hp, rfl⟩
  | produce => simp only [step, hp] at hs; cases hs
  | send => simp only [step, hp] at hs; cases hs
  | take i =>
    simp only [step] at hs
    repeat (first | (cases hs; exact ⟨hp, rfl⟩) | cases hs | split at hs)
  | validate i =>
    simp only [step] at hs
    repeat (first | (cases hs; exact ⟨hp, rfl⟩) | cases hs | split at hs)
  | upsert i =>
    simp only [step] at hs
    repeat (first | (cases hs; exact ⟨hp, rfl⟩) | cases hs | split at hs)

theorem run_returned {ω : Type} (svc : Service) (c : Collab ω) (total : Int)
    (readErr : Option Err) :
    ∀ (es : List Event) (p p1 : Pool ω), p.prod = Producer.returned total readErr →
      runEvents svc c es p = some p1 →
      p1.prod = Producer.returned total readErr ∧ p1.sent = p.sent := by
  intro es
  induction es with
  | nil => intro p p1 hp hs; simp only [runEvents] at hs; cases hs; exact ⟨hp, rfl⟩
  | cons e es ih =>
    intro p p1 hp hs
    simp only [runEvents] at hs
    split at hs
    · rename_i p2 h2
      obtain ⟨h3, h4⟩ := step_returned svc c p p2 e total readErr hp h2
      obtain ⟨h5, h6⟩ := ih p2 p1 h3 hs
      exact ⟨h5, by rw [h6, h4]⟩
    · cases hs

theorem calls_nil (calls : List Call) (h1 : nRejected calls = 0) (h2 : nAccepted calls = 0)
    (h3 : nUpsertFailed calls = 0) (h4 : nUpserted calls = 0) (h5 : nAbandoned calls = 0) :
    calls = [] := by
  cases calls with
  | nil => rfl
  | cons c rest =>
    cases c <;> simp [nRejected, nAccepted, nUpsertFailed, nUpserted, nAbandoned] at h1 h2 h3 h4 h5

theorem workers_get_idle (k m : Nat) :
    (List.replicate k Worker.exited ++ List.replicate (m + 1) Worker.idle)[k]?
      = some Worker.idle := by
  rw [List.getElem?_append_right (by simp)]
  simp

theorem workers_set_exited (k m : Nat) :
    (List.replicate k Worker.exited ++ List.replicate (m + 1) Worker.idle).set k Worker.exited
      = List.replicate (k + 1) Worker.exited ++ List.replicate m Worker.idle := by
  induction k with
  | zero => simp [List.replicate_succ]
  | succ j ih =>
    simp only [List.replicate_succ, List.cons_append, List.set_cons_succ] at ih ⊢
    rw [ih]

theorem run_exitFrom {ω : Type} (svc : Service) (c : Collab ω) (total : Int)
    (readErr : Option Err) :
    ∀ (m k : Nat) (p : Pool ω), p.prod = Producer.returned total readErr → p.jobs = [] →
      p.workers = List.replicate k Worker.exited ++ List.replicate m Worker.idle →
      runEvents svc c (exitFrom k m) p
        = some { p with workers := List.replicate (k + m) Worker.exited } := by
  intro m
  induction m with
  | zero =>
    intro k p hp hj hw
    simp only [exitFrom, List.range'_zero, List.map_nil, runEvents, Nat.add_zero]
    simp only [List.replicate_zero, List.append_nil] at hw
    rw [← hw]
  | succ n ih =>
    intro k p hp hj hw
    have hstep : step svc c p (Event.take k)
        = some { p with workers := p.workers.set k Worker.exited } := by
      simp only [step, hw, workers_get_idle, hj, hp]
    have hfrom : exitFrom k (n + 1) = Event.take k :: exitFrom (k + 1) n := by
      simp [exitFrom, List.range'_succ]
    rw [hfrom]
    simp only [runEvents, hstep]
    have hw1 : p.workers.set k Worker.exited
        = List.replicate (k + 1) Worker.exited ++ List.replicate n Worker.idle := by
      rw [hw]; exact workers_set_exited k n
    have h1 := ih (k + 1) { p with workers := p.workers.set k Worker.exited } hp hj hw1
    have h2 : k + 1 + n = k + (n + 1) := by omega
    rw [h2] at h1
    exact h1

theorem allExited_replicate (n : Nat) : allExited (List.replicate n Worker.exited) = true := by
  induction n with
  | zero => rfl
  | succ k ih => simp [allExited, List.replicate_succ]

theorem holdingValidated_le (ws : List Worker) : holdingValidated ws ≤ holding ws := by
  induction ws with
  | nil => simp [holdingValidated, holding]
  | cons w rest ih =>
    simp only [holdingValidated, holding, List.map_cons, List.sum_cons] at ih ⊢
    cases w <;> simp only [Worker.holds, Worker.holdsValidated] <;> omega

theorem nothing_sent {ω : Type} (svc : Service) (p : Pool ω) (h : PoolInv svc p)
    (hs : p.sent = []) : p.calls = [] ∧ p.jobs = [] ∧ p.success = 0 ∧ p.errCh = [] := by
  have h1 := h.sent_eq
  have h2 := h.accepted_eq
  have h3 := holdingValidated_le p.workers
  rw [hs] at h1
  simp only [List.length_nil] at h1
  have hc : p.calls = [] :=
    calls_nil p.calls (by omega) (by omega) (by omega) (by omega) (by omega)
  refine ⟨hc, List.length_eq_zero.mp (by omega), ?_, ?_⟩
  · rw [h.success_eq, hc]; rfl
  · rw [h.errCh_eq, hc]; simp [failures]

/-- C5: on an input that is empty or holds only space, tab, CR and LF,
`streamUsers` returns `(0, nil)` without sending a record, and in every run
of `Import` no record is sent, validated or persisted and the only possible
return is the summary `{0, 0, 0}` with a nil error; the run in which each
worker sees the closed queue is such a return. -/
theorem empty_input (reader : List Nat) (h : allWhite reader) :
    (∀ ctx, streamUsers ctx reader = some { sent := [], total := 0, err := none })
    ∧ (∀ (ω : Type) (opts : ImportOptions) (c : Collab ω) (world : ω)
        (schedule : List Event) (p : Pool ω),
        runEvents (NewService opts) c schedule ((NewService opts).start world reader) = some p →
        p.sent = [] ∧ p.calls = []
        ∧ ∀ summary err, p.result = some (summary, err) →
            summary = { Total := 0, Successful := 0, Failed := 0 } ∧ err = none)
    ∧ (∀ (ω : Type) (opts : ImportOptions) (c : Collab ω) (world : ω),
        (NewService opts).Import c world reader (exitFrom 0 (NewService opts).maxWorkers.toNat)
          = some ({ Total := 0, Successful := 0, Failed := 0 }, none)) := by
  have hb := streamBegin_white reader h
  refine ⟨?_, ?_, ?_⟩
  · intro ctx
    simp only [streamUsers, hb]
    cases hn : reader.length + 1 <;> simp [streamLoop]
  · intro ω opts c world schedule p hrun
    have hinv := PoolInv_run _ c schedule _ p (PoolInv_start _ world reader) hrun
    have hstart : ((NewService opts).start world reader).prod = Producer.returned 0 none := by
      simp only [Service.start, hb, Producer.ofStream]
    obtain ⟨hp, hsent⟩ := run_returned _ c 0 none schedule _ p hstart hrun
    have hs : p.sent = [] := by rw [hsent]; rfl
    obtain ⟨hc, _, hsucc, herr⟩ := nothing_sent _ p hinv hs
    refine ⟨hs, hc, ?_⟩
    intro summary err hres
    obtain ⟨total, readErr, hp1, _, hsum, he⟩ := result_some p summary err hres
    rw [hp] at hp1
    cases hp1
    rw [hsum, he, hsucc, herr]
    simp [combineLoop]
  · intro ω opts c world
    have hstart : ((NewService opts).start world reader).prod = Producer.returned 0 none := by
      simp only [Service.start, hb, Producer.ofStream]
    have hrun := run_exitFrom (NewService opts) c 0 none (NewService opts).maxWorkers.toNat 0
      ((NewService opts).start world reader) hstart rfl (by simp [Service.start])
    simp only [Service.Import, hrun, Pool.result, hstart, Nat.zero_add, allExited_replicate]
    simp [Service.start, combineLoop]

theorem empty_input_witness :
    allWhite [32, 10, 9, 13]
    ∧ streamUsers background [32, 10, 9, 13] = some { sent := [], total := 0, err := none }
    ∧ (NewService ⟨3, 0⟩).Import (sampleCollab []) () [32, 10, 9, 13]
          (exitFrom 0 (NewService ⟨3, 0⟩).maxWorkers.toNat)
        = some ({ Total := 0, Successful := 0, Failed := 0 }, none) :=
  have hw : allWhite [32, 10, 9, 13] := by intro b hb; simp at hb; omega
  ⟨hw, (empty_input [32, 10, 9, 13] hw).1 background,
    (empty_input [32, 10, 9, 13] hw).2.2 Unit ⟨3, 0⟩ (sampleCollab []) ()⟩

/-! ### The identifier as a JSON string and as a JSON number -/

theorem parseUintLoop_decimalLoop :
    ∀ (fuel n : Nat) (acc : List Nat), n < fuel → n < 2 ^ 64 →
      parseUintLoop 0 (decimalLoop fuel n acc) = parseUintLoop n acc := by
  intro fuel
  induction fuel with
  | zero => intro n acc h; omega
  | succ k ih =>
    intro n acc hf hn
    simp only [decimalLoop]
    split
    · rename_i h10
      simp only [parseUintLoop, isDigit]
      have h1 : (decide (48 ≤ 48 + n) && decide (48 + n ≤ 57)) = true := by
        simp only [Bool.and_eq_true, decide_eq_true_eq]; omega
      simp only [h1, if_true]
      have h2 : ¬ (0 ≥ (2 ^ 64 - 1) / 10 + 1) := by norm_num
      have h3 : ¬ (0 * 10 + (48 + n - 48) > 2 ^ 64 - 1) := by omega
      simp only [h2, h3, if_false]
      congr 1; omega
    · rename_i h10
      rw [ih (n / 10) _ (by omega) (by omega)]
      simp only [parseUintLoop, isDigit]
      have h1 : (decide (48 ≤ 48 + n % 10) && decide (48 + n % 10 ≤ 57)) = true := by
        simp only [Bool.and_eq_true, decide_eq_true_eq]; omega
      simp only [h1, if_true]
      have h2 : ¬ (n / 10 ≥ (2 ^ 64 - 1) / 10 + 1) := by omega
      have h3 : ¬ (n / 10 * 10 + (48 + n % 10 - 48) > 2 ^ 64 - 1) := by omega
      simp only [h2, h3, if_false]
      congr 1; omega

theorem decimalLoop_shape :
    ∀ (fuel n : Nat) (acc : List Nat), n < fuel →
      ∃ d ds, decimalLoop fuel n acc = (48 + d) :: (ds ++ acc) ∧ d < 10 ∧ (0 < n → 0 < d)
        ∧ (∀ x ∈ ds, isDigit x = true) ∧ (n < 10 → ds = []) := by
  intro fuel
  induction fuel with
  | zero => intro n acc h; omega
  | succ k ih =>
    intro n acc hf
    simp only [decimalLoop]
    split
    · rename_i h10
      exact ⟨n, [], rfl, h10, fun h => h, by simp, fun _ => rfl⟩
    · rename_i h10
      obtain ⟨d, ds, h1, h2, h3, h4, _⟩ := ih (n / 10) ((48 + n % 10) :: acc) (by omega)
      refine ⟨d, ds ++ [48 + n % 10], ?_, h2, fun _ => h3 (by omega), ?_, fun h => absurd h h10⟩
      · rw [h1]; simp
      · intro x hx
        rcases List.mem_append.mp hx with hx1 | hx1
        · exact h4 x hx1
        · simp only [List.mem_singleton] at hx1
          subst hx1
          simp only [isDigit, Bool.and_eq_true, decide_eq_true_eq]; omega

theorem decimal_shape (n : Nat) :
    ∃ d ds, decimal n = (48 + d) :: ds ∧ d < 10 ∧ (0 < n → 0 < d)
      ∧ (∀ x ∈ ds, isDigit x = true) ∧ (n < 10 → ds = []) := by
  obtain ⟨d, ds, h1, h2, h3, h4, h5⟩ := decimalLoop_shape (n + 1) n [] (by omega)
  exact ⟨d, ds, by simpa [decimal] using h1, h2, h3, h4, h5⟩

theorem parseUint_decimal (n : Nat) (hn : n < 2 ^ 64) : parseUint (decimal n) = some n := by
  obtain ⟨d, ds, h1, _⟩ := decimal_shape n
  have hne : decimal n ≠ [] := by rw [h1]; simp
  simp only [parseUint, hne, if_false]
  rw [decimal, parseUintLoop_decimalLoop (n + 1) n [] (by omega) hn]
  rfl

theorem checkValidLoop_digits :
    ∀ (ds : List Nat), (∀ x ∈ ds, isDigit x = true) →
      checkValidLoop inDigits ds = some inDigits := by
  intro ds
  induction ds with
  | nil => intro _; rfl
  | cons c rest ih =>
    intro h
    have hc := h c (List.mem_cons_self _ _)
    have hr := ih (fun x hx => h x (List.mem_cons_of_mem _ hx))
    have hstep : inDigits.stepByte c = (inDigits, ScanCode.scanContinue) := by
      simp [Scanner.stepByte, inDigits, state1, hc, Scanner.goto]
    simp only [checkValidLoop, hstep]
    simpa using hr

theorem checkValid_decimal (n : Nat) : checkValid (decimal n) = true := by
  obtain ⟨d, ds, h1, h2, h3, h4, h5⟩ := decimal_shape n
  rw [h1]
  by_cases hd : d = 0
  · have hn : n < 10 := by
      by_contra hcon
      have := h3 (by omega)
      omega
    rw [h5 hn, hd]
    decide
  · have hfirst : Scanner.reset.stepByte (48 + d) = (inDigits, ScanCode.scanBeginLiteral) := by
      have hd1 : 1 ≤ d := by omega
      interval_cases d <;> rfl
    simp only [checkValid, checkValidLoop, hfirst]
    have := checkValidLoop_digits ds h4
    simp only [reduceCtorEq, if_false, this]
    decide

theorem takeWhile_digits (ds : List Nat) (h : ∀ x ∈ ds, isDigit x = true) :
    ds.takeWhile isNumberByte = ds ∧ ds.dropWhile isNumberByte = [] := by
  induction ds with
  | nil => exact ⟨rfl, rfl⟩
  | cons c rest ih =>
    have hc := h c (List.mem_cons_self _ _)
    obtain ⟨h1, h2⟩ := ih (fun x hx => h x (List.mem_cons_of_mem _ hx))
    have hb : isNumberByte c = true := by simp [isNumberByte, hc]
    simp [List.takeWhile, List.dropWhile, hb, h1, h2]

theorem parseValue_decimal (n k : Nat) :
    parseValue (k + 1) (decimal n) = some (JVal.num (decimal n), []) := by
  obtain ⟨d, ds, h1, h2, _, h4, _⟩ := decimal_shape n
  obtain ⟨ht, hdr⟩ := takeWhile_digits ds h4
  rw [h1]
  interval_cases d <;>
    simp [parseValue, skipSpace, isSpace, isNumberByte, isDigit, ht, hdr, stripLit]

theorem unmarshalUint64_decimal (n : Nat) (hn : n < 2 ^ 64) :
    unmarshalUint64 (decimal n) = Except.ok n := by
  simp only [unmarshalUint64, checkValid_decimal, if_true, parseValue_decimal,
    parseUint_decimal n hn]

theorem NumericID_number (n : Nat) (hn : n < 2 ^ 64) :
    NumericID.UnmarshalJSON (decimal n) = Except.ok n := by
  obtain ⟨d, ds, h1, h2, _⟩ := decimal_shape n
  have hlen : ¬ (decimal n).length = 0 := by rw [h1]; simp
  have hhead : ¬ (decimal n).head? = some 34 := by
    rw [h1]; simp; omega
  simp only [NumericID.UnmarshalJSON, hlen, hhead, if_false, unmarshalUint64_decimal n hn]

theorem quoteByte_plain (c : Nat) (h : isPlain c = true) : quoteByte c = [c] := by
  simp only [isPlain, Bool.and_eq_true, decide_eq_true_eq, bne_iff_ne, ne_eq] at h
  simp only [quoteByte]
  repeat (first | rfl | omega | split)

theorem unquoteFrom_plain (c fuel : Nat) (acc rest : List Nat) (h : isPlain c = true) :
    unquoteFrom (fuel + 1) acc (c :: rest) = unquoteFrom fuel (c :: acc) rest := by
  simp only [isPlain, Bool.and_eq_true, decide_eq_true_eq, bne_iff_ne, ne_eq] at h
  obtain ⟨⟨h1, h2⟩, h3⟩ := h
  conv_lhs => unfold unquoteFrom
  split
  · rename_i heq; cases heq
  · rename_i heq; cases heq; exact absurd rfl h2
  · rename_i heq; cases heq; exact absurd rfl h3
  · rename_i heq; cases heq; exact absurd rfl h3
  · rename_i c1 rest1 _ _ _ heq
    cases heq
    have : ¬ (c = 92 ∨ c < 32) := by omega
    simp only [this, if_false]

theorem unquoteFrom_quoteByte (c fuel : Nat) (acc rest : List Nat) :
    unquoteFrom (fuel + 1) acc (quoteByte c ++ rest) = unquoteFrom fuel (c :: acc) rest := by
  by_cases hp : isPlain c = true
  · rw [quoteByte_plain c hp]; exact unquoteFrom_plain c fuel acc rest hp
  · simp only [isPlain, Bool.and_eq_true, decide_eq_true_eq, bne_iff_ne, ne_eq] at hp
    have hc : c < 32 ∨ c = 34 ∨ c = 92 := by omega
    rcases hc with hc | hc | hc
    · interval_cases c <;>
        simp [quoteByte, hexDigit, unquoteFrom, getu4, isHex, hexVal, isSurrogate]
    · subst hc; simp [quoteByte, unquoteFrom]
    · subst hc; simp [quoteByte, unquoteFrom]

theorem unquoteFrom_quoteBody :
    ∀ (s : List Nat) (fuel : Nat) (acc rest : List Nat), s.length < fuel →
      unquoteFrom fuel acc (quoteBody s ++ 34 :: rest) = some (acc.reverse ++ s, rest) := by
  intro s
  induction s with
  | nil =>
    intro fuel acc rest hf
    obtain ⟨k, rfl⟩ : ∃ k, fuel = k + 1 := ⟨fuel - 1, by simp at hf; omega⟩
    simp [quoteBody, unquoteFrom]
  | cons c cs ih =>
    intro fuel acc rest hf
    obtain ⟨k, rfl⟩ : ∃ k, fuel = k + 1 := ⟨fuel - 1, by simp at hf; omega⟩
    simp only [quoteBody, List.append_assoc]
    rw [unquoteFrom_quoteByte, ih k (c :: acc) rest (by simp at hf; omega)]
    simp

theorem quoteByte_length (c : Nat) : 1 ≤ (quoteByte c).length := by
  simp only [quoteByte]
  repeat (first | (simp only [List.length_cons, List.length_nil]; omega) | split)

theorem quoteBody_length (s : List Nat) : s.length ≤ (quoteBody s).length := by
  induction s with
  | nil => simp [quoteBody]
  | cons c cs ih =>
    have := quoteByte_length c
    simp only [quoteBody, List.length_cons, List.length_append]
    omega

theorem parseValue_jsonQuote (s : List Nat) (k : Nat) :
    parseValue (k + 1) (jsonQuote s) = some (JVal.str s, []) := by
  have hl := quoteBody_length s
  have h := unquoteFrom_quoteBody s ((quoteBody s ++ [34]).length + 1) [] []
    (by simp; omega)
  simp only [jsonQuote, parseValue, skipSpace]
  have hsp : List.dropWhile isSpace (34 :: (quoteBody s ++ [34])) = 34 :: (quoteBody s ++ [34]) := by
    simp [List.dropWhile, isSpace]
  rw [hsp]
  simp only [h]
  simp

theorem checkValidLoop_append (l rest : List Nat) :
    ∀ (s : Scanner), checkValidLoop s (l ++ rest)
      = (checkValidLoop s l).bind fun s1 => checkValidLoop s1 rest := by
  induction l with
  | nil => intro s; rfl
  | cons c cs ih =>
    intro s
    simp only [List.cons_append, checkValidLoop]
    split
    · rfl
    · exact ih _

theorem checkValidLoop_quoteByte (c : Nat) :
    checkValidLoop inString (quoteByte c) = some inString := by
  by_cases hp : isPlain c = true
  · rw [quoteByte_plain c hp]
    simp only [isPlain, Bool.and_eq_true, decide_eq_true_eq, bne_iff_ne, ne_eq] at hp
    have h3 : ¬ c < 32 := by omega
    simp [checkValidLoop, Scanner.stepByte, inString, stateInString, hp.1.2, hp.2, h3]
  · simp only [isPlain, Bool.and_eq_true, decide_eq_true_eq, bne_iff_ne, ne_eq] at hp
    have hc : c < 32 ∨ c = 34 ∨ c = 92 := by omega
    rcases hc with hc | hc | hc
    · interval_cases c <;> rfl
    · subst hc; rfl
    · subst hc; rfl

theorem checkValidLoop_quoteBody (s : List Nat) :
    checkValidLoop inString (quoteBody s) = some inString := by
  induction s with
  | nil => rfl
  | cons c cs ih =>
    rw [quoteBody, checkValidLoop_append, checkValidLoop_quoteByte]
    exact ih

theorem checkValid_jsonQuote (s : List Nat) : checkValid (jsonQuote s) = true := by
  have hfirst : Scanner.reset.stepByte 34 = (inString, ScanCode.scanBeginLiteral) := rfl
  have hbody : checkValidLoop inString (quoteBody s ++ [34])
      = checkValidLoop inString [34] := by
    rw [checkValidLoop_append, checkValidLoop_quoteBody]; rfl
  simp only [checkValid, jsonQuote, checkValidLoop, hfirst, reduceCtorEq, if_false]
  have h2 := hbody
  simp only [checkValidLoop] at h2
  rw [h2]
  rfl

theorem unmarshalString_jsonQuote (s : List Nat) :
    unmarshalString (jsonQuote s) = Except.ok s := by
  simp only [unmarshalString, checkValid_jsonQuote, if_true, parseValue_jsonQuote]

theorem dropWhile_all (p : Nat → Bool) (ws rest : List Nat) (h : ∀ x ∈ ws, p x = true) :
    (ws ++ rest).dropWhile p = rest.dropWhile p := by
  induction ws with
  | nil => rfl
  | cons c cs ih =>
    have hc := h c (List.mem_cons_self _ _)
    simp only [List.cons_append, List.dropWhile, hc]
    exact ih (fun x hx => h x (List.mem_cons_of_mem _ hx))

theorem dropWhile_none (p : Nat → Bool) (l : List Nat) (h : ∀ x ∈ l, p x = false) :
    l.dropWhile p = l := by
  cases l with
  | nil => rfl
  | cons c cs =>
    have hc := h c (List.mem_cons_self _ _)
    simp only [List.dropWhile, hc]

theorem trimSpace_core (ws1 core ws2 : List Nat) (h1 : ∀ x ∈ ws1, isUnicodeSpace x = true)
    (h2 : ∀ x ∈ ws2, isUnicodeSpace x = true) (hc : ∀ x ∈ core, isUnicodeSpace x = false) :
    trimSpace (ws1 ++ core ++ ws2) = core := by
  unfold trimSpace
  rw [List.append_assoc, dropWhile_all _ ws1 _ h1]
  by_cases hn : core = []
  · subst hn
    simp only [List.nil_append]
    have h3 : ws2.dropWhile isUnicodeSpace = [] := by
      have := dropWhile_all isUnicodeSpace ws2 [] h2
      simpa using this
    rw [h3]; rfl
  · obtain ⟨c, cs, rfl⟩ := List.exists_cons_of_ne_nil hn
    have hcc := hc c (List.mem_cons_self _ _)
    have h4 : ((c :: cs) ++ ws2).dropWhile isUnicodeSpace = (c :: cs) ++ ws2 := by
      simp only [List.cons_append, List.dropWhile, hcc]
      rfl
    rw [h4, List.reverse_append,
      dropWhile_all _ ws2.reverse _ (fun x hx => h2 x (List.mem_reverse.mp hx)),
      dropWhile_none _ _ (fun x hx => hc x (List.mem_reverse.mp hx)), List.reverse_reverse]

theorem digit_not_space (x : Nat) (h : isDigit x = true) : isUnicodeSpace x = false := by
  simp only [isDigit, Bool.and_eq_true, decide_eq_true_eq] at h
  simp only [isUnicodeSpace, Bool.or_eq_false_iff, Bool.and_eq_false_iff, decide_eq_false_iff_not,
    beq_eq_false_iff_ne, ne_eq]
  omega

theorem decimal_digits (n : Nat) : ∀ x ∈ decimal n, isDigit x = true := by
  obtain ⟨d, ds, h1, h2, _, h4, _⟩ := decimal_shape n
  rw [h1]
  intro x hx
  rcases List.mem_cons.mp hx with hx1 | hx1
  · subst hx1; simp only [isDigit, Bool.and_eq_true, decide_eq_true_eq]; omega
  · exact h4 x hx1

/-- C4: for every unsigned 64-bit `n`, `NumericID.UnmarshalJSON` applied to the
JSON string holding the decimal digits of `n`, with any white space that
`strings.TrimSpace` trims before and after the digits, succeeds with the
identifier `n`, the same result as on the JSON number `n`. -/
theorem numericID_string_eq_number (n : Nat) (hn : n < 2 ^ 64) (ws1 ws2 : List Nat)
    (h1 : ∀ x ∈ ws1, isUnicodeSpace x = true) (h2 : ∀ x ∈ ws2, isUnicodeSpace x = true) :
    NumericID.UnmarshalJSON (jsonQuote (ws1 ++ decimal n ++ ws2)) = Except.ok n
    ∧ NumericID.UnmarshalJSON (decimal n) = Except.ok n
    ∧ NumericID.UnmarshalJSON (jsonQuote (ws1 ++ decimal n ++ ws2))
        = NumericID.UnmarshalJSON (decimal n) := by
  have hnum := NumericID_number n hn
  have hstr : NumericID.UnmarshalJSON (jsonQuote (ws1 ++ decimal n ++ ws2)) = Except.ok n := by
    have htrim := trimSpace_core ws1 (decimal n) ws2 h1 h2
      (fun x hx => digit_not_space x (decimal_digits n x hx))
    obtain ⟨d, ds, hd, _⟩ := decimal_shape n
    have hne : ¬ decimal n = [] := by rw [hd]; simp
    simp only [NumericID.UnmarshalJSON, unmarshalString_jsonQuote, htrim, hne, if_false,
      parseUint_decimal n hn]
    simp [jsonQuote]
  exact ⟨hstr, hnum, by rw [hstr, hnum]⟩

theorem numericID_string_eq_number_witness :
    jsonQuote ([32] ++ decimal 42 ++ [9]) = bytes "\" 42\\t\""
    ∧ decimal 42 = bytes "42"
    ∧ unmarshalImportUser (objText "\"id\":\"42\"") = unmarshalImportUser (objText "\"id\":42")
    ∧ NumericID.UnmarshalJSON (jsonQuote ([32] ++ decimal 42 ++ [9])) = Except.ok 42
    ∧ NumericID.UnmarshalJSON (decimal 42) = Except.ok 42 :=
  have h := numericID_string_eq_number 42 (by decide) [32] [9] (by decide) (by decide)
  ⟨by decide, by decide, by decide, h.1, h.2.1⟩

/-! ### `streamUsers` on the two framings -/

theorem concatFraming_length (rs : List (List Nat)) (h : ∀ r ∈ rs, isObjectText r = true) :
    rs.length ≤ (concatFraming rs).length := by
  induction rs with
  | nil => simp
  | cons r rs ih =>
    obtain ⟨r1, hr⟩ := isObjectText_cons r (h r (List.mem_cons_self _ _))
    have := ih (fun x hx => h x (List.mem_cons_of_mem _ hx))
    simp only [concatFraming, List.length_cons, List.length_append, hr]
    omega

theorem arrayBody_length (rs : List (List Nat)) (h : ∀ r ∈ rs, isObjectText r = true) :
    ∀ first, rs.length + 1 ≤ (arrayBody first rs).length := by
  induction rs with
  | nil => intro first; simp [arrayBody]
  | cons r rs ih =>
    intro first
    obtain ⟨r1, hr⟩ := isObjectText_cons r (h r (List.mem_cons_self _ _))
    have := ih (fun x hx => h x (List.mem_cons_of_mem _ hx)) false
    cases first <;> simp only [arrayBody, List.length_cons, List.length_append, hr] <;>
      simp <;> omega

theorem streamUsers_array (ctx : Nat → Option Err) (rs : List (List Nat))
    (h : ∀ r ∈ rs, isObjectText r = true) :
    streamUsers ctx (arrayFraming rs)
      = recordsRun ctx rs [] 0 (fun sent total =>
          some { sent := sent.reverse, total := total, err := none }) := by
  have hl := arrayBody_length rs h true
  have hf : (arrayFraming rs).length + 1
      = rs.length + 1 + ((arrayFraming rs).length - rs.length) := by
    simp only [arrayFraming, List.length_cons]; omega
  rw [streamUsers, streamBegin_array rs h, hf]
  exact streamLoop_array ctx _ rs h true [] 0

theorem streamUsers_concat (ctx : Nat → Option Err) (r : List Nat) (rs : List (List Nat))
    (tail : List Nat) (h : ∀ x ∈ r :: rs, isObjectText x = true) :
    ∃ fuel, tail.length + 1 ≤ fuel ∧
      streamUsers ctx (concatFraming (r :: rs) ++ tail)
        = recordsRun ctx (r :: rs) [] 0 (fun sent total =>
            streamLoop ctx fuel (Stream.running (NewDecoder tail) false total) sent) := by
  have hl := concatFraming_length (r :: rs) h
  obtain ⟨r1, hr⟩ := isObjectText_cons r (h r (List.mem_cons_self _ _))
  refine ⟨(concatFraming (r :: rs) ++ tail).length + 1 - (r :: rs).length, ?_, ?_⟩
  · simp only [List.length_append]; omega
  · have hf : (concatFraming (r :: rs) ++ tail).length + 1
        = (r :: rs).length
          + ((concatFraming (r :: rs) ++ tail).length + 1 - (r :: rs).length) := by
      simp only [List.length_append]; omega
    have hb : streamBegin (concatFraming (r :: rs) ++ tail)
        = Stream.running (NewDecoder (concatFraming (r :: rs) ++ tail)) false 0 := by
      have := streamBegin_object r1 (concatFraming rs ++ tail)
      simpa [concatFraming, hr] using this
    rw [streamUsers, hb]
    conv_lhs => rw [hf]
    exact streamLoop_concat ctx tail _ (r :: rs) h [] 0

theorem recordsRun_ok (ctx : Nat → Option Err) (rest : List (List Nat))
    (atEnd : List ImportUser → Int → Option StreamResult) :
    ∀ (pre : List (List Nat)) (us : List ImportUser),
      List.Forall₂ (fun r u => unmarshalImportUser r = Except.ok u) pre us →
      ∀ (sent : List ImportUser) (total : Int),
        (∀ i, i < pre.length → ctx (sent.length + i) = none) →
        recordsRun ctx (pre ++ rest) sent total atEnd
          = recordsRun ctx rest (us.reverse ++ sent) (total + pre.length) atEnd := by
  intro pre us hf
  induction hf with
  | nil => intro sent total _; simp
  | @cons r u pre1 us1 hu _ ih =>
    intro sent total hctx
    have h0 : ctx sent.length = none := by simpa using hctx 0 (by simp)
    simp only [List.cons_append, recordsRun, h0, ne_eq, not_true_eq_false, if_false, hu]
    have happ : pre1.append rest = pre1 ++ rest := rfl
    rw [happ, ih (u :: sent) (total + 1) (by
      intro i hi
      have := hctx (i + 1) (by simp; omega)
      simpa [Nat.add_assoc, Nat.add_comm 1 i] using this)]
    simp only [List.reverse_cons, List.append_assoc, List.singleton_append, List.length_cons,
      Nat.cast_add, Nat.cast_one]
    congr 1
    omega

theorem streamLoop_at_end (ctx : Nat → Option Err) (fuel : Nat) (hf : 1 ≤ fuel)
    (sent : List ImportUser) (total : Int) :
    streamLoop ctx fuel (Stream.running (NewDecoder []) false total) sent
      = some { sent := sent.reverse, total := total, err := ctx sent.length } := by
  obtain ⟨k, rfl⟩ : ∃ k, fuel = k + 1 := ⟨fuel - 1, by omega⟩
  have hd : (NewDecoder []).Decode = (Except.error Err.eof, { NewDecoder [] with err := some Err.eof }) := by
    rfl
  simp only [streamLoop, streamIter, Bool.false_eq_true, if_false, hd, Err.isEOF, if_true]
  by_cases hc : ctx sent.length = none
  · simp [hc, streamLoop]
  · simp [hc, streamLoop]

theorem peek_cases (tail : List Nat) :
    (peekFirstNonSpace tail = Except.error Err.eof ∧ ∀ x ∈ tail, isSpace x = true)
    ∨ ∃ ws first br, tail = ws ++ first :: br ∧ (∀ x ∈ ws, isSpace x = true)
        ∧ isSpace first = false ∧ peekFirstNonSpace tail = Except.ok (first, first :: br) := by
  induction tail with
  | nil => left; exact ⟨rfl, by simp⟩
  | cons b rest ih =>
    by_cases hb : b = 32 ∨ b = 10 ∨ b = 13 ∨ b = 9
    · have hsp : isSpace b = true := by
        simp only [isSpace, Bool.or_eq_true, beq_iff_eq]; omega
      rcases ih with ⟨h1, h2⟩ | ⟨ws, first, br, h1, h2, h3, h4⟩
      · left
        refine ⟨by simp only [peekFirstNonSpace, hb, if_true]; exact h1, ?_⟩
        intro x hx
        rcases List.mem_cons.mp hx with hx1 | hx1
        · rw [hx1]; exact hsp
        · exact h2 x hx1
      · right
        refine ⟨b :: ws, first, br, by rw [h1]; rfl, ?_, h3,
          by simp only [peekFirstNonSpace, hb, if_true]; exact h4⟩
        intro x hx
        rcases List.mem_cons.mp hx with hx1 | hx1
        · rw [hx1]; exact hsp
        · exact h2 x hx1
    · right
      have hsp : isSpace b = false := by
        simp only [isSpace, Bool.or_eq_false_iff, beq_eq_false_iff_ne, ne_eq]; omega
      exact ⟨[], b, rest, rfl, by simp, hsp, by simp only [peekFirstNonSpace, hb, if_false]⟩

theorem readValueLoop_space (all : List Nat) (br : List Nat) :
    ∀ (ws : List Nat) (n : Nat), (∀ x ∈ ws, isSpace x = true) →
      readValueLoop all Scanner.reset n (ws ++ br)
        = readValueLoop all Scanner.reset (n + ws.length) br := by
  intro ws
  induction ws with
  | nil => intro n _; rfl
  | cons c cs ih =>
    intro n h
    have hc := h c (List.mem_cons_self _ _)
    have hstep : Scanner.reset.stepByte c = (Scanner.reset, ScanCode.scanSkipSpace) := by
      simp [Scanner.stepByte, Scanner.reset, stateBeginValue, hc]
    simp only [List.cons_append, readValueLoop, hstep]
    have happ : cs.append br = cs ++ br := rfl
    rw [happ, ih (n + 1) (fun x hx => h x (List.mem_cons_of_mem _ hx))]
    simp only [List.length_cons]
    congr 1
    omega

theorem readValueLoop_err (all1 all2 : List Nat) (e : Err)
    (hall : nonSpace all1 = nonSpace all2) :
    ∀ (l : List Nat) (s : Scanner) (n1 n2 : Nat),
      readValueLoop all1 s n1 l = Except.error e →
      readValueLoop all2 s n2 l = Except.error e := by
  intro l
  induction l with
  | nil =>
    intro s n1 n2 h
    simp only [readValueLoop] at h ⊢
    split at h
    · cases h
    · rename_i h1
      simp only [h1, if_false, ← hall]
      exact h
  | cons c cs ih =>
    intro s n1 n2 h
    simp only [readValueLoop] at h ⊢
    split at h <;> rename_i hc
    · cases h
    · split at h <;> rename_i h2
      · cases h
      · simp only [h2, if_false]; exact ih _ _ _ h
    · split at h <;> rename_i h2
      · cases h
      · simp only [h2, if_false]; exact ih _ _ _ h
    · exact h
    · exact ih _ _ _ h

theorem Decode_malformed (input : List Nat) (e : Err) (h : readValue input = Except.error e) :
    ∃ dec1, (NewDecoder input).Decode = (Except.error e, dec1) := by
  simp [Decoder.Decode, Decoder.nextValue, NewDecoder, Decoder.tokenPrepareForDecode,
    Decoder.tokenValueAllowed, h]

theorem streamLoop_malformed (ctx : Nat → Option Err) (fuel : Nat) (hf : 1 ≤ fuel)
    (tail : List Nat) (e : Err) (h : readValue tail = Except.error e) (he : e.isEOF = false)
    (sent : List ImportUser) (total : Int) (hc : ctx sent.length = none) :
    streamLoop ctx fuel (Stream.running (NewDecoder tail) false total) sent
      = some { sent := sent.reverse, total := total, err := some e } := by
  obtain ⟨k, rfl⟩ : ∃ k, fuel = k + 1 := ⟨fuel - 1, by omega⟩
  obtain ⟨dec1, hd⟩ := Decode_malformed tail e h
  simp [streamLoop, streamIter, hd, he, hc]

theorem readValue_white (ws : List Nat) (h : ∀ x ∈ ws, isSpace x = true) :
    readValue ws = Except.error Err.eof := by
  have h1 := readValueLoop_space ws [] ws 0 h
  simp only [List.append_nil] at h1
  rw [readValue, h1]
  have h2 : nonSpace ws = false := by
    simp only [nonSpace, List.any_eq_false]
    intro x hx; simp [h x hx]
  simp [readValueLoop, h2, Scanner.stepByte, Scanner.reset, stateBeginValue, isSpace]

theorem nonSpace_append_white (ws br : List Nat) (h : ∀ x ∈ ws, isSpace x = true) :
    nonSpace (ws ++ br) = nonSpace br := by
  simp only [nonSpace, List.any_append]
  have : (ws.any fun c => !isSpace c) = false := by
    simp only [List.any_eq_false]
    intro x hx; simp [h x hx]
  rw [this]; rfl

theorem skipSpace_white (ws br : List Nat) (first : Nat) (h : ∀ x ∈ ws, isSpace x = true)
    (hf : isSpace first = false) : skipSpace (ws ++ first :: br) = first :: br := by
  unfold skipSpace
  rw [dropWhile_all isSpace ws _ h]
  simp [List.dropWhile, hf]

theorem streamUsers_malformed (tail : List Nat) (e : Err)
    (h : readValue tail = Except.error e) (he : e.isEOF = false)
    (hfirst : (skipSpace tail).head? ≠ some 91) :
    streamUsers background tail = some { sent := [], total := 0, err := some e } := by
  rcases peek_cases tail with ⟨_, h2⟩ | ⟨ws, first, br, h1, h2, h3, h4⟩
  · rw [readValue_white tail h2] at h
    cases h
    simp [Err.isEOF] at he
  · have hsk := skipSpace_white ws br first h2 h3
    rw [← h1] at hsk
    rw [hsk] at hfirst
    have hne : first ≠ 91 := by
      intro hx; apply hfirst; rw [hx]; rfl
    have hrv : readValue (first :: br) = Except.error e := by
      have h5 := readValueLoop_space tail (first :: br) ws 0 h2
      rw [← h1] at h5
      rw [readValue, h5] at h
      exact readValueLoop_err tail (first :: br) e
        (by rw [h1]; exact nonSpace_append_white ws _ h2) _ _ _ _ h
    have hb : streamBegin tail = Stream.running (NewDecoder (first :: br)) false 0 := by
      simp [streamBegin, h4, hne]
    rw [streamUsers, hb]
    exact streamLoop_malformed background _ (by omega) _ e hrv he [] 0 rfl

theorem forall₂_length (rs : List (List Nat)) (us : List ImportUser)
    (h : List.Forall₂ (fun r u => unmarshalImportUser r = Except.ok u) rs us) :
    us.length = rs.length := (List.Forall₂.length_eq h).symm

theorem streamUsers_then_malformed (rs : List (List Nat)) (us : List ImportUser)
    (tail : List Nat) (e : Err) (hobj : ∀ r ∈ rs, isObjectText r = true)
    (hdec : List.Forall₂ (fun r u => unmarshalImportUser r = Except.ok u) rs us)
    (h : readValue tail = Except.error e) (he : e.isEOF = false)
    (hfirst : rs = [] → (skipSpace tail).head? ≠ some 91) :
    streamUsers background (concatFraming rs ++ tail)
      = some { sent := us, total := rs.length, err := some e } := by
  cases rs with
  | nil =>
    cases hdec
    simpa [concatFraming] using streamUsers_malformed tail e h he (hfirst rfl)
  | cons r rs1 =>
    obtain ⟨fuel, hfuel, hs⟩ := streamUsers_concat background r rs1 tail hobj
    rw [hs]
    have h1 := recordsRun_ok background [] (fun sent total =>
      streamLoop background fuel (Stream.running (NewDecoder tail) false total) sent)
      (r :: rs1) us hdec [] 0 (fun _ _ => rfl)
    simp only [List.append_nil] at h1
    rw [h1]
    simp only [recordsRun]
    rw [streamLoop_malformed background fuel (by omega) tail e h he _ _ rfl]
    simp

/-! ### `streamUsers` always returns -/

theorem readValueLoop_bounds (all : List Nat) :
    ∀ (l : List Nat) (s : Scanner) (n m : Nat),
      readValueLoop all s n l = Except.ok m → n ≤ m ∧ m ≤ n + l.length := by
  intro l
  induction l with
  | nil =>
    intro s n m h
    simp only [readValueLoop] at h
    split at h
    · cases h; simp
    · split at h <;> cases h
  | cons c cs ih =>
    intro s n m h
    simp only [readValueLoop] at h
    simp only [List.length_cons]
    split at h
    · cases h; omega
    · split at h
      · cases h; omega
      · have := ih _ _ _ h; omega
    · split at h
      · cases h; omega
      · have := ih _ _ _ h; omega
    · cases h
    · have := ih _ _ _ h; omega

theorem stateBeginValue_not_end (s : Scanner) (c : Nat) :
    (stateBeginValue s c).2 ≠ ScanCode.scanEnd := by
  simp only [stateBeginValue, Scanner.pushParseState, Scanner.goto, Scanner.error]
  repeat (first | exact (fun hx => ScanCode.noConfusion hx) | split)

theorem readValue_pos (input : List Nat) (m : Nat) (h : readValue input = Except.ok m) :
    1 ≤ m ∧ m ≤ input.length := by
  cases input with
  | nil =>
    simp [readValue, readValueLoop, Scanner.stepByte, Scanner.reset, stateBeginValue, isSpace,
      nonSpace] at h
  | cons c cs =>
    have hne := stateBeginValue_not_end Scanner.reset c
    have hstep : Scanner.reset.stepByte c = stateBeginValue Scanner.reset c := rfl
    simp only [readValue, readValueLoop, hstep] at h
    simp only [List.length_cons]
    split at h
    · rename_i hc; exact absurd hc hne
    · split at h
      · cases h; omega
      · have := readValueLoop_bounds _ _ _ _ _ h; omega
    · split at h
      · cases h; omega
      · have := readValueLoop_bounds _ _ _ _ _ h; omega
    · cases h
    · have := readValueLoop_bounds _ _ _ _ _ h; omega

theorem skipSpace_length (s : List Nat) : (skipSpace s).length ≤ s.length := by
  unfold skipSpace
  exact (List.dropWhile_sublist _).length_le

theorem peek_length (dec : Decoder) (c : Nat) (dec1 : Decoder)
    (h : dec.peek = Except.ok (c, dec1)) :
    dec1.input.length ≤ dec.input.length ∧ 1 ≤ dec1.input.length := by
  unfold Decoder.peek at h
  have hl := skipSpace_length dec.input
  split at h
  · cases h
  · rename_i c1 rest hs
    cases h
    rw [hs] at hl
    simp only [List.length_cons] at hl ⊢
    omega

theorem tokenValueEnd_input (dec : Decoder) : dec.tokenValueEnd.input = dec.input := by
  unfold Decoder.tokenValueEnd
  split <;> rfl

theorem tokenPrepare_length (dec dec1 : Decoder)
    (h : dec.tokenPrepareForDecode = Except.ok dec1) :
    dec1.input.length ≤ dec.input.length := by
  unfold Decoder.tokenPrepareForDecode at h
  split at h
  · split at h
    · cases h
    · rename_i c d hp
      have := peek_length dec c d hp
      split at h
      · cases h
      · cases h; simp only [List.length_tail]; omega
  · split at h
    · cases h
    · rename_i c d hp
      have := peek_length dec c d hp
      split at h
      · cases h
      · cases h; simp only [List.length_tail]; omega
  · cases h; exact Nat.le_refl _

theorem nextValue_length (dec dec1 : Decoder) (data : List Nat)
    (h : dec.nextValue = (Except.ok data, dec1)) :
    dec1.input.length < dec.input.length := by
  unfold Decoder.nextValue at h
  split at h
  · cases h
  · split at h
    · cases h
    · rename_i d1 hp
      have h1 := tokenPrepare_length dec d1 hp
      split at h
      · cases h
      · split at h
        · cases h
        · rename_i n hn
          have h2 := readValue_pos _ _ hn
          simp only [Prod.mk.injEq] at h
          obtain ⟨_, h3⟩ := h
          rw [← h3, tokenValueEnd_input]
          simp only [List.length_drop]
          omega

theorem Decode_length (dec dec1 : Decoder) (u : ImportUser)
    (h : dec.Decode = (Except.ok u, dec1)) : dec1.input.length < dec.input.length := by
  unfold Decoder.Decode at h
  split at h
  · cases h
  · rename_i data d1 hn
    have := nextValue_length dec d1 data hn
    simp only [Prod.mk.injEq] at h
    rw [← h.2]; exact this

theorem More_length (dec : Decoder) : dec.More.2.input.length ≤ dec.input.length := by
  unfold Decoder.More
  split
  · exact Nat.le_refl _
  · rename_i c d hp
    exact (peek_length dec c d hp).1

theorem streamIter_length (ce : Option Err) (dec : Decoder) (array : Bool) (total : Int)
    (u : ImportUser) (st : Stream) (h : streamIter ce dec array total = (some u, st)) :
    st.inputLen < dec.input.length := by
  have hm := More_length dec
  cases array <;> simp only [streamIter, Bool.false_eq_true, if_false, if_true] at h
  · split at h
    · cases h
    · split at h
      · split at h <;> cases h
      · rename_i u1 d1 hd
        have := Decode_length dec d1 u1 hd
        cases h; exact this
  · split at h
    · split at h
      · cases h
      · split at h
        · cases h
        · rename_i u1 d1 hd
          have := Decode_length _ d1 u1 hd
          cases h
          simp only [Stream.inputLen]; omega
    · split at h <;> cases h

theorem streamLoop_total (ctx : Nat → Option Err) :
    ∀ (fuel : Nat) (st : Stream) (sent : List ImportUser), st.inputLen < fuel →
      ∃ r, streamLoop ctx fuel st sent = some r := by
  intro fuel
  induction fuel with
  | zero => intro st sent h; omega
  | succ k ih =>
    intro st sent h
    cases st with
    | returned total err => exact ⟨_, rfl⟩
    | running dec array total =>
      simp only [Stream.inputLen] at h
      simp only [streamLoop]
      split
      · rename_i u st1 hi
        have := streamIter_length _ _ _ _ _ _ hi
        exact ih st1 _ (by omega)
      · rename_i st1 hi
        obtain ⟨e, he⟩ := streamIter_stop _ _ _ _ _ hi
        rw [he]
        cases k <;> exact ⟨_, rfl⟩

theorem streamBegin_inputLen (reader : List Nat) :
    (streamBegin reader).inputLen ≤ reader.length := by
  rcases peek_cases reader with ⟨h1, _⟩ | ⟨ws, first, br, h1, _, h3, h4⟩
  · simp [streamBegin, h1, Err.isEOF, Stream.inputLen]
  · have hlen : reader.length = ws.length + (br.length + 1) := by rw [h1]; simp
    by_cases hf : first = 91
    · subst hf
      simp only [streamBegin, h4, if_true]
      simp [NewDecoder, Decoder.Token, Decoder.TokenLoop, Decoder.peek,
        skipSpace, isSpace, Decoder.tokenValueAllowed, Stream.inputLen]
      omega
    · simp only [streamBegin, h4, hf, if_false]
      simp [NewDecoder, Stream.inputLen]
      omega

/-- For every context behaviour and every input, `streamUsers` returns. -/
theorem streamUsers_total (ctx : Nat → Option Err) (reader : List Nat) :
    ∃ r, streamUsers ctx reader = some r := by
  have := streamBegin_inputLen reader
  exact streamLoop_total ctx _ _ [] (by omega)

/-! ### The producer of a run follows `streamUsers` -/

theorem streamLoop_extends (ctx : Nat → Option Err) :
    ∀ (fuel : Nat) (st : Stream) (sent : List ImportUser) (r : StreamResult),
      streamLoop ctx fuel st sent = some r → sent.reverse <+: r.sent := by
  intro fuel
  induction fuel with
  | zero =>
    intro st sent r h
    cases st with
    | returned t e => simp only [streamLoop] at h; cases h; exact List.prefix_refl _
    | running d a t => simp [streamLoop] at h
  | succ k ih =>
    intro st sent r h
    cases st with
    | returned t e => simp only [streamLoop] at h; cases h; exact List.prefix_refl _
    | running d a t =>
      simp only [streamLoop] at h
      split at h
      · have := ih _ _ _ h
        simp only [List.reverse_cons] at this
        exact List.IsPrefix.trans (List.prefix_append _ _) this
      · exact ih _ _ _ h

theorem streamIter_cancelled (e : Err) (dec : Decoder) (array : Bool) (total : Int) :
    streamIter (some e) dec array total = (none, Stream.returned total (some e))
    ∨ streamIter (some e) dec array total = streamIter none dec array total := by
  cases array
  · left; simp [streamIter]
  · by_cases hm : dec.More.1 = true
    · left; simp [streamIter, hm]
    · right; simp [streamIter, hm]

theorem cur_ofStream (st : Stream) (sent : List ImportUser) :
    (Producer.ofStream st).cur sent = (st, sent) := by
  cases st <;> rfl

theorem Linked_start {ω : Type} (svc : Service) (world : ω) (reader : List Nat) :
    Linked reader (svc.start world reader) := by
  left
  refine ⟨reader.length + 1, ?_⟩
  simp only [Service.start, cur_ofStream]
  rfl

theorem Linked_prefix {ω : Type} (reader : List Nat) (p : Pool ω) (h : Linked reader p) :
    ∃ r, streamUsers background reader = some r ∧ p.sent.reverse <+: r.sent := by
  rcases h with ⟨fuel, hf⟩ | ⟨_, _, r, hr, hp⟩
  · obtain ⟨r, hr⟩ := streamUsers_total background reader
    rw [hr] at hf
    have := streamLoop_extends _ _ _ _ _ hf
    refine ⟨r, hr, ?_⟩
    cases hprod : p.prod with
    | running d a t => simpa [Producer.cur, hprod] using this
    | returned t e => simpa [Producer.cur, hprod] using this
    | sending u next =>
      simp only [Producer.cur, hprod, List.reverse_cons] at this
      exact List.IsPrefix.trans (List.prefix_append _ _) this
  · exact ⟨r, hr, hp⟩

theorem Linked_congr {ω : Type} (reader : List Nat) (p p1 : Pool ω) (h : Linked reader p)
    (h1 : p1.prod = p.prod) (h2 : p1.sent = p.sent) (h3 : p1.cancelled = p.cancelled) :
    Linked reader p1 := by
  unfold Linked OnTrack at *
  rw [h1, h2, h3]
  exact h

theorem step_worker {ω : Type} (svc : Service) (c : Collab ω) (p p1 : Pool ω) (e : Event)
    (he : e ≠ Event.cancel ∧ e ≠ Event.produce ∧ e ≠ Event.send)
    (hs : step svc c p e = some p1) :
    p1.prod = p.prod ∧ p1.sent = p.sent ∧ p1.cancelled = p.cancelled := by
  cases e with
  | cancel => exact absurd rfl he.1
  | produce => exact absurd rfl he.2.1
  | send => exact absurd rfl he.2.2
  | take i =>
    simp only [step] at hs
    repeat (first | (cases hs; exact ⟨rfl, rfl, rfl⟩) | cases hs | split at hs)
  | validate i =>
    simp only [step] at hs
    repeat (first | (cases hs; exact ⟨rfl, rfl, rfl⟩) | cases hs | split at hs)
  | upsert i =>
    simp only [step] at hs
    repeat (first | (cases hs; exact ⟨rfl, rfl, rfl⟩) | cases hs | split at hs)

theorem Linked_produce {ω : Type} (svc : Service) (c : Collab ω) (reader : List Nat)
    (p p1 : Pool ω) (h : Linked reader p) (hs : step svc c p Event.produce = some p1) :
    Linked reader p1 := by
  simp only [step] at hs
  split at hs
  · rename_i dec array total hp
    obtain ⟨r, hr, hpre⟩ := Linked_prefix reader p h
    rcases h with ⟨fuel, hf⟩ | ⟨_, hret, _⟩
    · rw [hr] at hf
      simp only [hp, Producer.cur] at hf
      cases fuel with
      | zero => simp [streamLoop] at hf
      | succ k =>
        simp only [streamLoop, background] at hf
        have hcases : streamIter (ctxErr p.cancelled) dec array total
              = (none, Stream.returned total (some Err.canceled)) ∧ p.cancelled = true
            ∨ streamIter (ctxErr p.cancelled) dec array total = streamIter none dec array total := by
          cases hc : p.cancelled with
          | false => right; rfl
          | true =>
            rcases streamIter_cancelled Err.canceled dec array total with h1 | h1
            · left; exact ⟨h1, rfl⟩
            · right; exact h1
        rcases hcases with ⟨h1, hc⟩ | h1
        · rw [h1] at hs
          cases hs
          right
          exact ⟨hc, rfl, r, hr, hpre⟩
        · rw [h1] at hs
          split at hs
          · rename_i u next hi
            cases hs
            left
            refine ⟨k, ?_⟩
            rw [hi] at hf
            simp only [Producer.cur, hr]
            exact hf
          · rename_i next hi
            cases hs
            left
            refine ⟨k, ?_⟩
            rw [hi] at hf
            simp only [cur_ofStream, hr]
            exact hf
    · rw [hp] at hret; cases hret
  · cases hs

theorem Linked_send {ω : Type} (svc : Service) (c : Collab ω) (reader : List Nat)
    (p p1 : Pool ω) (h : Linked reader p) (hs : step svc c p Event.send = some p1) :
    Linked reader p1 := by
  simp only [step] at hs
  split at hs
  · rename_i u next hp
    split at hs
    · cases hs
      rcases h with ⟨fuel, hf⟩ | ⟨_, hret, _⟩
      · left
        refine ⟨fuel, ?_⟩
        simp only [hp, Producer.cur] at hf
        simp only [cur_ofStream]
        exact hf
      · rw [hp] at hret; cases hret
    · cases hs
  · cases hs

theorem Linked_step {ω : Type} (svc : Service) (c : Collab ω) (reader : List Nat)
    (p p1 : Pool ω) (e : Event) (h : Linked reader p) (hs : step svc c p e = some p1) :
    Linked reader p1 := by
  cases e with
  | cancel =>
    simp only [step] at hs
    cases hs
    rcases h with h | ⟨_, h2, h3⟩
    · left; exact h
    · right; exact ⟨rfl, h2, h3⟩
  | produce => exact Linked_produce svc c reader p p1 h hs
  | send => exact Linked_send svc c reader p p1 h hs
  | take i =>
    obtain ⟨h1, h2, h3⟩ := step_worker svc c p p1 _ (by simp) hs
    exact Linked_congr reader p p1 h h1 h2 h3
  | validate i =>
    obtain ⟨h1, h2, h3⟩ := step_worker svc c p p1 _ (by simp) hs
    exact Linked_congr reader p p1 h h1 h2 h3
  | upsert i =>
    obtain ⟨h1, h2, h3⟩ := step_worker svc c p p1 _ (by simp) hs
    exact Linked_congr reader p p1 h h1 h2 h3

theorem Linked_run {ω : Type} (svc : Service) (c : Collab ω) (reader : List Nat) :
    ∀ (es : List Event) (p p1 : Pool ω), Linked reader p →
      runEvents svc c es p = some p1 → Linked reader p1 := by
  intro es
  induction es with
  | nil => intro p p1 h hs; simp only [runEvents] at hs; cases hs; exact h
  | cons e es ih =>
    intro p p1 h hs
    simp only [runEvents] at hs
    split at hs
    · rename_i p2 h2
      exact ih p2 p1 (Linked_step svc c reader p p2 e h h2) hs
    · cases hs

theorem mem_of_get {α : Type} (l : List α) (i : Nat) (a : α) (h : l[i]? = some a) : a ∈ l := by
  obtain ⟨hi, heq⟩ := List.getElem?_eq_some_iff.mp h
  rw [← heq]
  exact List.getElem_mem hi

theorem held_set {ω : Type} (p : Pool ω) (h : FromSent p) (i : Nat) (w1 : Worker)
    (hw : ∀ u, w1.record = some u → u ∈ p.sent) :
    ∀ w ∈ p.workers.set i w1, ∀ u, w.record = some u → u ∈ p.sent := by
  intro w hm u hu
  rcases List.mem_or_eq_of_mem_set hm with h1 | h1
  · exact h.held_sent w h1 u hu
  · subst h1; exact hw u hu

theorem FromSent_step {ω : Type} (svc : Service) (c : Collab ω) (p p1 : Pool ω) (e : Event)
    (h : FromSent p) (hs : step svc c p e = some p1) : FromSent p1 := by
  cases e with
  | cancel => simp only [step] at hs; cases hs; exact ⟨h.jobs_sent, h.held_sent, h.calls_sent⟩
  | produce =>
    simp only [step] at hs
    repeat (first
      | (cases hs; exact ⟨h.jobs_sent, h.held_sent, h.calls_sent⟩) | cases hs | split at hs)
  | send =>
    simp only [step] at hs
    split at hs
    · split at hs
      · cases hs
        refine ⟨?_, ?_, ?_⟩
        · intro u hu
          rcases List.mem_append.mp hu with h1 | h1
          · exact List.mem_cons_of_mem _ (h.jobs_sent u h1)
          · simp only [List.mem_singleton] at h1; rw [h1]; exact List.mem_cons_self _ _
        · intro w hw u hu; exact List.mem_cons_of_mem _ (h.held_sent w hw u hu)
        · intro cl hcl; exact List.mem_cons_of_mem _ (h.calls_sent cl hcl)
      · cases hs
    · cases hs
  | take i =>
    simp only [step] at hs
    split at hs
    · split at hs
      · rename_i raw rest hj
        cases hs
        have hraw : raw ∈ p.sent := h.jobs_sent raw (by rw [hj]; exact List.mem_cons_self _ _)
        refine ⟨?_, ?_, h.calls_sent⟩
        · intro u hu; exact h.jobs_sent u (by rw [hj]; exact List.mem_cons_of_mem _ hu)
        · exact held_set p h i _ (by intro u hu; cases hu; exact hraw)
      · split at hs
        · cases hs
          exact ⟨h.jobs_sent, held_set p h i _ (by intro u hu; cases hu), h.calls_sent⟩
        · cases hs
    · cases hs
  | validate i =>
    simp only [step] at hs
    split at hs
    · rename_i raw hw
      have hraw : raw ∈ p.sent := h.held_sent _ (mem_of_get _ _ _ hw) raw rfl
      have hcalls : ∀ cl : Call, cl.record = raw → ∀ x ∈ cl :: p.calls, x.record ∈ p.sent := by
        intro cl hcl x hx
        rcases List.mem_cons.mp hx with h1 | h1
        · rw [h1, hcl]; exact hraw
        · exact h.calls_sent x h1
      split at hs
      · cases hs
        exact ⟨h.jobs_sent, held_set p h i _ (by intro u hu; cases hu), hcalls _ rfl⟩
      · split at hs
        · cases hs
          exact ⟨h.jobs_sent, held_set p h i _ (by intro u hu; cases hu), hcalls _ rfl⟩
        · cases hs
          exact ⟨h.jobs_sent, held_set p h i _ (by intro u hu; cases hu; exact hraw),
            hcalls _ rfl⟩
    · cases hs
  | upsert i =>
    simp only [step] at hs
    split at hs
    · rename_i raw hw
      have hraw : raw ∈ p.sent := h.held_sent _ (mem_of_get _ _ _ hw) raw rfl
      have hcalls : ∀ cl : Call, cl.record = raw → ∀ x ∈ cl :: p.calls, x.record ∈ p.sent := by
        intro cl hcl x hx
        rcases List.mem_cons.mp hx with h1 | h1
        · rw [h1, hcl]; exact hraw
        · exact h.calls_sent x h1
      split at hs
      · cases hs
        exact ⟨h.jobs_sent, held_set p h i _ (by intro u hu; cases hu), hcalls _ rfl⟩
      · cases hs
        exact ⟨h.jobs_sent, held_set p h i _ (by intro u hu; cases hu), hcalls _ rfl⟩
    · cases hs

theorem FromSent_run {ω : Type} (svc : Service) (c : Collab ω) :
    ∀ (es : List Event) (p p1 : Pool ω), FromSent p →
      runEvents svc c es p = some p1 → FromSent p1 := by
  intro es
  induction es with
  | nil => intro p p1 h hs; simp only [runEvents] at hs; cases hs; exact h
  | cons e es ih =>
    intro p p1 h hs
    simp only [runEvents] at hs
    split at hs
    · rename_i p2 h2
      exact ih p2 p1 (FromSent_step svc c p p2 e h h2) hs
    · cases hs

theorem FromSent_start {ω : Type} (svc : Service) (world : ω) (reader : List Nat) :
    FromSent (svc.start world reader) := by
  refine ⟨by simp [Service.start], ?_, by simp [Service.start]⟩
  intro w hw u hu
  simp only [Service.start, List.mem_replicate] at hw
  rw [hw.2] at hu
  cases hu

/-! ### Runs of `Import` against the result of `streamUsers` -/

theorem run_sent_prefix {ω : Type} (svc : Service) (c : Collab ω) (world : ω)
    (reader : List Nat) (schedule : List Event) (p : Pool ω)
    (hrun : runEvents svc c schedule (svc.start world reader) = some p) :
    ∃ r, streamUsers background reader = some r ∧ p.sent.reverse <+: r.sent
      ∧ ∀ cl ∈ p.calls, cl.record ∈ r.sent := by
  have hl := Linked_run svc c reader schedule _ p (Linked_start svc world reader) hrun
  have hf := FromSent_run svc c schedule _ p (FromSent_start svc world reader) hrun
  obtain ⟨r, hr, hp⟩ := Linked_prefix reader p hl
  refine ⟨r, hr, hp, ?_⟩
  intro cl hcl
  have h1 := hf.calls_sent cl hcl
  exact hp.subset (List.mem_reverse.mpr h1)

theorem run_returned_uncancelled {ω : Type} (svc : Service) (c : Collab ω) (world : ω)
    (reader : List Nat) (schedule : List Event) (p : Pool ω) (total : Int)
    (readErr : Option Err)
    (hrun : runEvents svc c schedule (svc.start world reader) = some p)
    (hnc : Event.cancel ∉ schedule) (hp : p.prod = Producer.returned total readErr) :
    streamUsers background reader
      = some { sent := p.sent.reverse, total := total, err := readErr } := by
  have hl := Linked_run svc c reader schedule _ p (Linked_start svc world reader) hrun
  have hc : p.cancelled = false := by
    rw [run_no_cancel svc c schedule _ p hnc hrun]; rfl
  rcases hl with ⟨fuel, hf⟩ | ⟨h1, _⟩
  · rw [← hf]
    simp only [hp, Producer.cur]
    cases fuel <;> rfl
  · rw [hc] at h1; cases h1

theorem run_returned_total {ω : Type} (svc : Service) (c : Collab ω) (world : ω)
    (reader : List Nat) (schedule : List Event) (p : Pool ω) (total : Int)
    (readErr : Option Err)
    (hrun : runEvents svc c schedule (svc.start world reader) = some p)
    (hp : p.prod = Producer.returned total readErr) :
    total = (p.sent.length : Int) := by
  have hinv := PoolInv_run svc c schedule _ p (PoolInv_start svc world reader) hrun
  have := hinv.total_eq
  rw [hp] at this
  simp only [Producer.total, Producer.pending] at this
  omega

/-- C6: when `K` valid record objects in concatenated framing are followed by
malformed JSON, `streamUsers` sends exactly those `K` records and returns
`(K, err)` with the non-nil error of the scan; in every run of `Import` on
that stream only those records are sent, validated or persisted, and an
uncancelled run returns `Total = K` with that error. -/
theorem malformed_after_records (rs : List (List Nat)) (us : List ImportUser)
    (tail : List Nat) (e : Err) (hobj : ∀ r ∈ rs, isObjectText r = true)
    (hdec : List.Forall₂ (fun r u => unmarshalImportUser r = Except.ok u) rs us)
    (h : readValue tail = Except.error e) (he : e.isEOF = false)
    (hfirst : rs = [] → (skipSpace tail).head? ≠ some 91) :
    streamUsers background (concatFraming rs ++ tail)
      = some { sent := us, total := rs.length, err := some e }
    ∧ us.length = rs.length
    ∧ ∀ (ω : Type) (svc : Service) (c : Collab ω) (world : ω) (schedule : List Event)
        (p : Pool ω),
        runEvents svc c schedule (svc.start world (concatFraming rs ++ tail)) = some p →
        p.sent.reverse <+: us ∧ (∀ cl ∈ p.calls, cl.record ∈ us)
        ∧ ∀ summary err, p.result = some (summary, err) → Event.cancel ∉ schedule →
            summary.Total = rs.length ∧ err = some e := by
  have hs := streamUsers_then_malformed rs us tail e hobj hdec h he hfirst
  refine ⟨hs, forall₂_length rs us hdec, ?_⟩
  intro ω svc c world schedule p hrun
  obtain ⟨r, hr, hp, hc⟩ := run_sent_prefix svc c world _ schedule p hrun
  rw [hs] at hr
  cases hr
  refine ⟨hp, hc, ?_⟩
  intro summary err hres hnc
  obtain ⟨total, readErr, hprod, _, hsum, herr⟩ := result_some p summary err hres
  have h2 := run_returned_uncancelled svc c world _ schedule p total readErr hrun hnc hprod
  rw [hs] at h2
  simp only [Option.some.injEq, StreamResult.mk.injEq] at h2
  obtain ⟨_, h3, h4⟩ := h2
  rw [hsum, herr, ← h3, ← h4]
  simp

theorem malformed_after_records_witness :
    readValue brokenTail = Except.error Err.badJSON
    ∧ streamUsers background (concatFraming [recordOne] ++ brokenTail)
      = some { sent := [userOne], total := 1, err := some Err.badJSON } :=
  ⟨by decide,
    (malformed_after_records [recordOne] [userOne] brokenTail Err.badJSON (by decide)
      (List.Forall₂.cons (by decide) List.Forall₂.nil) (by decide) (by decide)
      (by decide)).1⟩

theorem recordsRun_cancelled (ctx : Nat → Option Err)
    (atEnd : List ImportUser → Int → Option StreamResult)
    (pre : List (List Nat)) (us : List ImportUser) (r : List Nat) (post : List (List Nat))
    (e : Err)
    (hdec : List.Forall₂ (fun r u => unmarshalImportUser r = Except.ok u) pre us)
    (h1 : ∀ i, i < pre.length → ctx i = none) (h2 : ctx pre.length = some e) :
    recordsRun ctx (pre ++ r :: post) [] 0 atEnd
      = some { sent := us, total := pre.length, err := some e } := by
  rw [recordsRun_ok ctx (r :: post) atEnd pre us hdec [] 0 (by simpa using h1)]
  have hl := forall₂_length pre us hdec
  simp only [recordsRun, List.append_nil, List.length_reverse, hl, h2]
  simp

/-! ### The identifier at decode time -/

theorem storeUserMembers_bad_id :
    ∀ (ms : List (List Nat × List Nat × JVal)) (u : ImportUser)
      (spare : List ImportAddress) (saved : Option Err),
      (∃ m ∈ ms, keyMatches "id" m.1 = true
        ∧ ∃ e, NumericID.UnmarshalJSON m.2.1 = Except.error e) →
      ∃ e, storeUserMembers u spare saved ms = Except.error e := by
  intro ms
  induction ms with
  | nil => intro u spare saved ⟨m, hm, _⟩; simp at hm
  | cons m0 rest ih =>
    intro u spare saved ⟨m, hm, hk, e, he⟩
    obtain ⟨key, raw, v⟩ := m0
    simp only [storeUserMembers]
    by_cases hk0 : keyMatches "id" key = true
    · simp only [hk0, if_true]
      cases hid : NumericID.UnmarshalJSON raw with
      | error e1 => exact ⟨e1, rfl⟩
      | ok n =>
        simp only
        rcases List.mem_cons.mp hm with h1 | h1
        · subst h1
          simp only at he
          rw [hid] at he; cases he
        · exact ih _ _ _ ⟨m, h1, hk, e, he⟩
    · have hin : m ∈ rest := by
        rcases List.mem_cons.mp hm with h1 | h1
        · subst h1; exact absurd hk hk0
        · exact h1
      simp only [hk0, Bool.false_eq_true, if_false]
      repeat (first | exact ih _ _ _ ⟨m, hin, hk, e, he⟩ | split)

theorem storeUserMembers_no_id :
    ∀ (ms : List (List Nat × List Nat × JVal)) (u : ImportUser)
      (spare : List ImportAddress) (saved : Option Err)
      (u1 : ImportUser) (s1 : Option Err),
      (∀ m ∈ ms, keyMatches "id" m.1 = false) →
      storeUserMembers u spare saved ms = Except.ok (u1, s1) → u1.ID = u.ID := by
  intro ms
  induction ms with
  | nil => intro u spare saved u1 s1 _ h; simp only [storeUserMembers] at h; cases h; rfl
  | cons m0 rest ih =>
    intro u spare saved u1 s1 hno h
    obtain ⟨key, raw, v⟩ := m0
    have hk0 : keyMatches "id" key = false := hno _ (List.mem_cons_self _ _)
    have hrest : ∀ m ∈ rest, keyMatches "id" m.1 = false :=
      fun m hm => hno m (List.mem_cons_of_mem _ hm)
    simp only [storeUserMembers, hk0, Bool.false_eq_true, if_false] at h
    repeat (first | (have h9 := ih _ _ _ _ _ hrest h; exact h9) | split at h)

theorem streamUsers_bad_record (r : List Nat) (e : Err) (hobj : isObjectText r = true)
    (h : unmarshalImportUser r = Except.error e) :
    streamUsers background r = some { sent := [], total := 0, err := some e } := by
  obtain ⟨fuel, _, hs⟩ := streamUsers_concat background r [] []
    (by intro x hx; simp only [List.mem_singleton] at hx; rw [hx]; exact hobj)
  simp only [concatFraming, List.append_nil] at hs
  rw [hs]
  simp [recordsRun, background, h]

/-- C8 as stated fails: a record without an `id` member, one whose `id` is
the number 0 and one whose `id` is `null` all decode without error, with
`ID = 0`, and `streamUsers` sends them. -/
theorem id_absent_or_zero_decodes :
    (¬ ∃ e, unmarshalImportUser (objText "\"name\":\"a\"") = Except.error e)
    ∧ unmarshalImportUser (objText "\"name\":\"a\"")
      = Except.ok { ImportUser.zero with Name := [97] }
    ∧ unmarshalImportUser (objText "\"id\":0,\"name\":\"a\"")
      = Except.ok { ImportUser.zero with Name := [97] }
    ∧ unmarshalImportUser (objText "\"id\":null,\"name\":\"a\"")
      = Except.ok { ImportUser.zero with Name := [97] }
    ∧ streamUsers background (objText "\"name\":\"a\"")
      = some { sent := [{ ImportUser.zero with Name := [97] }], total := 1, err := none } := by
  have h1 : unmarshalImportUser (objText "\"name\":\"a\"")
      = Except.ok { ImportUser.zero with Name := [97] } := by decide
  refine ⟨?_, h1, by decide, by decide, by decide⟩
  intro ⟨e, he⟩
  rw [h1] at he
  cases he

/-! ### Array framing against concatenated framing -/

theorem recordsRun_map {β : Type} (f : StreamResult → β) (ctx : Nat → Option Err)
    (end1 end2 : List ImportUser → Int → Option StreamResult)
    (h : ∀ s t, (end1 s t).map f = (end2 s t).map f) :
    ∀ (rs : List (List Nat)) (sent : List ImportUser) (total : Int),
      (recordsRun ctx rs sent total end1).map f = (recordsRun ctx rs sent total end2).map f := by
  intro rs
  induction rs with
  | nil => intro sent total; exact h sent total
  | cons r rs ih =>
    intro sent total
    simp only [recordsRun]
    split
    · rfl
    · split
      · rfl
      · exact ih _ _

theorem framings_stream (ctx : Nat → Option Err) (rs : List (List Nat))
    (h : ∀ r ∈ rs, isObjectText r = true) :
    (streamUsers ctx (arrayFraming rs)).map (fun r => (r.sent, r.total))
      = (streamUsers ctx (concatFraming rs)).map (fun r => (r.sent, r.total))
    ∧ (ctx = background →
        streamUsers ctx (arrayFraming rs) = streamUsers ctx (concatFraming rs)) := by
  cases rs with
  | nil =>
    have h1 := streamUsers_array ctx [] h
    simp only [recordsRun] at h1
    have h2 : streamUsers ctx (concatFraming []) = some { sent := [], total := 0, err := none } := rfl
    rw [h1, h2]
    exact ⟨rfl, fun _ => rfl⟩
  | cons r rs1 =>
    obtain ⟨fuel, hfuel, hs⟩ := streamUsers_concat ctx r rs1 [] h
    rw [List.append_nil] at hs
    rw [streamUsers_array ctx _ h, hs]
    have hend : (fun sent total =>
        streamLoop ctx fuel (Stream.running (NewDecoder []) false total) sent)
        = fun sent total => some { sent := sent.reverse, total := total, err := ctx sent.length } := by
      funext sent total
      exact streamLoop_at_end ctx fuel (by omega) sent total
    rw [hend]
    constructor
    · exact recordsRun_map (fun r => (r.sent, r.total)) ctx
        (fun sent total => some { sent := sent.reverse, total := total, err := none })
        (fun sent total => some { sent := sent.reverse, total := total, err := ctx sent.length })
        (fun s t => rfl) _ _ _
    · intro hb
      subst hb
      rfl

theorem step_take_swap {ω : Type} (svc : Service) (c : Collab ω) (pa : Pool ω) (q : Producer)
    (i : Nat) (hr : q.isReturned = pa.prod.isReturned) :
    step svc c { pa with prod := q } (Event.take i)
      = (step svc c pa (Event.take i)).map fun p1 => { p1 with prod := q } := by
  simp only [step]
  cases hw : pa.workers[i]? with
  | none => rfl
  | some w =>
    cases w with
    | idle =>
      simp only
      cases hj : pa.jobs with
      | cons raw rest => rfl
      | nil =>
        simp only
        cases hq : q <;> cases hp : pa.prod <;>
          simp only [hq, hp, Producer.isReturned] at hr <;> first | rfl | cases hr
    | got raw => rfl
    | validated raw => rfl
    | exited => rfl

theorem step_validate_swap {ω : Type} (svc : Service) (c : Collab ω) (pa : Pool ω)
    (q : Producer) (i : Nat) :
    step svc c { pa with prod := q } (Event.validate i)
      = (step svc c pa (Event.validate i)).map fun p1 => { p1 with prod := q } := by
  simp only [step]
  cases hw : pa.workers[i]? with
  | none => rfl
  | some w =>
    cases w with
    | got raw =>
      simp only
      cases hc : pa.cancelled with
      | true => rfl
      | false =>
        simp only [Bool.false_eq_true, if_false]
        cases hv : (c.ValidateImportUser pa.world raw).2 <;> rfl
    | idle => rfl
    | validated raw => rfl
    | exited => rfl

theorem step_upsert_swap {ω : Type} (svc : Service) (c : Collab ω) (pa : Pool ω)
    (q : Producer) (i : Nat) :
    step svc c { pa with prod := q } (Event.upsert i)
      = (step svc c pa (Event.upsert i)).map fun p1 => { p1 with prod := q } := by
  simp only [step]
  cases hw : pa.workers[i]? with
  | none => rfl
  | some w =>
    cases w with
    | validated raw =>
      simp only
      cases hv : (c.UpsertUser pa.world pa.cancelled raw.ToUser).2 <;> rfl
    | idle => rfl
    | got raw => rfl
    | exited => rfl

theorem SimProd_isReturned (a c : Producer) (h : SimProd a c) :
    c.isReturned = a.isReturned := by
  rcases h with ⟨_, _, _, _, ha, hc⟩ | ⟨_, _, _, _, ha, hc⟩ | ⟨_, _, _, ha, hc⟩ <;>
    rw [ha, hc] <;> rfl

theorem PoolSim_worker {ω : Type} (svc : Service) (c : Collab ω) (pa pc : Pool ω) (e : Event)
    (h : PoolSim pa pc) (he : e ≠ Event.cancel ∧ e ≠ Event.produce ∧ e ≠ Event.send)
    (hswap : step svc c { pa with prod := pc.prod } e
      = (step svc c pa e).map fun p1 => { p1 with prod := pc.prod }) :
    (step svc c pa e = none ∧ step svc c pc e = none)
    ∨ ∃ pa1 pc1, step svc c pa e = some pa1 ∧ step svc c pc e = some pc1 ∧ PoolSim pa1 pc1 := by
  obtain ⟨hsim, hpc⟩ := h
  cases hs : step svc c pa e with
  | none =>
    left
    refine ⟨rfl, ?_⟩
    rw [hpc, hswap, hs]; rfl
  | some pa1 =>
    right
    refine ⟨pa1, { pa1 with prod := pc.prod }, rfl, ?_, ?_, rfl⟩
    · rw [hpc, hswap, hs]; rfl
    · have := (step_worker svc c pa pa1 e he hs).1
      simp only [this]
      exact hsim

theorem streamIter_concat_end (ce : Option Err) (total : Int) :
    ∃ e, streamIter ce (NewDecoder []) false total = (none, Stream.returned total e) := by
  have hd : (NewDecoder []).Decode
      = (Except.error Err.eof, { NewDecoder [] with err := some Err.eof }) := rfl
  by_cases hc : ce = none
  · exact ⟨none, by simp [streamIter, hd, hc, Err.isEOF]⟩
  · exact ⟨ce, by simp [streamIter, hc]⟩

theorem PoolSim_produce {ω : Type} (svc : Service) (c : Collab ω) (pa pc : Pool ω)
    (h : PoolSim pa pc) :
    (step svc c pa Event.produce = none ∧ step svc c pc Event.produce = none)
    ∨ ∃ pa1 pc1, step svc c pa Event.produce = some pa1
        ∧ step svc c pc Event.produce = some pc1 ∧ PoolSim pa1 pc1 := by
  obtain ⟨hsim, hpc⟩ := h
  have hcan : pc.cancelled = pa.cancelled := by rw [hpc]
  rcases hsim with ⟨first, rest, t, hobj, ha, hc⟩ | ⟨u, rest, t, _, ha, hc⟩ | ⟨t, ea, ec, ha, hc⟩
  · right
    cases rest with
    | nil =>
      obtain ⟨e, he⟩ := streamIter_concat_end (ctxErr pa.cancelled) t
      refine ⟨{ pa with prod := Producer.returned t none },
        { pc with prod := Producer.returned t e }, ?_, ?_, ?_, ?_⟩
      · simp only [step, ha, arrayBody, streamIter_array_end, Producer.ofStream]
      · simp only [step, hc, concatFraming, hcan, he, Producer.ofStream]
      · exact Or.inr (Or.inr ⟨t, none, e, rfl, rfl⟩)
      · simp only; rw [hpc]
    | cons r rest1 =>
      have hr := hobj r (List.mem_cons_self _ _)
      have hrest : ∀ x ∈ rest1, isObjectText x = true :=
        fun x hx => hobj x (List.mem_cons_of_mem _ hx)
      have hA := streamIter_array (ctxErr pa.cancelled) first r (arrayBody false rest1) t hr
      have hC := streamIter_concat (ctxErr pa.cancelled) r (concatFraming rest1) t hr
      by_cases hce : ctxErr pa.cancelled = none
      · cases hu : unmarshalImportUser r with
        | error e =>
          simp only [hce, ne_eq, not_true_eq_false, if_false, hu] at hA hC
          refine ⟨{ pa with prod := Producer.returned t (some e) },
            { pc with prod := Producer.returned t (some e) }, ?_, ?_, ?_, ?_⟩
          · simp only [step, ha, arrayBody, hce, hA, Producer.ofStream]
          · simp only [step, hc, concatFraming, hcan, hce, hC, Producer.ofStream]
          · exact Or.inr (Or.inr ⟨t, _, _, rfl, rfl⟩)
          · simp only; rw [hpc]
        | ok u =>
          simp only [hce, ne_eq, not_true_eq_false, if_false, hu] at hA hC
          refine ⟨{ pa with
                    prod := Producer.sending u
                      (Stream.running (arrDec false (arrayBody false rest1)) true (t + 1)) },
            { pc with
                prod := Producer.sending u
                  (Stream.running (NewDecoder (concatFraming rest1)) false (t + 1)) },
            ?_, ?_, ?_, ?_⟩
          · simp only [step, ha, arrayBody, hce, hA]
          · simp only [step, hc, concatFraming, hcan, hce, hC]
          · exact Or.inr (Or.inl ⟨u, rest1, t + 1, hrest, rfl, rfl⟩)
          · simp only; rw [hpc]
      · simp only [hce, ne_eq, not_false_eq_true, if_true] at hA hC
        refine ⟨{ pa with prod := Producer.returned t (ctxErr pa.cancelled) },
          { pc with prod := Producer.returned t (ctxErr pa.cancelled) }, ?_, ?_, ?_, ?_⟩
        · simp only [step, ha, arrayBody, hA, Producer.ofStream]
        · simp only [step, hc, concatFraming, hcan, hC, Producer.ofStream]
        · exact Or.inr (Or.inr ⟨t, _, _, rfl, rfl⟩)
        · simp only; rw [hpc]
  · left; exact ⟨by simp only [step, ha], by simp only [step, hc]⟩
  · left; exact ⟨by simp only [step, ha], by simp only [step, hc]⟩

theorem PoolSim_send {ω : Type} (svc : Service) (c : Collab ω) (pa pc : Pool ω)
    (h : PoolSim pa pc) :
    (step svc c pa Event.send = none ∧ step svc c pc Event.send = none)
    ∨ ∃ pa1 pc1, step svc c pa Event.send = some pa1
        ∧ step svc c pc Event.send = some pc1 ∧ PoolSim pa1 pc1 := by
  obtain ⟨hsim, hpc⟩ := h
  have hjobs : pc.jobs = pa.jobs := by rw [hpc]
  have hsent : pc.sent = pa.sent := by rw [hpc]
  rcases hsim with ⟨first, rest, t, hobj, ha, hc⟩ | ⟨u, rest, t, hobj, ha, hc⟩ | ⟨t, ea, ec, ha, hc⟩
  · left; exact ⟨by simp only [step, ha], by simp only [step, hc]⟩
  · by_cases hlen : pa.jobs.length < svc.jobsCap
    · right
      refine ⟨{ pa with
                  jobs := pa.jobs ++ [u],
                  prod := Producer.running (arrDec false (arrayBody false rest)) true t,
                  sent := u :: pa.sent },
        { pc with
            jobs := pc.jobs ++ [u],
            prod := Producer.running (NewDecoder (concatFraming rest)) false t,
            sent := u :: pc.sent }, ?_, ?_, ?_, ?_⟩
      · simp only [step, ha, hlen, if_true, Producer.ofStream]
      · simp only [step, hc, hjobs, hlen, if_true, Producer.ofStream]
      · exact Or.inl ⟨false, rest, t, hobj, rfl, rfl⟩
      · simp only [hjobs, hsent]; rw [hpc]
    · left
      exact ⟨by simp only [step, ha, hlen, if_false],
        by simp only [step, hc, hjobs, hlen, if_false]⟩
  · left; exact ⟨by simp only [step, ha], by simp only [step, hc]⟩

theorem PoolSim_step {ω : Type} (svc : Service) (c : Collab ω) (pa pc : Pool ω) (e : Event)
    (h : PoolSim pa pc) :
    (step svc c pa e = none ∧ step svc c pc e = none)
    ∨ ∃ pa1 pc1, step svc c pa e = some pa1 ∧ step svc c pc e = some pc1 ∧ PoolSim pa1 pc1 := by
  cases e with
  | cancel =>
    right
    refine ⟨{ pa with cancelled := true }, { pc with cancelled := true }, rfl, rfl, h.1, ?_⟩
    simp only; rw [h.2]
  | produce => exact PoolSim_produce svc c pa pc h
  | send => exact PoolSim_send svc c pa pc h
  | take i =>
    exact PoolSim_worker svc c pa pc _ h (by simp)
      (step_take_swap svc c pa pc.prod i (SimProd_isReturned _ _ h.1))
  | validate i =>
    exact PoolSim_worker svc c pa pc _ h (by simp) (step_validate_swap svc c pa pc.prod i)
  | upsert i =>
    exact PoolSim_worker svc c pa pc _ h (by simp) (step_upsert_swap svc c pa pc.prod i)

theorem PoolSim_run {ω : Type} (svc : Service) (c : Collab ω) :
    ∀ (es : List Event) (pa pc : Pool ω), PoolSim pa pc →
      (runEvents svc c es pa = none ∧ runEvents svc c es pc = none)
      ∨ ∃ pa1 pc1, runEvents svc c es pa = some pa1 ∧ runEvents svc c es pc = some pc1
          ∧ PoolSim pa1 pc1 := by
  intro es
  induction es with
  | nil => intro pa pc h; right; exact ⟨pa, pc, rfl, rfl, h⟩
  | cons e es ih =>
    intro pa pc h
    rcases PoolSim_step svc c pa pc e h with ⟨h1, h2⟩ | ⟨pa1, pc1, h1, h2, h3⟩
    · left; simp only [runEvents, h1, h2, and_self]
    · simp only [runEvents, h1, h2]
      exact ih pa1 pc1 h3

theorem PoolSim_result {ω : Type} (pa pc : Pool ω) (h : PoolSim pa pc) :
    pa.result.map Prod.fst = pc.result.map Prod.fst := by
  obtain ⟨hsim, hpc⟩ := h
  have hw : pc.workers = pa.workers := by rw [hpc]
  have hs : pc.success = pa.success := by rw [hpc]
  rcases hsim with ⟨_, _, _, _, ha, hc⟩ | ⟨_, _, _, _, ha, hc⟩ | ⟨t, ea, ec, ha, hc⟩
  · simp only [Pool.result, ha, hc]
  · simp only [Pool.result, ha, hc]
  · simp only [Pool.result, ha, hc, hw, hs]
    by_cases hx : allExited pa.workers = true
    · simp only [hx, if_true]
      by_cases h1 : ea = none <;> by_cases h2 : ec = none <;> simp [h1, h2]
    · simp only [hx, Bool.false_eq_true, if_false, Option.map_none']

theorem import_after_return {ω : Type} (svc : Service) (c : Collab ω) (p : Pool ω)
    (total : Int) (hp : p.prod = Producer.returned total none) (hj : p.jobs = [])
    (hw : p.workers = List.replicate svc.maxWorkers.toNat Worker.idle) (he : p.errCh = []) :
    ∃ p1, runEvents svc c (exitFrom 0 svc.maxWorkers.toNat) p = some p1
      ∧ p1.result
        = some ({ Total := total, Successful := p.success, Failed := total - p.success },
            none) := by
  have hrun := run_exitFrom svc c total none svc.maxWorkers.toNat 0 p hp hj (by simpa using hw)
  refine ⟨_, hrun, ?_⟩
  simp only [Pool.result, hp, Nat.zero_add, allExited_replicate, if_true,
    he, combineLoop, ne_eq, not_true_eq_false, if_false]

theorem runEvents_append {ω : Type} (svc : Service) (c : Collab ω) :
    ∀ (es1 es2 : List Event) (p : Pool ω),
      runEvents svc c (es1 ++ es2) p = (runEvents svc c es1 p).bind (runEvents svc c es2) := by
  intro es1
  induction es1 with
  | nil => intro es2 p; rfl
  | cons e es ih =>
    intro es2 p
    simp only [List.cons_append, runEvents]
    cases step svc c p e with
    | none => rfl
    | some p1 => exact ih es2 p1

theorem Import_eq {ω : Type} (svc : Service) (c : Collab ω) (world : ω) (reader : List Nat)
    (schedule : List Event) :
    svc.Import c world reader schedule
      = (runEvents svc c schedule (svc.start world reader)).bind Pool.result := by
  unfold Service.Import
  cases runEvents svc c schedule (svc.start world reader) <;> rfl

theorem no_records_summary {ω : Type} (svc : Service) (c : Collab ω) (world : ω)
    (reader : List Nat) (schedule : List Event) (summary : ImportSummary) (err : Option Err)
    (r : StreamResult) (hr : streamUsers background reader = some r) (hsent : r.sent = [])
    (h : svc.Import c world reader schedule = some (summary, err)) :
    summary = { Total := 0, Successful := 0, Failed := 0 } := by
  rw [Import_eq] at h
  cases hrun : runEvents svc c schedule (svc.start world reader) with
  | none => rw [hrun] at h; cases h
  | some p =>
    rw [hrun] at h
    have h : p.result = some (summary, err) := h
    obtain ⟨r1, hr1, hpre, _⟩ := run_sent_prefix svc c world reader schedule p hrun
    rw [hr] at hr1
    cases hr1
    rw [hsent] at hpre
    have hs : p.sent = [] := by
      have := List.prefix_nil.mp hpre
      simpa using this
    have hinv := PoolInv_run svc c schedule _ p (PoolInv_start svc world reader) hrun
    obtain ⟨_, _, hsucc, _⟩ := nothing_sent svc p hinv hs
    obtain ⟨total, readErr, hp, _, hsum, _⟩ := result_some p summary err h
    have ht := run_returned_total svc c world reader schedule p total readErr hrun hp
    rw [hs] at ht
    simp only [List.length_nil, Nat.cast_zero] at ht
    rw [hsum, hsucc, ht]
    rfl

theorem PoolSim_start {ω : Type} (svc : Service) (world : ω) (r : List Nat)
    (rs : List (List Nat)) (h : ∀ x ∈ r :: rs, isObjectText x = true) :
    PoolSim (svc.start world (arrayFraming (r :: rs)) : Pool ω)
      (svc.start world (concatFraming (r :: rs))) := by
  obtain ⟨r1, hr⟩ := isObjectText_cons r (h r (List.mem_cons_self _ _))
  have hA := streamBegin_array (r :: rs) h
  have hC : streamBegin (concatFraming (r :: rs))
      = Stream.running (NewDecoder (concatFraming (r :: rs))) false 0 := by
    have := streamBegin_object r1 (concatFraming rs)
    simpa [concatFraming, hr] using this
  constructor
  · left
    exact ⟨true, r :: rs, 0, h, by simp only [Service.start, hA, Producer.ofStream],
      by simp only [Service.start, hC, Producer.ofStream]⟩
  · simp only [Service.start]

theorem same_schedule {ω : Type} (svc : Service) (c : Collab ω) (world : ω) (r : List Nat)
    (rs : List (List Nat)) (h : ∀ x ∈ r :: rs, isObjectText x = true)
    (schedule : List Event) :
    (svc.Import c world (arrayFraming (r :: rs)) schedule).map Prod.fst
      = (svc.Import c world (concatFraming (r :: rs)) schedule).map Prod.fst := by
  rcases PoolSim_run svc c schedule _ _ (PoolSim_start svc world r rs h) with
    ⟨h1, h2⟩ | ⟨pa1, pc1, h1, h2, h3⟩
  · simp only [Service.Import, h1, h2]
  · simp only [Service.Import, h1, h2]
    exact PoolSim_result pa1 pc1 h3

theorem returns_empty_array {ω : Type} (svc : Service) (c : Collab ω) (world : ω) :
    Returns svc c world (arrayFraming []) { Total := 0, Successful := 0, Failed := 0 } := by
  have hb : streamBegin (arrayFraming []) = Stream.running (arrDec true [93]) true 0 :=
    streamBegin_array [] (by simp)
  have hstep : step svc c (svc.start world (arrayFraming [])) Event.produce
      = some { (svc.start world (arrayFraming []) : Pool ω) with
                prod := Producer.returned 0 none } := by
    simp only [step, Service.start, hb, Producer.ofStream, streamIter_array_end]
  obtain ⟨p1, hrun, hres⟩ := import_after_return svc c
    { (svc.start world (arrayFraming []) : Pool ω) with prod := Producer.returned 0 none }
    0 rfl rfl rfl rfl
  refine ⟨Event.produce :: exitFrom 0 svc.maxWorkers.toNat, none, ?_⟩
  simp only [Service.Import, runEvents, hstep, hrun, hres]
  rfl

theorem returns_empty_concat {ω : Type} (svc : Service) (c : Collab ω) (world : ω) :
    Returns svc c world (concatFraming []) { Total := 0, Successful := 0, Failed := 0 } := by
  obtain ⟨p1, hrun, hres⟩ := import_after_return svc c
    (svc.start world (concatFraming []) : Pool ω) 0 rfl rfl rfl rfl
  refine ⟨exitFrom 0 svc.maxWorkers.toNat, none, ?_⟩
  simp only [Service.Import, hrun, hres]
  rfl

theorem returns_iff {ω : Type} (svc : Service) (c : Collab ω) (world : ω)
    (rs : List (List Nat)) (h : ∀ r ∈ rs, isObjectText r = true) (summary : ImportSummary) :
    Returns svc c world (arrayFraming rs) summary
      ↔ Returns svc c world (concatFraming rs) summary := by
  cases rs with
  | nil =>
    have hA : streamUsers background (arrayFraming [])
        = some { sent := [], total := 0, err := none } := by decide
    have hC : streamUsers background (concatFraming [])
        = some { sent := [], total := 0, err := none } := by decide
    constructor
    · intro ⟨schedule, err, hrun⟩
      rw [no_records_summary svc c world _ schedule summary err _ hA rfl hrun]
      exact returns_empty_concat svc c world
    · intro ⟨schedule, err, hrun⟩
      rw [no_records_summary svc c world _ schedule summary err _ hC rfl hrun]
      exact returns_empty_array svc c world
  | cons r rs1 =>
    have hsame := same_schedule svc c world r rs1 h
    constructor
    · intro ⟨schedule, err, hrun⟩
      have h1 := hsame schedule
      rw [hrun] at h1
      cases hC : svc.Import c world (concatFraming (r :: rs1)) schedule with
      | none => rw [hC] at h1; simp at h1
      | some res =>
        rw [hC] at h1
        simp only [Option.map_some', Option.some.injEq] at h1
        exact ⟨schedule, res.2, by rw [hC, h1]⟩
    · intro ⟨schedule, err, hrun⟩
      have h1 := hsame schedule
      rw [hrun] at h1
      cases hA : svc.Import c world (arrayFraming (r :: rs1)) schedule with
      | none => rw [hA] at h1; simp at h1
      | some res =>
        rw [hA] at h1
        simp only [Option.map_some', Option.some.injEq] at h1
        exact ⟨schedule, res.2, by rw [hA, ← h1]⟩

/-- C3: for every list of record objects, `streamUsers` on the array framing
and on the concatenated framing sends the same records in the same order
and returns the same count (and, without cancellation, the same result
altogether); `Import` run on the two framings under the same schedule of
goroutines, validator and repository returns the same `Total`, `Successful`
and `Failed`, and the summaries it can return at all are the same. -/
theorem framings_agree (rs : List (List Nat)) (h : ∀ r ∈ rs, isObjectText r = true) :
    streamUsers background (arrayFraming rs) = streamUsers background (concatFraming rs)
    ∧ (∀ ctx, (streamUsers ctx (arrayFraming rs)).map (fun r => (r.sent, r.total))
        = (streamUsers ctx (concatFraming rs)).map (fun r => (r.sent, r.total)))
    ∧ (∀ (ω : Type) (svc : Service) (c : Collab ω) (world : ω) (schedule : List Event),
        rs ≠ [] →
        (svc.Import c world (arrayFraming rs) schedule).map Prod.fst
          = (svc.Import c world (concatFraming rs) schedule).map Prod.fst)
    ∧ (∀ (ω : Type) (svc : Service) (c : Collab ω) (world : ω) (summary : ImportSummary),
        Returns svc c world (arrayFraming rs) summary
          ↔ Returns svc c world (concatFraming rs) summary) := by
  refine ⟨(framings_stream background rs h).2 rfl, fun ctx => (framings_stream ctx rs h).1,
    ?_, fun ω svc c world summary => returns_iff svc c world rs h summary⟩
  intro ω svc c world schedule hne
  cases rs with
  | nil => exact absurd rfl hne
  | cons r rs1 => exact same_schedule svc c world r rs1 h schedule

theorem framings_agree_witness :
    streamUsers background (arrayFraming [recordOne, recordTwo])
      = some { sent := [userOne, userTwo], total := 2, err := none }
    ∧ streamUsers background (arrayFraming [recordOne, recordTwo])
      = streamUsers background (concatFraming [recordOne, recordTwo])
    ∧ (NewService ⟨1, 1⟩).Import (sampleCollab [2]) () (arrayFraming [recordOne, recordTwo])
        (oneRecord ++ oneRecord ++ [Event.produce, Event.take 0])
      = some (⟨2, 1, 1⟩, some (Err.repo 1)) :=
  ⟨by decide, (framings_agree [recordOne, recordTwo] (by decide)).1, by decide⟩

/-! ### `Import` can always return -/

theorem process_one {ω : Type} (svc : Service) (c : Collab ω) (m : Nat)
    (hcap : 1 ≤ svc.jobsCap) (p : Pool ω) (u : ImportUser) (next : Stream)
    (hp : p.prod = Producer.sending u next) (hj : p.jobs = [])
    (hw : p.workers = Worker.idle :: List.replicate m Worker.idle)
    (hc : p.cancelled = false) :
    ∃ es p1, runEvents svc c es p = some p1 ∧ p1.prod = Producer.ofStream next
      ∧ p1.jobs = [] ∧ p1.workers = Worker.idle :: List.replicate m Worker.idle
      ∧ p1.cancelled = false := by
  have h1 : step svc c p Event.send
      = some { p with jobs := [u], prod := Producer.ofStream next, sent := u :: p.sent } := by
    simp only [step, hp, hj, List.length_nil, List.nil_append]
    rw [if_pos (by omega)]
  have h2 : step svc c { p with jobs := [u], prod := Producer.ofStream next, sent := u :: p.sent }
        (Event.take 0)
      = some { p with jobs := [], prod := Producer.ofStream next, sent := u :: p.sent,
                      workers := Worker.got u :: List.replicate m Worker.idle } := by
    simp [step, hw]
  have hrun2 : runEvents svc c [Event.send, Event.take 0] p
      = some { p with jobs := [], prod := Producer.ofStream next, sent := u :: p.sent,
                      workers := Worker.got u :: List.replicate m Worker.idle } := by
    simp only [runEvents, h1, h2]
  cases hv : (c.ValidateImportUser p.world u).2 with
  | some err =>
    refine ⟨[Event.send, Event.take 0] ++ [Event.validate 0],
      { p with jobs := [], prod := Producer.ofStream next, sent := u :: p.sent,
               workers := Worker.idle :: List.replicate m Worker.idle,
               world := (c.ValidateImportUser p.world u).1,
               errCh := trySend svc.errCap p.errCh err,
               calls := Call.rejected u err :: p.calls }, ?_, rfl, rfl, rfl, hc⟩
    rw [runEvents_append, hrun2]
    simp only [Option.some_bind, runEvents, step, List.getElem?_cons_zero, hc,
      Bool.false_eq_true, if_false, hv, List.set_cons_zero]
  | none =>
    have hrun3 : runEvents svc c ([Event.send, Event.take 0] ++ [Event.validate 0]) p
        = some { p with jobs := [], prod := Producer.ofStream next, sent := u :: p.sent,
                        workers := Worker.validated u :: List.replicate m Worker.idle,
                        world := (c.ValidateImportUser p.world u).1,
                        calls := Call.accepted u :: p.calls } := by
      rw [runEvents_append, hrun2]
      simp only [Option.some_bind, runEvents, step, List.getElem?_cons_zero, hc,
        Bool.false_eq_true, if_false, hv, List.set_cons_zero]
    cases hu : (c.UpsertUser (c.ValidateImportUser p.world u).1 false u.ToUser).2 with
    | some err =>
      refine ⟨([Event.send, Event.take 0] ++ [Event.validate 0]) ++ [Event.upsert 0],
        { p with jobs := [], prod := Producer.ofStream next, sent := u :: p.sent,
                 workers := Worker.idle :: List.replicate m Worker.idle,
                 world := (c.UpsertUser (c.ValidateImportUser p.world u).1 false u.ToUser).1,
                 errCh := trySend svc.errCap p.errCh err,
                 calls := Call.upsertFailed u err :: Call.accepted u :: p.calls },
        ?_, rfl, rfl, rfl, hc⟩
      rw [runEvents_append, hrun3]
      simp only [Option.some_bind, runEvents, step, List.getElem?_cons_zero, hc, hu,
        List.set_cons_zero]
    | none =>
      refine ⟨([Event.send, Event.take 0] ++ [Event.validate 0]) ++ [Event.upsert 0],
        { p with jobs := [], prod := Producer.ofStream next, sent := u :: p.sent,
                 workers := Worker.idle :: List.replicate m Worker.idle,
                 world := (c.UpsertUser (c.ValidateImportUser p.world u).1 false u.ToUser).1,
                 success := p.success + 1,
                 calls := Call.upserted u :: Call.accepted u :: p.calls },
        ?_, rfl, rfl, rfl, hc⟩
      rw [runEvents_append, hrun3]
      simp only [Option.some_bind, runEvents, step, List.getElem?_cons_zero, hc, hu,
        List.set_cons_zero]

theorem drive {ω : Type} (svc : Service) (c : Collab ω) (m : Nat) (hcap : 1 ≤ svc.jobsCap) :
    ∀ (fuel : Nat) (st : Stream) (p : Pool ω), st.inputLen < fuel →
      p.prod = Producer.ofStream st → p.jobs = [] →
      p.workers = Worker.idle :: List.replicate m Worker.idle → p.cancelled = false →
      ∃ es p1 total readErr, runEvents svc c es p = some p1
        ∧ p1.prod = Producer.returned total readErr ∧ p1.jobs = []
        ∧ p1.workers = Worker.idle :: List.replicate m Worker.idle := by
  intro fuel
  induction fuel with
  | zero => intro st p h; omega
  | succ k ih =>
    intro st p hlen hp hj hw hc
    cases st with
    | returned total err => exact ⟨[], p, total, err, rfl, hp, hj, hw⟩
    | running dec array total =>
      simp only [Producer.ofStream] at hp
      simp only [Stream.inputLen] at hlen
      cases hi : streamIter none dec array total with
      | mk emitted next =>
        have hce : ctxErr p.cancelled = none := by rw [hc]; rfl
        cases emitted with
        | none =>
          obtain ⟨e, he⟩ := streamIter_stop _ _ _ _ _ hi
          refine ⟨[Event.produce], { p with prod := Producer.returned total e }, total, e,
            ?_, rfl, hj, hw⟩
          simp only [runEvents, step, hp, hce, hi, he, Producer.ofStream]
        | some u =>
          have hlt := streamIter_length _ _ _ _ _ _ hi
          have hstep : step svc c p Event.produce
              = some { p with prod := Producer.sending u next } := by
            simp only [step, hp, hce, hi]
          obtain ⟨es1, p1, hrun1, hp1, hj1, hw1, hc1⟩ :=
            process_one svc c m hcap { p with prod := Producer.sending u next } u next
              rfl hj hw hc
          obtain ⟨es2, p2, t2, e2, hrun2, hp2, hj2, hw2⟩ :=
            ih next p1 (by omega) hp1 hj1 hw1 hc1
          refine ⟨Event.produce :: (es1 ++ es2), p2, t2, e2, ?_, hp2, hj2, hw2⟩
          simp only [runEvents, hstep]
          rw [runEvents_append, hrun1]
          exact hrun2

/-- For every service built by `NewService`, every behaviour of the
collaborators and every input, some schedule makes `Import` return. -/
theorem Import_returns {ω : Type} (opts : ImportOptions) (c : Collab ω) (world : ω)
    (reader : List Nat) :
    ∃ schedule result, (NewService opts).Import c world reader schedule = some result := by
  have hb := NewService_bounds opts
  obtain ⟨m, hm⟩ : ∃ m, (NewService opts).maxWorkers.toNat = m + 1 :=
    ⟨(NewService opts).maxWorkers.toNat - 1, by omega⟩
  have hcap : 1 ≤ (NewService opts).jobsCap := by unfold Service.jobsCap; omega
  obtain ⟨es, p1, total, readErr, hrun, hp, hj, hw⟩ :=
    drive (NewService opts) c m hcap ((streamBegin reader).inputLen + 1) (streamBegin reader)
      ((NewService opts).start world reader) (by omega) rfl rfl
      (by simp only [Service.start, hm, List.replicate_succ]) rfl
  have hexit := run_exitFrom (NewService opts) c total readErr (m + 1) 0 p1 hp hj
    (by simpa [List.replicate_succ] using hw)
  have hres : ∃ result,
      ({ p1 with workers := List.replicate (0 + (m + 1)) Worker.exited } : Pool ω).result
        = some result := by
    simp only [Pool.result, hp, allExited_replicate, if_true]
    split <;> exact ⟨_, rfl⟩
  obtain ⟨result, hresult⟩ := hres
  refine ⟨es ++ exitFrom 0 (m + 1), result, ?_⟩
  simp only [Service.Import]
  rw [runEvents_append, hrun]
  simp only [Option.some_bind, hexit]
  exact hresult

/-! ### A cancellation that leaves `streamUsers` at its send -/

theorem blockedPool_step (e : Event) :
    step (NewService ⟨1, 1⟩) (sampleCollab []) blockedPool e = none
    ∨ step (NewService ⟨1, 1⟩) (sampleCollab []) blockedPool e = some blockedPool := by
  cases e with
  | cancel => right; rfl
  | produce => left; rfl
  | send => left; rfl
  | take i => left; cases i <;> rfl
  | validate i => left; cases i <;> rfl
  | upsert i => left; cases i <;> rfl

theorem blockedPool_run :
    ∀ (es : List Event),
      runEvents (NewService ⟨1, 1⟩) (sampleCollab []) es blockedPool = none
      ∨ runEvents (NewService ⟨1, 1⟩) (sampleCollab []) es blockedPool = some blockedPool := by
  intro es
  induction es with
  | nil => right; rfl
  | cons e es ih =>
    rcases blockedPool_step e with h | h
    · left; simp only [runEvents, h]
    · simp only [runEvents, h]; exact ih

/-- With one worker and a queue of capacity 1, the schedule
`blockingSchedule` (a cancellation arriving while `streamUsers` is at
`out <- u` on a full queue and the only worker has just received a record)
leads to a state from which no schedule makes `Import` return: the worker
has returned, so nobody receives from `jobs`. -/
theorem import_blocks_after_cancel :
    runEvents (NewService ⟨1, 1⟩) (sampleCollab []) blockingSchedule
        ((NewService ⟨1, 1⟩).start () threeRecords) = some blockedPool
    ∧ ∀ (es : List Event),
        (NewService ⟨1, 1⟩).Import (sampleCollab []) () threeRecords (blockingSchedule ++ es)
          = none := by
  have hrun : runEvents (NewService ⟨1, 1⟩) (sampleCollab []) blockingSchedule
      ((NewService ⟨1, 1⟩).start () threeRecords) = some blockedPool := by rfl
  refine ⟨hrun, ?_⟩
  intro es
  simp only [Service.Import]
  rw [runEvents_append, hrun]
  simp only [Option.some_bind]
  rcases blockedPool_run es with h | h
  · rw [h]
  · rw [h]; rfl

/-! ### Which error `Import` returns -/

theorem combineLoop_some (c : Err) :
    ∀ (l : List Err), ∃ e, combineLoop (some c) l = some e := by
  intro l
  induction l generalizing c with
  | nil => exact ⟨c, rfl⟩
  | cons x rest ih => simp only [combineLoop]; exact ih _

theorem combineLoop_none_iff (l : List Err) : combineLoop none l = none ↔ l = [] := by
  cases l with
  | nil => simp [combineLoop]
  | cons x rest =>
    obtain ⟨e, he⟩ := combineLoop_some x rest
    simp [combineLoop, he]

theorem take_reverse_nil_iff (l : List Err) (cap : Nat) (hcap : 1 ≤ cap) :
    l.reverse.take cap = [] ↔ l = [] := by
  constructor
  · intro h
    have hlen := congrArg List.length h
    simp only [List.length_take, List.length_reverse, List.length_nil] at hlen
    exact List.length_eq_zero.mp (by omega)
  · intro h; rw [h]; simp

/-- C11: when `streamUsers` has returned a non-nil error, `Import` returns
exactly that error with the summary, whatever the workers put on `errCh`;
only when `streamUsers` returned nil does `Import` return the combined error
of `errCh`, which is nil exactly when no validation or upsert failed. -/
theorem decode_error_first {ω : Type} (opts : ImportOptions) (c : Collab ω) (world : ω)
    (reader : List Nat) (schedule : List Event) (p : Pool ω) (summary : ImportSummary)
    (err : Option Err) (total : Int) (readErr : Option Err)
    (hrun : runEvents (NewService opts) c schedule ((NewService opts).start world reader)
      = some p)
    (hp : p.prod = Producer.returned total readErr)
    (hres : p.result = some (summary, err)) :
    summary.Total = total
    ∧ (readErr ≠ none → err = readErr)
    ∧ (readErr = none → err = combineLoop none p.errCh)
    ∧ p.errCh = (failures p.calls).reverse.take (2 * (NewService opts).maxWorkers.toNat)
    ∧ (combineLoop none p.errCh = none ↔ failures p.calls = []) := by
  obtain ⟨total1, readErr1, hp1, _, hsum, herr⟩ := result_some p summary err hres
  rw [hp] at hp1
  cases hp1
  have hinv := PoolInv_run _ c schedule _ p (PoolInv_start _ world reader) hrun
  have hb := NewService_bounds opts
  have hcap : (NewService opts).errCap = 2 * (NewService opts).maxWorkers.toNat := by
    unfold Service.errCap; omega
  have hch := hinv.errCh_eq
  rw [hcap] at hch
  refine ⟨by rw [hsum], ?_, ?_, hch, ?_⟩
  · intro hne; rw [herr, if_pos hne]
  · intro hnone; rw [herr, if_neg (by simp [hnone])]
  · rw [combineLoop_none_iff, hch]
    exact take_reverse_nil_iff _ _ (by omega)

theorem decode_error_first_witness :
    (runEvents (NewService ⟨1, 1⟩) (sampleCollab [])
        (oneRejected ++ [Event.produce, Event.take 0])
        ((NewService ⟨1, 1⟩).start () rejectedThenBroken) = some decodeErrorPool)
    ∧ decodeErrorPool.result = some (⟨1, 0, 1⟩, some Err.badJSON)
    ∧ decodeErrorPool.errCh = [Err.invalid 0]
    ∧ ((some Err.badJSON : Option Err) ≠ none → some Err.badJSON = some Err.badJSON) :=
  have h := decode_error_first ⟨1, 1⟩ (sampleCollab []) () rejectedThenBroken
      (oneRejected ++ [Event.produce, Event.take 0]) decodeErrorPool ⟨1, 0, 1⟩
      (some Err.badJSON) 1 (some Err.badJSON) (by rfl) (by rfl) (by decide)
  ⟨by rfl, by decide, by rfl, h.2.1⟩

/-! ### A cancellation inside a run of `Import` -/

theorem streamIter_cancelled_stop (e : Err) (dec : Decoder) (array : Bool) (total : Int) :
    ∃ e1, streamIter (some e) dec array total = (none, Stream.returned total e1) := by
  cases array
  · exact ⟨some e, by simp [streamIter]⟩
  · by_cases hm : dec.More.1 = true
    · exact ⟨some e, by simp [streamIter, hm]⟩
    · simp only [streamIter, hm, if_true, Bool.false_eq_true, if_false]
      split
      · exact ⟨_, rfl⟩
      · exact ⟨_, rfl⟩

theorem streamIter_cancel_of_emit (e : Err) (dec : Decoder) (array : Bool) (total : Int)
    (u : ImportUser) (next : Stream) (h : streamIter none dec array total = (some u, next)) :
    streamIter (some e) dec array total = (none, Stream.returned total (some e)) := by
  cases array
  · simp [streamIter]
  · by_cases hm : dec.More.1 = true
    · simp [streamIter, hm]
    · simp only [streamIter, hm, if_true, Bool.false_eq_true, if_false] at h
      split at h <;> simp at h

theorem step_cancelled_head {ω : Type} (svc : Service) (c : Collab ω) (dec : Decoder)
    (array : Bool) (total : Int) (sent : List ImportUser)
    (hit : streamIter (some Err.canceled) dec array total
      = (none, Stream.returned total (some Err.canceled)))
    (q q1 : Pool ω) (e : Event)
    (hq : q.cancelled = true ∧ q.sent = sent
      ∧ (q.prod = Producer.running dec array total
        ∨ q.prod = Producer.returned total (some Err.canceled)))
    (hs : step svc c q e = some q1) :
    q1.cancelled = true ∧ q1.sent = sent
      ∧ (q1.prod = Producer.running dec array total
        ∨ q1.prod = Producer.returned total (some Err.canceled)) := by
  obtain ⟨hc, hsent, hp⟩ := hq
  cases e with
  | cancel => simp only [step] at hs; cases hs; exact ⟨rfl, hsent, hp⟩
  | produce =>
    rcases hp with hp | hp
    · simp only [step, hp, hc, ctxErr, if_true, hit, Producer.ofStream] at hs
      cases hs
      exact ⟨rfl, hsent, Or.inr rfl⟩
    · simp [step, hp] at hs
  | send =>
    rcases hp with hp | hp <;> simp [step, hp] at hs
  | take i =>
    obtain ⟨h1, h2, h3⟩ := step_worker svc c q q1 _ (by simp) hs
    rw [h1, h2, h3]; exact ⟨hc, hsent, hp⟩
  | validate i =>
    obtain ⟨h1, h2, h3⟩ := step_worker svc c q q1 _ (by simp) hs
    rw [h1, h2, h3]; exact ⟨hc, hsent, hp⟩
  | upsert i =>
    obtain ⟨h1, h2, h3⟩ := step_worker svc c q q1 _ (by simp) hs
    rw [h1, h2, h3]; exact ⟨hc, hsent, hp⟩

theorem run_cancelled_head {ω : Type} (svc : Service) (c : Collab ω) (dec : Decoder)
    (array : Bool) (total : Int) (sent : List ImportUser)
    (hit : streamIter (some Err.canceled) dec array total
      = (none, Stream.returned total (some Err.canceled))) :
    ∀ (es : List Event) (q p : Pool ω),
      (q.cancelled = true ∧ q.sent = sent
        ∧ (q.prod = Producer.running dec array total
          ∨ q.prod = Producer.returned total (some Err.canceled))) →
      runEvents svc c es q = some p →
      p.cancelled = true ∧ p.sent = sent
        ∧ (p.prod = Producer.running dec array total
          ∨ p.prod = Producer.returned total (some Err.canceled)) := by
  intro es
  induction es with
  | nil => intro q p hq hs; simp only [runEvents] at hs; cases hs; exact hq
  | cons e es ih =>
    intro q p hq hs
    simp only [runEvents] at hs
    split at hs
    · rename_i q1 h1
      exact ih q1 p (step_cancelled_head svc c dec array total sent hit q q1 e hq h1) hs
    · cases hs

theorem head_emits (fuel : Nat) (dec : Decoder) (array : Bool) (total : Int)
    (sent : List ImportUser) (res : StreamResult)
    (h : streamLoop background fuel (Stream.running dec array total) sent = some res)
    (hlt : sent.length < res.sent.length) :
    ∃ u next, streamIter none dec array total = (some u, next) := by
  cases fuel with
  | zero => simp [streamLoop] at h
  | succ k =>
    simp only [streamLoop, background] at h
    cases hit : streamIter none dec array total with
    | mk o st =>
      cases o with
      | some u => exact ⟨u, st, rfl⟩
      | none =>
        obtain ⟨e, he⟩ := streamIter_stop none dec array total st hit
        rw [hit, he] at h
        cases k <;>
        · simp only [streamLoop, Option.some.injEq] at h
          rw [← h] at hlt
          simp at hlt

/-- A cancellation that arrives while `streamUsers` is at the head of its
loop and the stream holds a further record: no further record is sent and
every return of `Import` has the total of that moment and the cancellation
error. -/
theorem cancel_at_head {ω : Type} (svc : Service) (c : Collab ω) (world : ω)
    (reader : List Nat) (es1 es2 : List Event) (p1 p : Pool ω) (res : StreamResult)
    (dec : Decoder) (array : Bool) (total : Int)
    (hnc : Event.cancel ∉ es1)
    (hrun1 : runEvents svc c es1 (svc.start world reader) = some p1)
    (hhead : p1.prod = Producer.running dec array total)
    (hres : streamUsers background reader = some res)
    (hmore : p1.sent.length < res.sent.length)
    (hrun2 : runEvents svc c (Event.cancel :: es2) p1 = some p) :
    p.sent = p1.sent
    ∧ ∀ summary err, p.result = some (summary, err) →
        summary.Total = p1.sent.length ∧ err = some Err.canceled := by
  have hinv := PoolInv_run svc c es1 _ p1 (PoolInv_start svc world reader) hrun1
  have hlink := Linked_run svc c reader es1 _ p1 (Linked_start svc world reader) hrun1
  have hcan : p1.cancelled = false := by
    rw [run_no_cancel svc c es1 _ p1 hnc hrun1]; rfl
  have htot : total = (p1.sent.length : Int) := by
    have := hinv.total_eq
    simpa [hhead, Producer.total, Producer.pending] using this
  have hon : OnTrack reader p1 := by
    rcases hlink with h | ⟨h, _⟩
    · exact h
    · rw [hcan] at h; cases h
  obtain ⟨fuel, hf⟩ := hon
  simp only [hhead, Producer.cur, hres] at hf
  obtain ⟨u, next, hemit⟩ := head_emits fuel dec array total p1.sent res hf hmore
  have hit := streamIter_cancel_of_emit Err.canceled dec array total u next hemit
  simp only [runEvents, step] at hrun2
  obtain ⟨_, hsent, hprod⟩ := run_cancelled_head svc c dec array total p1.sent hit es2
    { p1 with cancelled := true } p ⟨rfl, rfl, Or.inl hhead⟩ hrun2
  refine ⟨hsent, ?_⟩
  intro summary err hr
  obtain ⟨t, readErr, hp, _, hsum, herr⟩ := result_some p summary err hr
  rcases hprod with h | h
  · rw [h] at hp; cases hp
  · rw [h] at hp
    cases hp
    refine ⟨by rw [hsum, htot], by rw [herr]; simp⟩

theorem step_cancelled_send {ω : Type} (svc : Service) (c : Collab ω) (u : ImportUser)
    (next : Stream) (sent : List ImportUser) (q q1 : Pool ω) (e : Event)
    (hq : q.cancelled = true
      ∧ ((q.prod = Producer.sending u next ∧ q.sent = sent)
        ∨ (q.sent = u :: sent
          ∧ (q.prod = Producer.ofStream next
            ∨ ∃ e1, q.prod = Producer.returned next.total e1))))
    (hs : step svc c q e = some q1) :
    q1.cancelled = true
      ∧ ((q1.prod = Producer.sending u next ∧ q1.sent = sent)
        ∨ (q1.sent = u :: sent
          ∧ (q1.prod = Producer.ofStream next
            ∨ ∃ e1, q1.prod = Producer.returned next.total e1))) := by
  obtain ⟨hc, hp⟩ := hq
  cases e with
  | cancel => simp only [step] at hs; cases hs; exact ⟨rfl, hp⟩
  | produce =>
    rcases hp with ⟨hp, _⟩ | ⟨hsent, hp | ⟨e1, hp⟩⟩
    · simp [step, hp] at hs
    · cases next with
      | returned t e1 => simp [step, hp, Producer.ofStream] at hs
      | running dec array t =>
        obtain ⟨e1, hit⟩ := streamIter_cancelled_stop Err.canceled dec array t
        simp only [step, hp, hc, ctxErr, if_true, hit, Producer.ofStream] at hs
        cases hs
        exact ⟨rfl, Or.inr ⟨hsent, Or.inr ⟨e1, rfl⟩⟩⟩
    · simp [step, hp] at hs
  | send =>
    rcases hp with ⟨hp, hsent⟩ | ⟨hsent, hp | ⟨e1, hp⟩⟩
    · simp only [step, hp] at hs
      split at hs
      · cases hs
        exact ⟨hc, Or.inr ⟨by simp [hsent], Or.inl rfl⟩⟩
      · cases hs
    · cases next with
      | returned t e1 => simp [step, hp, Producer.ofStream] at hs
      | running dec array t => simp [step, hp, Producer.ofStream] at hs
    · simp [step, hp] at hs
  | take i =>
    obtain ⟨h1, h2, h3⟩ := step_worker svc c q q1 _ (by simp) hs
    rw [h1, h2, h3]; exact ⟨hc, hp⟩
  | validate i =>
    obtain ⟨h1, h2, h3⟩ := step_worker svc c q q1 _ (by simp) hs
    rw [h1, h2, h3]; exact ⟨hc, hp⟩
  | upsert i =>
    obtain ⟨h1, h2, h3⟩ := step_worker svc c q q1 _ (by simp) hs
    rw [h1, h2, h3]; exact ⟨hc, hp⟩

theorem run_cancelled_send {ω : Type} (svc : Service) (c : Collab ω) (u : ImportUser)
    (next : Stream) (sent : List ImportUser) :
    ∀ (es : List Event) (q p : Pool ω),
      (q.cancelled = true
        ∧ ((q.prod = Producer.sending u next ∧ q.sent = sent)
          ∨ (q.sent = u :: sent
            ∧ (q.prod = Producer.ofStream next
              ∨ ∃ e1, q.prod = Producer.returned next.total e1)))) →
      runEvents svc c es q = some p →
      p.cancelled = true
        ∧ ((p.prod = Producer.sending u next ∧ p.sent = sent)
          ∨ (p.sent = u :: sent
            ∧ (p.prod = Producer.ofStream next
              ∨ ∃ e1, p.prod = Producer.returned next.total e1))) := by
  intro es
  induction es with
  | nil => intro q p hq hs; simp only [runEvents] at hs; cases hs; exact hq
  | cons e es ih =>
    intro q p hq hs
    simp only [runEvents] at hs
    split at hs
    · rename_i q1 h1
      exact ih q1 p (step_cancelled_send svc c u next sent q q1 e hq h1) hs
    · cases hs

/-- A cancellation that arrives while `streamUsers` waits at `out <- u`:
that record is still sent and counted in every return of `Import`. -/
theorem cancel_at_send {ω : Type} (svc : Service) (c : Collab ω) (world : ω)
    (reader : List Nat) (es1 es2 : List Event) (p1 p : Pool ω)
    (u : ImportUser) (next : Stream)
    (hrun1 : runEvents svc c es1 (svc.start world reader) = some p1)
    (hsend : p1.prod = Producer.sending u next)
    (hrun2 : runEvents svc c (Event.cancel :: es2) p1 = some p) :
    ∀ summary err, p.result = some (summary, err) →
      summary.Total = p1.sent.length + 1 ∧ p.sent = u :: p1.sent := by
  have hinv := PoolInv_run svc c es1 _ p1 (PoolInv_start svc world reader) hrun1
  have htot : next.total = (p1.sent.length : Int) + 1 := by
    have := hinv.total_eq
    simpa [hsend, Producer.total, Producer.pending] using this
  simp only [runEvents, step] at hrun2
  obtain ⟨_, hcases⟩ := run_cancelled_send svc c u next p1.sent es2
    { p1 with cancelled := true } p ⟨rfl, Or.inl ⟨hsend, rfl⟩⟩ hrun2
  intro summary err hr
  obtain ⟨t, readErr, hp, _, hsum, herr⟩ := result_some p summary err hr
  rcases hcases with ⟨h, _⟩ | ⟨hsent, h | ⟨e1, h⟩⟩
  · rw [h] at hp; cases hp
  · cases next with
    | running dec array t1 => rw [h] at hp; simp [Producer.ofStream] at hp
    | returned t1 e1 =>
      rw [h] at hp
      simp only [Producer.ofStream, Producer.returned.injEq] at hp
      refine ⟨?_, hsent⟩
      rw [hsum]
      simp only [Stream.total] at htot
      rw [← hp.1, htot]
  · rw [h] at hp
    simp only [Producer.returned.injEq] at hp
    refine ⟨?_, hsent⟩
    rw [hsum]
    show t = _
    rw [← hp.1, htot]

/-- C10, as the code has it: `streamUsers` tests the context once per
record, before decoding it.  When the test made once `K` records have been
sent finds the context cancelled and the stream holds more than `K` records,
then in array framing and in concatenated framing alike `streamUsers` sends
exactly the first `K` records and returns `(K, ctx.Err())`.  In a run of
`Import`, a cancellation that arrives while `streamUsers` is at the head of
its loop with `K` records sent and a further record to come stops the
stream there: no further record is sent, the records sent are the first `K`
of the stream, and every return of `Import` has `Total = K` and the
cancellation error.  A cancellation that arrives while record `K + 1` waits
at `out <- u` does not stop that record: it is sent, and every return of
`Import` has `Total = K + 1`. -/
theorem cancel_after_k (ctx : Nat → Option Err) (pre : List (List Nat))
    (us : List ImportUser) (r : List Nat) (post : List (List Nat)) (e : Err)
    (hobj : ∀ x ∈ pre ++ r :: post, isObjectText x = true)
    (hdec : List.Forall₂ (fun r u => unmarshalImportUser r = Except.ok u) pre us)
    (h1 : ∀ i, i < pre.length → ctx i = none) (h2 : ctx pre.length = some e) :
    streamUsers ctx (arrayFraming (pre ++ r :: post))
      = some { sent := us, total := pre.length, err := some e }
    ∧ streamUsers ctx (concatFraming (pre ++ r :: post))
      = some { sent := us, total := pre.length, err := some e }
    ∧ (∀ (ω : Type) (svc : Service) (c : Collab ω) (world : ω) (reader : List Nat)
        (es1 es2 : List Event) (p1 : Pool ω) (res : StreamResult) (dec : Decoder)
        (array : Bool) (total : Int),
        Event.cancel ∉ es1 →
        runEvents svc c es1 (svc.start world reader) = some p1 →
        p1.prod = Producer.running dec array total →
        streamUsers background reader = some res →
        p1.sent.length < res.sent.length →
        ∀ p, runEvents svc c (es1 ++ Event.cancel :: es2) (svc.start world reader) = some p →
          p.sent = p1.sent ∧ p.sent.reverse = res.sent.take p1.sent.length
          ∧ ∀ summary err, p.result = some (summary, err) →
              summary.Total = p1.sent.length ∧ err = some Err.canceled)
    ∧ (∀ (ω : Type) (svc : Service) (c : Collab ω) (world : ω) (reader : List Nat)
        (es1 es2 : List Event) (p1 : Pool ω) (u : ImportUser) (next : Stream),
        runEvents svc c es1 (svc.start world reader) = some p1 →
        p1.prod = Producer.sending u next →
        ∀ p, runEvents svc c (es1 ++ Event.cancel :: es2) (svc.start world reader) = some p →
          ∀ summary err, p.result = some (summary, err) →
            summary.Total = p1.sent.length + 1 ∧ p.sent = u :: p1.sent) := by
  refine ⟨?_, ?_, ?_, ?_⟩
  · rw [streamUsers_array ctx _ hobj]
    exact recordsRun_cancelled ctx _ pre us r post e hdec h1 h2
  · obtain ⟨x, xs, hx⟩ : ∃ x xs, pre ++ r :: post = x :: xs := by
      cases pre with
      | nil => exact ⟨r, post, rfl⟩
      | cons a as => exact ⟨a, as ++ r :: post, rfl⟩
    have hobj1 : ∀ y ∈ x :: xs, isObjectText y = true := by rw [← hx]; exact hobj
    obtain ⟨fuel, _, hs⟩ := streamUsers_concat ctx x xs [] hobj1
    rw [List.append_nil, ← hx] at hs
    rw [hs]
    exact recordsRun_cancelled ctx _ pre us r post e hdec h1 h2
  · intro ω svc c world reader es1 es2 p1 res dec array total hnc hrun1 hhead hres hmore p hrun
    rw [runEvents_append, hrun1, Option.some_bind] at hrun
    have h := cancel_at_head svc c world reader es1 es2 p1 p res dec array total hnc hrun1
      hhead hres hmore hrun
    refine ⟨h.1, ?_, h.2⟩
    obtain ⟨res1, hres1, hpre, _⟩ := run_sent_prefix svc c world reader es1 p1 hrun1
    rw [hres] at hres1
    cases hres1
    rw [h.1]
    have := List.prefix_iff_eq_take.mp hpre
    simpa using this
  · intro ω svc c world reader es1 es2 p1 u next hrun1 hsend p hrun
    rw [runEvents_append, hrun1, Option.some_bind] at hrun
    exact cancel_at_send svc c world reader es1 es2 p1 p u next hrun1 hsend hrun

theorem cancel_after_k_witness :
    streamUsers (fun k => if 1 ≤ k then some Err.canceled else none)
        (arrayFraming ([recordOne] ++ recordTwo :: []))
      = some { sent := [userOne], total := 1, err := some Err.canceled }
    ∧ streamUsers (fun k => if 1 ≤ k then some Err.canceled else none)
        (concatFraming ([recordOne] ++ recordTwo :: []))
      = some { sent := [userOne], total := 1, err := some Err.canceled }
    ∧ (NewService ⟨1, 1⟩).Import (sampleCollab []) () threeRecords
        (headSchedule ++ Event.cancel :: [Event.produce, Event.validate 0])
      = some (⟨1, 0, 1⟩, some Err.canceled)
    ∧ (headCancelledPool.sent = headPool.sent
      ∧ headCancelledPool.sent.reverse = [userOne, userTwo,
          { ImportUser.zero with ID := 3, Name := [99] }].take headPool.sent.length
      ∧ (1 : Int) = headPool.sent.length ∧ some Err.canceled = some Err.canceled)
    ∧ (NewService ⟨1, 1⟩).Import (sampleCollab []) () threeRecords
        (sendSchedule ++ Event.cancel :: [Event.send, Event.produce, Event.validate 0])
      = some (⟨2, 0, 2⟩, some Err.canceled)
    ∧ ((2 : Int) = sendPool.sent.length + 1
      ∧ sendCancelledPool.sent = userTwo :: sendPool.sent) :=
  have h := cancel_after_k (fun k => if 1 ≤ k then some Err.canceled else none) [recordOne]
    [userOne] recordTwo [] Err.canceled (by decide)
    (List.Forall₂.cons (by decide) List.Forall₂.nil) (by decide) (by decide)
  have ha := h.2.2.1 Unit (NewService ⟨1, 1⟩) (sampleCollab []) () threeRecords headSchedule
    [Event.produce, Event.validate 0] headPool
    ⟨[userOne, userTwo, { ImportUser.zero with ID := 3, Name := [99] }], 3, none⟩ _ _ _
    (by decide) rfl rfl (by decide) (by decide) headCancelledPool rfl
  have hb := h.2.2.2 Unit (NewService ⟨1, 1⟩) (sampleCollab []) () threeRecords sendSchedule
    [Event.send, Event.produce, Event.validate 0] sendPool _ _ rfl rfl sendCancelledPool rfl
  ⟨h.1, h.2.1, by decide, ⟨ha.1, ha.2.1, ha.2.2 ⟨1, 0, 1⟩ (some Err.canceled) rfl⟩,
    by decide, hb ⟨2, 0, 2⟩ (some Err.canceled) rfl⟩

/-- C10 as stated fails inside `Import`: on a stream of three records, in
either framing, the context is cancelled when exactly one record has been
sent (the second is decoded and waits at `out <- u`); the second record is
still sent and `Import` returns `Total = 2`, not 1. -/
theorem cancel_while_sending :
    (runEvents (NewService ⟨1, 1⟩) (sampleCollab []) sendSchedule
        ((NewService ⟨1, 1⟩).start () threeRecords)).map (fun p => (p.sent, p.cancelled))
      = some ([userOne], false)
    ∧ (streamUsers background threeRecords).map (fun r => r.sent.length) = some 3
    ∧ (NewService ⟨1, 1⟩).Import (sampleCollab []) () threeRecords
        (sendSchedule ++ Event.cancel :: [Event.send, Event.produce, Event.validate 0])
      = some (⟨2, 0, 2⟩, some Err.canceled)
    ∧ (runEvents (NewService ⟨1, 1⟩) (sampleCollab []) sendSchedule
        ((NewService ⟨1, 1⟩).start () (arrayFraming [recordOne, recordTwo, recordOne]))).map
          (fun p => (p.sent, p.cancelled))
      = some ([userOne], false)
    ∧ (NewService ⟨1, 1⟩).Import (sampleCollab []) ()
        (arrayFraming [recordOne, recordTwo, recordOne])
        (sendSchedule ++ Event.cancel :: [Event.send, Event.produce, Event.validate 0])
      = some (⟨2, 0, 2⟩, some Err.canceled)
    ∧ ¬ ∃ summary err, (NewService ⟨1, 1⟩).Import (sampleCollab []) () threeRecords
          (sendSchedule ++ Event.cancel :: [Event.send, Event.produce, Event.validate 0])
        = some (summary, err) ∧ summary.Total = 1 := by
  refine ⟨by decide, by decide, by decide, by decide, by decide, ?_⟩
  rintro ⟨summary, err, h, ht⟩
  have h2 : (NewService ⟨1, 1⟩).Import (sampleCollab []) () threeRecords
      (sendSchedule ++ Event.cancel :: [Event.send, Event.produce, Event.validate 0])
      = some (⟨2, 0, 2⟩, some Err.canceled) := by decide
  rw [h2] at h
  cases h
  simp at ht

/-! ### Which identifiers are refused at decode time -/

theorem digitsValue_nil (acc : Nat) : digitsValue acc [] = acc := rfl

theorem digitsValue_cons (acc c : Nat) (cs : List Nat) :
    digitsValue acc (c :: cs) = digitsValue (acc * 10 + (c - 48)) cs := rfl

theorem digitsValue_ge (s : List Nat) : ∀ acc, acc ≤ digitsValue acc s := by
  induction s with
  | nil => intro acc; exact Nat.le_refl _
  | cons c cs ih =>
    intro acc
    show acc ≤ digitsValue (acc * 10 + (c - 48)) cs
    have := ih (acc * 10 + (c - 48))
    omega

theorem parseUintLoop_iff (s : List Nat) :
    ∀ (n m : Nat), n < 2 ^ 64 →
      (parseUintLoop n s = some m
        ↔ s.all isDigit = true ∧ digitsValue n s = m ∧ m < 2 ^ 64) := by
  induction s with
  | nil =>
    intro n m hn
    simp only [parseUintLoop, digitsValue_nil, List.all_nil, Option.some.injEq, true_and]
    constructor
    · intro h; subst h; exact ⟨rfl, hn⟩
    · intro h; exact h.1
  | cons c cs ih =>
    intro n m hn
    have hge := digitsValue_ge cs (n * 10 + (c - 48))
    simp only [parseUintLoop, digitsValue_cons, List.all_cons, Bool.and_eq_true]
    by_cases hd : isDigit c = true
    · simp only [hd, if_true, true_and]
      by_cases h1 : n ≥ (2 ^ 64 - 1) / 10 + 1
      · simp only [h1, if_true]
        constructor
        · intro h; cases h
        · intro ⟨_, h2, h3⟩; norm_num at h1; omega
      · simp only [h1, if_false]
        by_cases h2 : n * 10 + (c - 48) > 2 ^ 64 - 1
        · simp only [h2, if_true]
          constructor
          · intro h; cases h
          · intro ⟨_, h3, h4⟩; norm_num at h2; omega
        · simp only [h2, if_false]
          exact ih _ m (by norm_num at h2; omega)
    · simp only [hd, Bool.false_eq_true, if_false, false_and]
      constructor
      · intro h; cases h
      · intro h; exact h.elim

theorem parseUint_iff (s : List Nat) (m : Nat) :
    parseUint s = some m ↔ isDecimalOf s m ∧ m < 2 ^ 64 := by
  unfold parseUint isDecimalOf
  by_cases hs : s = []
  · simp [hs]
  · simp only [hs, if_false, ne_eq, not_false_eq_true, true_and]
    rw [parseUintLoop_iff s 0 m (by norm_num)]
    tauto

theorem parseUint_ok_iff (t : List Nat) (n : Nat) :
    parseUint t = some n ↔ n < 2 ^ 64 ∧ isDecimalOf t n := by
  rw [parseUint_iff]; tauto

theorem NumericID_iff (raw : List Nat) (n : Nat) :
    NumericID.UnmarshalJSON raw = Except.ok n
      ↔ checkValid raw = true ∧ n < 2 ^ 64
        ∧ ∃ v rest, parseValue (raw.length + 1) raw = some (v, rest)
            ∧ denotesID (raw.head? == some 34) v n := by
  unfold NumericID.UnmarshalJSON
  by_cases h0 : raw.length = 0
  · have hr : raw = [] := List.length_eq_zero.mp h0
    subst hr
    simp only [List.length_nil, if_true, reduceCtorEq, false_iff]
    intro h
    exact absurd h.1 (by decide)
  · simp only [h0, if_false]
    by_cases hv : checkValid raw = true
    · cases hp : parseValue (raw.length + 1) raw with
      | none =>
        by_cases hq : raw.head? = some 34 <;>
          simp [hq, unmarshalString, unmarshalUint64, hv, hp]
      | some vr =>
        obtain ⟨v, rest⟩ := vr
        have hex : ∀ q, (∃ v1 r1, some (v, rest) = some (v1, r1) ∧ denotesID q v1 n)
            ↔ denotesID q v n := by
          intro q
          constructor
          · rintro ⟨v1, r1, h, hd⟩; cases h; exact hd
          · intro h; exact ⟨_, _, rfl, h⟩
        simp only [hv, true_and, hex]
        by_cases hq : raw.head? = some 34
        · have hb : (raw.head? == some 34) = true := by simp [hq]
          rw [hb]
          cases v with
          | str s =>
            simp only [hq, unmarshalString, hv, hp, denotesID, if_true, true_and]
            by_cases ht : trimSpace s = []
            · simp [ht, isDecimalOf]
            · simp only [ht, if_false]
              rw [← parseUint_ok_iff]
              cases parseUint (trimSpace s) <;> simp
          | null =>
            simp [hq, unmarshalString, hv, hp, denotesID, show trimSpace [] = [] from rfl]
          | _ => simp [hq, unmarshalString, hv, hp, denotesID]
        · have hb : (raw.head? == some 34) = false := by simp [hq]
          rw [hb]
          cases v with
          | num lit =>
            simp only [hq, unmarshalUint64, hv, hp, denotesID, if_true, if_false, true_and]
            rw [← parseUint_ok_iff]
            cases parseUint lit <;> simp
          | null =>
            simp only [hq, unmarshalUint64, hv, hp, denotesID, if_true, if_false, true_and,
              Except.ok.injEq]
            constructor
            · intro h; subst h; exact ⟨by norm_num, rfl⟩
            · intro h; exact h.2.symm
          | _ => simp [hq, unmarshalUint64, hv, hp, denotesID]
    · by_cases hq : raw.head? = some 34 <;>
        simp [hq, unmarshalString, unmarshalUint64, hv]

theorem digitsValue_decimalLoop :
    ∀ (fuel n : Nat) (acc : List Nat), n < fuel →
      digitsValue 0 (decimalLoop fuel n acc) = digitsValue n acc := by
  intro fuel
  induction fuel with
  | zero => intro n acc h; omega
  | succ k ih =>
    intro n acc hf
    simp only [decimalLoop]
    split
    · rw [digitsValue_cons]
      congr 1; omega
    · rw [ih (n / 10) _ (by omega), digitsValue_cons]
      congr 1; omega

theorem digitsValue_decimal (n : Nat) : digitsValue 0 (decimal n) = n := by
  rw [decimal, digitsValue_decimalLoop (n + 1) n [] (by omega)]
  rfl

theorem not_ok_error {α : Type} (x : Except Err α) (h : ∀ a, x ≠ Except.ok a) :
    ∃ e, x = Except.error e := by
  cases x with
  | error e => exact ⟨e, rfl⟩
  | ok a => exact absurd rfl (h a)

theorem NumericID_string_blank (s : List Nat) (hs : trimSpace s = []) :
    NumericID.UnmarshalJSON (jsonQuote s) = Except.error Err.idRequired := by
  have h1 : ¬ (jsonQuote s).length = 0 := by simp [jsonQuote]
  have h2 : (jsonQuote s).head? = some 34 := rfl
  simp only [NumericID.UnmarshalJSON, h1, h2, if_true, if_false, unmarshalString_jsonQuote, hs]

theorem NumericID_string_bad (s : List Nat) (hs : trimSpace s ≠ [])
    (hbad : (∃ c ∈ trimSpace s, isDigit c = false) ∨ 2 ^ 64 ≤ digitsValue 0 (trimSpace s)) :
    NumericID.UnmarshalJSON (jsonQuote s) = Except.error Err.idNotNumeric := by
  have h1 : ¬ (jsonQuote s).length = 0 := by simp [jsonQuote]
  have h2 : (jsonQuote s).head? = some 34 := rfl
  simp only [NumericID.UnmarshalJSON, h1, h2, if_true, if_false, unmarshalString_jsonQuote, hs]
  cases hpu : parseUint (trimSpace s) with
  | none => rfl
  | some m =>
    obtain ⟨⟨_, hall, hval⟩, hlt⟩ := (parseUint_iff _ _).mp hpu
    rcases hbad with ⟨c, hc, hd⟩ | hbig
    · rw [List.all_eq_true] at hall
      rw [hall c hc] at hd; cases hd
    · omega

theorem NumericID_string_ok (s : List Nat) (n : Nat) :
    NumericID.UnmarshalJSON (jsonQuote s) = Except.ok n
      ↔ n < 2 ^ 64 ∧ isDecimalOf (trimSpace s) n := by
  have h1 : ¬ (jsonQuote s).length = 0 := by simp [jsonQuote]
  have h2 : (jsonQuote s).head? = some 34 := rfl
  simp only [NumericID.UnmarshalJSON, h1, h2, if_true, if_false, unmarshalString_jsonQuote]
  by_cases ht : trimSpace s = []
  · simp [ht, isDecimalOf]
  · simp only [ht, if_false]
    rw [← parseUint_ok_iff]
    cases parseUint (trimSpace s) <;> simp

theorem NumericID_number_overflow (n : Nat) (hn : 2 ^ 64 ≤ n) :
    ∃ e, NumericID.UnmarshalJSON (decimal n) = Except.error e := by
  apply not_ok_error
  intro m hm
  obtain ⟨_, hlt, v, rest, hp, hd⟩ := (NumericID_iff _ _).mp hm
  rw [parseValue_decimal] at hp
  cases hp
  simp only [denotesID, isDecimalOf, digitsValue_decimal] at hd
  omega

theorem takeWhile_numberBytes (cs : List Nat) (h : ∀ x ∈ cs, isNumberByte x = true) :
    cs.takeWhile isNumberByte = cs ∧ cs.dropWhile isNumberByte = [] := by
  induction cs with
  | nil => exact ⟨rfl, rfl⟩
  | cons c rest ih =>
    have hc := h c (List.mem_cons_self _ _)
    obtain ⟨h1, h2⟩ := ih (fun x hx => h x (List.mem_cons_of_mem _ hx))
    simp [List.takeWhile, List.dropWhile, hc, h1, h2]

theorem parseValue_numberBytes (c : Nat) (cs : List Nat) (k : Nat)
    (h : ∀ x ∈ c :: cs, isNumberByte x = true) :
    parseValue (k + 1) (c :: cs) = some (JVal.num (c :: cs), []) := by
  have hc := h c (List.mem_cons_self _ _)
  obtain ⟨ht, hdr⟩ := takeWhile_numberBytes cs (fun x hx => h x (List.mem_cons_of_mem _ hx))
  have hcases : c = 45 ∨ c = 43 ∨ c = 46 ∨ c = 101 ∨ c = 69 ∨ (48 ≤ c ∧ c ≤ 57) := by
    simp only [isNumberByte, isDigit, Bool.or_eq_true, Bool.and_eq_true, decide_eq_true_eq,
      beq_iff_eq] at hc
    omega
  rcases hcases with rfl | rfl | rfl | rfl | rfl | ⟨h1, h2⟩
  · simp [parseValue, skipSpace, isSpace, isNumberByte, isDigit, ht, hdr, stripLit]
  · simp [parseValue, skipSpace, isSpace, isNumberByte, isDigit, ht, hdr, stripLit]
  · simp [parseValue, skipSpace, isSpace, isNumberByte, isDigit, ht, hdr, stripLit]
  · simp [parseValue, skipSpace, isSpace, isNumberByte, isDigit, ht, hdr, stripLit]
  · simp [parseValue, skipSpace, isSpace, isNumberByte, isDigit, ht, hdr, stripLit]
  · interval_cases c <;>
      simp [parseValue, skipSpace, isSpace, isNumberByte, isDigit, ht, hdr, stripLit]

theorem NumericID_number_bad (lit : List Nat) (hne : lit ≠ [])
    (hall : ∀ x ∈ lit, isNumberByte x = true) (hbad : ∃ c ∈ lit, isDigit c = false) :
    ∃ e, NumericID.UnmarshalJSON lit = Except.error e := by
  apply not_ok_error
  intro m hm
  obtain ⟨_, hlt, v, rest, hp, hd⟩ := (NumericID_iff _ _).mp hm
  cases lit with
  | nil => exact hne rfl
  | cons c cs =>
    rw [List.length_cons, parseValue_numberBytes c cs _ hall] at hp
    cases hp
    obtain ⟨x, hx, hxd⟩ := hbad
    simp only [denotesID, isDecimalOf] at hd
    have := hd.2.2.1
    rw [List.all_eq_true] at this
    rw [this x hx] at hxd
    cases hxd

theorem recordsRun_bad (atEnd : List ImportUser → Int → Option StreamResult)
    (pre : List (List Nat)) (us : List ImportUser) (r : List Nat) (post : List (List Nat))
    (e : Err)
    (hdec : List.Forall₂ (fun r u => unmarshalImportUser r = Except.ok u) pre us)
    (hbad : unmarshalImportUser r = Except.error e) :
    recordsRun background (pre ++ r :: post) [] 0 atEnd
      = some { sent := us, total := pre.length, err := some e } := by
  rw [recordsRun_ok background (r :: post) atEnd pre us hdec [] 0 (by intro i _; rfl)]
  simp only [recordsRun, List.append_nil, background, hbad]
  simp

theorem streamUsers_bad_after (pre : List (List Nat)) (us : List ImportUser) (r : List Nat)
    (post : List (List Nat)) (e : Err)
    (hobj : ∀ x ∈ pre ++ r :: post, isObjectText x = true)
    (hdec : List.Forall₂ (fun r u => unmarshalImportUser r = Except.ok u) pre us)
    (hbad : unmarshalImportUser r = Except.error e) :
    streamUsers background (arrayFraming (pre ++ r :: post))
      = some { sent := us, total := pre.length, err := some e }
    ∧ streamUsers background (concatFraming (pre ++ r :: post))
      = some { sent := us, total := pre.length, err := some e } := by
  constructor
  · rw [streamUsers_array background _ hobj]
    exact recordsRun_bad _ pre us r post e hdec hbad
  · obtain ⟨x, xs, hx⟩ : ∃ x xs, pre ++ r :: post = x :: xs := by
      cases pre with
      | nil => exact ⟨r, post, rfl⟩
      | cons a as => exact ⟨a, as ++ r :: post, rfl⟩
    have hobj1 : ∀ y ∈ x :: xs, isObjectText y = true := by rw [← hx]; exact hobj
    obtain ⟨fuel, _, hs⟩ := streamUsers_concat background x xs [] hobj1
    rw [List.append_nil, ← hx] at hs
    rw [hs]
    exact recordsRun_bad _ pre us r post e hdec hbad

theorem storeUser_ok_ids (ms : List (List Nat × List Nat × JVal)) (u : ImportUser)
    (h : storeUser (JVal.obj ms) = Except.ok u) (key raw : List Nat) (v : JVal)
    (hm : (key, raw, v) ∈ ms) (hk : keyMatches "id" key = true) :
    ∃ n, NumericID.UnmarshalJSON raw = Except.ok n := by
  cases hid : NumericID.UnmarshalJSON raw with
  | ok n => exact ⟨n, rfl⟩
  | error e =>
    obtain ⟨e1, he1⟩ := storeUserMembers_bad_id ms ImportUser.zero [] none
      ⟨(key, raw, v), hm, hk, e, hid⟩
    simp [storeUser, he1] at h

/-- C8, as the code has it: an `id` member is checked when the record is
decoded, and it must give an unsigned 64-bit integer.
`NumericID.UnmarshalJSON` succeeds with `n` exactly when the text is valid
JSON, `n < 2^64`, and the value is a string whose trimmed content is a
decimal numeral of `n`, a number whose literal is a decimal numeral of `n`,
or `null` with `n = 0`.  So an empty or blank string (`id is required`), a
string with a character that is no digit or with a value of `2^64` or more
(`id must be numeric`), a number with a sign, a fraction or an exponent, a
number of `2^64` or more, `true`, `false`, an array and an object are all
refused; a record decodes only if every `id` member passes; and in both
framings `streamUsers`, after `K` good records, returns `(K, err)` at such a
record without sending it or any later one.  Not refused at decode time:
a record without an `id` member decodes with `ID = 0` and is turned down
afterwards by `ValidateImportUser`, and the values `0` and `null` decode to
the identifier 0. -/
theorem id_checked_at_decode :
    (∀ raw n, NumericID.UnmarshalJSON raw = Except.ok n
        ↔ checkValid raw = true ∧ n < 2 ^ 64
          ∧ ∃ v rest, parseValue (raw.length + 1) raw = some (v, rest)
              ∧ denotesID (raw.head? == some 34) v n)
    ∧ (∀ s, trimSpace s = [] →
        NumericID.UnmarshalJSON (jsonQuote s) = Except.error Err.idRequired)
    ∧ (∀ s, trimSpace s ≠ [] →
        ((∃ c ∈ trimSpace s, isDigit c = false) ∨ 2 ^ 64 ≤ digitsValue 0 (trimSpace s)) →
        NumericID.UnmarshalJSON (jsonQuote s) = Except.error Err.idNotNumeric)
    ∧ (∀ lit, lit ≠ [] → (∀ x ∈ lit, isNumberByte x = true) →
        (∃ c ∈ lit, isDigit c = false) →
        ∃ e, NumericID.UnmarshalJSON lit = Except.error e)
    ∧ (∀ n, 2 ^ 64 ≤ n → ∃ e, NumericID.UnmarshalJSON (decimal n) = Except.error e)
    ∧ (∀ (ms : List (List Nat × List Nat × JVal)) u key raw v,
        storeUser (JVal.obj ms) = Except.ok u → (key, raw, v) ∈ ms →
        keyMatches "id" key = true →
        ∃ n, n < 2 ^ 64 ∧ NumericID.UnmarshalJSON raw = Except.ok n
          ∧ ∃ v1 rest, parseValue (raw.length + 1) raw = some (v1, rest)
              ∧ denotesID (raw.head? == some 34) v1 n)
    ∧ (∀ (pre : List (List Nat)) (us : List ImportUser) (r : List Nat)
        (post : List (List Nat)) (e : Err),
        (∀ x ∈ pre ++ r :: post, isObjectText x = true) →
        List.Forall₂ (fun r u => unmarshalImportUser r = Except.ok u) pre us →
        unmarshalImportUser r = Except.error e →
        streamUsers background (arrayFraming (pre ++ r :: post))
          = some { sent := us, total := pre.length, err := some e }
        ∧ streamUsers background (concatFraming (pre ++ r :: post))
          = some { sent := us, total := pre.length, err := some e })
    ∧ (unmarshalImportUser (objText "\"id\":\"\"") = Except.error Err.idRequired
      ∧ unmarshalImportUser (objText "\"id\":\" \"") = Except.error Err.idRequired
      ∧ unmarshalImportUser (objText "\"id\":\"abc\"") = Except.error Err.idNotNumeric
      ∧ unmarshalImportUser (objText "\"id\":\"-1\"") = Except.error Err.idNotNumeric
      ∧ unmarshalImportUser (objText "\"id\":\"18446744073709551616\"")
        = Except.error Err.idNotNumeric
      ∧ unmarshalImportUser (objText "\"id\":-1") = Except.error Err.typeMismatch
      ∧ unmarshalImportUser (objText "\"id\":1.5") = Except.error Err.typeMismatch
      ∧ unmarshalImportUser (objText "\"id\":1e2") = Except.error Err.typeMismatch
      ∧ unmarshalImportUser (objText "\"id\":18446744073709551616")
        = Except.error Err.typeMismatch
      ∧ unmarshalImportUser (objText "\"id\":true") = Except.error Err.typeMismatch
      ∧ unmarshalImportUser (objText "\"id\":false") = Except.error Err.typeMismatch
      ∧ unmarshalImportUser (objText "\"id\":[1]") = Except.error Err.typeMismatch
      ∧ unmarshalImportUser (objText ("\"id\":" ++ "\x7b\x7d"))
        = Except.error Err.typeMismatch
      ∧ unmarshalImportUser (objText "\"id\":18446744073709551615")
        = Except.ok { ImportUser.zero with ID := 18446744073709551615 }
      ∧ streamUsers background
          (arrayFraming [recordOne, objText "\"id\":\"abc\"", recordTwo])
        = some { sent := [userOne], total := 1, err := some Err.idNotNumeric }
      ∧ streamUsers background (concatFraming [recordOne, objText "\"id\":-1", recordTwo])
        = some { sent := [userOne], total := 1, err := some Err.typeMismatch })
    ∧ (∀ (ms : List (List Nat × List Nat × JVal)) u,
        (∀ m ∈ ms, keyMatches "id" m.1 = false) → storeUser (JVal.obj ms) = Except.ok u →
        u.ID = 0 ∧ ValidateImportUser u = some (Err.invalid 0))
    ∧ NumericID.UnmarshalJSON (decimal 0) = Except.ok 0
    ∧ NumericID.UnmarshalJSON (bytes "null") = Except.ok 0 := by
  refine ⟨NumericID_iff, NumericID_string_blank, NumericID_string_bad, NumericID_number_bad,
    NumericID_number_overflow, ?_, streamUsers_bad_after, ?_, ?_, by decide, by decide⟩
  · intro ms u key raw v hok hm hk
    obtain ⟨n, hn⟩ := storeUser_ok_ids ms u hok key raw v hm hk
    obtain ⟨_, hlt, hex⟩ := (NumericID_iff raw n).mp hn
    exact ⟨n, hlt, hn, hex⟩
  · repeat (first | exact And.intro (by decide) (by decide) | refine And.intro (by decide) ?_)
  · intro ms u hno h
    simp only [storeUser] at h
    split at h
    · cases h
    · rename_i u1 hok
      cases h
      have hid := storeUserMembers_no_id ms ImportUser.zero [] none u none hno hok
      have h0 : u.ID = 0 := by rw [hid]; rfl
      exact ⟨h0, by simp [ValidateImportUser, h0]⟩
    · cases h

end UserImport
